import Mathlib

/-!
# Verification of the evmone modular-arithmetic core and related components

This file gives a shallow embedding, in Lean 4, of the parts of the evmone
code base referenced by the specification claims:

* the word-level Montgomery multiplication (CIOS) of `evmmax::ModArith`
  (`src/unnamed/part_000`) and of `mul_mont` / `mul_amm` in
  `src/lib/evmone_precompiles/modexp.cpp`;
* the binary extended-Euclid modular inversion `ModArith::inv`;
* the Newton–Raphson 64-bit inverse `inv_mod` and the power-of-two modular
  inversion `modinv_pow2`;
* the full variable-width `evmone::crypto::modexp`;
* the secp256r1 signature verification `evmmax::secp256r1::verify` and the
  generic elliptic-curve scalar multiplication `evmmax::ecc::mul`;
* `bn254::validate`;
* `CodeAnalysis::check_jumpdest` (`src/lib/evmone/baseline.hpp`);
* `collect_deposit_requests` (`src/test/state/requests.cpp`).

Machine words are modelled as natural numbers below `2 ^ 64`; multi-word
integers either as little-endian lists of such words or as natural numbers
below `2 ^ W` with explicit `% 2 ^ W` wrapping where the C++ fixed-width
arithmetic wraps.  C++ `while` loops are modelled by structurally recursive
functions taking an explicit fuel argument that is instantiated, at each
call site, with a proven upper bound on the number of iterations, so that
every definition remains executable by kernel reduction.
-/

namespace Evmone

/-- The word base `2 ^ 64` of the 64-bit machine words used everywhere. -/
def wb : Nat := 2 ^ 64

/-- Value of a little-endian list of 64-bit words
(the value of `intx::uint` words or of a `std::span<uint64_t>`). -/
def wval : List Nat → Nat
  | [] => 0
  | w :: ws => w + wb * wval ws

/-- All entries of a word list are below the word base. -/
def wordsWf (ws : List Nat) : Prop := ∀ w ∈ ws, w < wb

/-- Little-endian word decomposition of a natural number into `n` words
(the `intx` representation of `x % 2 ^ (64 n)`). -/
def toWords : Nat → Nat → List Nat
  | 0, _ => []
  | n + 1, x => x % wb :: toWords n (x / wb)

theorem wval_nil : wval [] = 0 := rfl

theorem wval_cons (w : Nat) (ws : List Nat) : wval (w :: ws) = w + wb * wval ws := rfl

theorem wb_pos : 0 < wb := Nat.pos_pow_of_pos 64 (by decide)

theorem wval_toWords (n x : Nat) : wval (toWords n x) = x % 2 ^ (64 * n) := by
  induction n generalizing x with
  | zero => simp [toWords, wval, Nat.mod_one]
  | succ n ih =>
    have h : (2 : Nat) ^ (64 * (n + 1)) = wb * 2 ^ (64 * n) := by
      rw [Nat.mul_succ, pow_add, Nat.mul_comm]; rfl
    rw [toWords, wval_cons, ih, h, Nat.mod_mul]

theorem toWords_wf (n x : Nat) : wordsWf (toWords n x) := by
  induction n generalizing x with
  | zero => intro w hw; simp [toWords] at hw
  | succ n ih =>
    intro w hw
    rw [toWords, List.mem_cons] at hw
    rcases hw with hw | hw
    · exact hw ▸ Nat.mod_lt _ wb_pos
    · exact ih _ _ hw

theorem toWords_length (n x : Nat) : (toWords n x).length = n := by
  induction n generalizing x with
  | zero => rfl
  | succ n ih => simp [toWords, ih]

theorem wval_append_single (l : List Nat) (a : Nat) :
    wval (l ++ [a]) = wval l + wb ^ l.length * a := by
  induction l with
  | nil => simp [wval]
  | cons w ws ih =>
    simp only [List.cons_append, wval_cons, ih, List.length_cons, pow_succ]
    ring

theorem wval_mod_wb (w : Nat) (ws : List Nat) : wval (w :: ws) % wb = w % wb := by
  rw [wval_cons, Nat.add_mul_mod_self_left]

/-- Embedding of the multi-word multiply–accumulate loop `addmul` of
`modexp.cpp` (`r[] = p[] + x[] * y (+ c)`): each step computes the 128-bit
`t = umul(x[i], y) + p[i] + c`, stores the low word and carries the high word.
Returns the result words together with the final carry. -/
def addmulL : List Nat → List Nat → Nat → Nat → List Nat × Nat
  | p :: ps, x :: xs, y, c =>
    let t := x * y + p + c
    let pr := addmulL ps xs y (t / wb)
    (t % wb :: pr.1, pr.2)
  | _, _, _, c => ([], c)

theorem addmulL_length (p x : List Nat) (y c : Nat) (h : p.length = x.length) :
    (addmulL p x y c).1.length = p.length := by
  induction p generalizing x c with
  | nil => cases x <;> simp [addmulL] at h ⊢
  | cons a ps ih =>
    cases x with
    | nil => simp at h
    | cons b xs =>
      simp only [addmulL, List.length_cons]
      rw [ih xs _ (by simpa using h)]

/-- Value semantics of the `addmul` loop:
`wval r + carry * wb ^ n = wval p + wval x * y + c`. -/
theorem addmulL_spec (p x : List Nat) (y c : Nat) (h : p.length = x.length) :
    wval (addmulL p x y c).1 + (addmulL p x y c).2 * wb ^ p.length =
      wval p + wval x * y + c := by
  induction p generalizing x c with
  | nil =>
    cases x with
    | nil => simp [addmulL, wval]
    | cons b xs => simp at h
  | cons a ps ih =>
    cases x with
    | nil => simp at h
    | cons b xs =>
      have h' : ps.length = xs.length := by simpa using h
      simp only [addmulL, wval_cons, List.length_cons, pow_succ]
      have ihs := ih xs ((b * y + a + c) / wb) h'
      have hdm := Nat.div_add_mod (b * y + a + c) wb
      nlinarith [ihs, hdm]

theorem addmulL_head (a b : Nat) (ps xs : List Nat) (y c : Nat) :
    (addmulL (a :: ps) (b :: xs) y c).1.headD 0 = (b * y + a + c) % wb := rfl

/-- One outer iteration (for the word `y[i]`) of the Coarsely Integrated
Operand Scanning loop shared by `ModArith::mul` (`src/unnamed/part_000`) and
`mul_mont` (`modexp.cpp`).  The accumulator `t` is the `S+1`-word value of the
`intx::uint<num_bits + 64>` variable `t`:
first `t[0..S-1] += x[] * y[i]` (carry into `t[S]`, overflow bit `d1`), then
`m = t[0] * mod_inv`, and the reduction pass shifts the words down by one
while adding `m * mod[]`, with the final word set to `d1 + d2`. -/
def ciosIter (modw : List Nat) (modInv : Nat) (xw : List Nat) (yi : Nat)
    (t : List Nat) : List Nat :=
  let S := xw.length
  let lo := t.take S
  let tS := t.getD S 0
  let a1 := addmulL lo xw yi 0
  let sum1 := (tS + a1.2) % wb
  let d1 := (tS + a1.2) / wb
  let t0 := a1.1.headD 0
  let m := t0 * modInv % wb
  let c2 := (m * modw.headD 0 + t0) / wb
  let a2 := addmulL a1.1.tail modw.tail m c2
  let sum2 := (sum1 + a2.2) % wb
  let d2 := (sum1 + a2.2) / wb
  a2.1 ++ [sum2, d1 + d2]

/-- Mathematical content of one CIOS iteration: one word-step of Montgomery
reduction, `t ← (t + x*yᵢ + q*m) / 2^64` for the canceling quotient `q`. -/
def montRed (mval modInv t xv yi : Nat) : Nat :=
  (t + xv * yi + (t + xv * yi) % wb * modInv % wb * mval) / wb

theorem addmulL_length_min (p x : List Nat) (y c : Nat) :
    (addmulL p x y c).1.length = min p.length x.length := by
  induction p generalizing x c with
  | nil => cases x <;> simp [addmulL]
  | cons a ps ih =>
    cases x with
    | nil => simp [addmulL]
    | cons b xs => simp [addmulL, ih, Nat.succ_min_succ]

theorem cons_headD_tail {l : List Nat} (h : l ≠ []) : l = l.headD 0 :: l.tail := by
  cases l with
  | nil => exact absurd rfl h
  | cons a t => rfl

theorem ciosIter_length (modw : List Nat) (modInv : Nat) (xw : List Nat)
    (yi : Nat) (t : List Nat) (S : Nat) (hS : 1 ≤ S) (hx : xw.length = S)
    (hmod : modw.length = S) (ht : t.length = S + 1) :
    (ciosIter modw modInv xw yi t).length = S + 1 := by
  simp only [ciosIter, List.length_append, List.length_cons, List.length_nil,
    addmulL_length_min, List.length_tail, List.length_take, hx, hmod, ht]
  omega

/-- The value computed by one CIOS iteration is exactly one step of
word-level Montgomery reduction. -/
theorem ciosIter_spec (modw : List Nat) (modInv : Nat) (xw : List Nat)
    (yi : Nat) (t : List Nat) (S : Nat) (hS : 1 ≤ S) (hx : xw.length = S)
    (hmod : modw.length = S) (ht : t.length = S + 1)
    (hMi : modw.headD 0 * modInv % wb = wb - 1) :
    wval (ciosIter modw modInv xw yi t) =
      montRed (wval modw) modInv (wval t) (wval xw) yi := by
  -- Decompose all lists.
  obtain ⟨x0, xs, rfl⟩ : ∃ x0 xs, xw = x0 :: xs := by
    cases xw with
    | nil => simp at hx; omega
    | cons a l => exact ⟨a, l, rfl⟩
  obtain ⟨m0, ms, rfl⟩ : ∃ m0 ms, modw = m0 :: ms := by
    cases modw with
    | nil => simp at hmod; omega
    | cons a l => exact ⟨a, l, rfl⟩
  obtain ⟨lo, tS, htdec, hlo⟩ : ∃ lo tS, t = lo ++ [tS] ∧ lo.length = S := by
    have hne : t ≠ [] := by intro h; rw [h] at ht; simp at ht
    refine ⟨t.dropLast, t.getLast hne, (t.dropLast_append_getLast hne).symm, ?_⟩
    rw [List.length_dropLast, ht]
    omega
  obtain ⟨p0, ps, rfl⟩ : ∃ p0 ps, lo = p0 :: ps := by
    cases lo with
    | nil => simp at hlo; omega
    | cons a l => exact ⟨a, l, rfl⟩
  subst htdec
  simp only [List.headD_cons] at hMi
  have hxlen : xs.length = S - 1 := by
    have := hx; simp only [List.length_cons] at this; omega
  have hmlen : ms.length = S - 1 := by
    have := hmod; simp only [List.length_cons] at this; omega
  have hplen : ps.length = S - 1 := by
    have := hlo; simp only [List.length_cons] at this; omega
  -- Unfold the iteration.
  have htake : ((p0 :: ps) ++ [tS]).take (x0 :: xs).length = p0 :: ps := by
    rw [hx, ← hlo]; exact List.take_left _ _
  have hgetD : ((p0 :: ps) ++ [tS]).getD (x0 :: xs).length 0 = tS := by
    rw [hx, List.getD_eq_getElem?_getD, List.getElem?_append_right hlo.le, hlo,
      Nat.sub_self]
    rfl
  rw [ciosIter]
  simp only [htake, hgetD, List.tail_cons, List.headD_cons]
  -- Name the first multiply-accumulate pass.
  rcases h1 : addmulL (p0 :: ps) (x0 :: xs) yi 0 with ⟨r1, c1⟩
  have hr1len : r1.length = S := by
    have := addmulL_length (p0 :: ps) (x0 :: xs) yi 0 (by rw [hlo, hx])
    rw [h1] at this; simpa [hlo] using this
  have hr1ne : r1 ≠ [] := by
    intro h; rw [h] at hr1len; simp at hr1len; omega
  have e1 : wval r1 + c1 * wb ^ S = wval (p0 :: ps) + wval (x0 :: xs) * yi := by
    have h := addmulL_spec (p0 :: ps) (x0 :: xs) yi 0 (by rw [hlo, hx])
    rw [h1] at h
    dsimp only at h
    rw [hlo] at h
    simpa using h
  have ht0 : r1.headD 0 = (x0 * yi + p0 + 0) % wb := by
    have := addmulL_head p0 x0 ps xs yi 0
    rw [h1] at this
    exact this
  have e6 : wval r1 = r1.headD 0 + wb * wval r1.tail := by
    conv_lhs => rw [cons_headD_tail hr1ne]
    rw [wval_cons]
  -- Abbreviations for the reduction pass.
  set t0 := r1.headD 0 with ht0def
  set m := t0 * modInv % wb with hm
  set c2 := (m * m0 + t0) / wb with hc2
  rcases h2 : addmulL r1.tail ms m c2 with ⟨r2, c3⟩
  have hr1tlen : r1.tail.length = S - 1 := by rw [List.length_tail, hr1len]
  have hr2len : r2.length = S - 1 := by
    have h := addmulL_length r1.tail ms m c2 (by rw [hr1tlen, hmlen])
    rw [h2] at h
    dsimp only at h
    rw [hr1tlen] at h
    exact h
  have e2 : wval r2 + c3 * wb ^ (S - 1) = wval r1.tail + wval ms * m + c2 := by
    have h := addmulL_spec r1.tail ms m c2 (by rw [hr1tlen, hmlen])
    rw [h2] at h
    dsimp only at h
    rw [hr1tlen] at h
    exact h
  -- The low word of the reduction pass vanishes.
  have hlow : (m * m0 + t0) % wb = 0 := by
    have hmc : m ≡ t0 * modInv [MOD wb] := Nat.mod_modEq _ _
    have hstep1 : m * m0 + t0 ≡ t0 * (m0 * modInv) + t0 [MOD wb] := by
      calc m * m0 + t0 ≡ t0 * modInv * m0 + t0 [MOD wb] :=
            Nat.ModEq.add_right _ (hmc.mul_right _)
        _ = t0 * (m0 * modInv) + t0 := by ring
    have hwm : m0 * modInv ≡ wb - 1 [MOD wb] := by
      unfold Nat.ModEq
      rw [hMi, Nat.mod_eq_of_lt (by have := wb_pos; omega)]
    have hstep2 : t0 * (m0 * modInv) + t0 ≡ t0 * (wb - 1) + t0 [MOD wb] :=
      Nat.ModEq.add_right _ (Nat.ModEq.mul_left _ hwm)
    have hsp : wb - 1 + 1 = wb := Nat.succ_pred_eq_of_pos wb_pos
    have h3 : t0 * (wb - 1) + t0 = t0 * wb := by
      calc t0 * (wb - 1) + t0 = t0 * (wb - 1 + 1) := by ring
        _ = t0 * wb := by rw [hsp]
    have h4 : m * m0 + t0 ≡ 0 [MOD wb] := by
      calc m * m0 + t0 ≡ t0 * (wb - 1) + t0 [MOD wb] := hstep1.trans hstep2
        _ = t0 * wb := h3
        _ ≡ 0 [MOD wb] := by simp [Nat.ModEq, Nat.mul_mod_left]
    simpa [Nat.ModEq] using h4
  have e5 : wb * c2 = m * m0 + t0 := by
    rw [hc2]
    have h := Nat.div_add_mod (m * m0 + t0) wb
    rw [hlow] at h
    simpa using h
  -- Remaining div/mod decompositions.
  have e3 : (tS + c1) % wb + wb * ((tS + c1) / wb) = tS + c1 := Nat.mod_add_div _ _
  have e4 : ((tS + c1) % wb + c3) % wb + wb * (((tS + c1) % wb + c3) / wb) =
      (tS + c1) % wb + c3 := Nat.mod_add_div _ _
  -- The quotient of montRed equals m.
  have hAmod : (wval ((p0 :: ps) ++ [tS]) + wval (x0 :: xs) * yi) % wb = t0 := by
    have hexp : wval ((p0 :: ps) ++ [tS]) + wval (x0 :: xs) * yi =
        x0 * yi + p0 + 0 + wb * (wval (ps ++ [tS]) + wval xs * yi) := by
      simp only [List.cons_append, wval_cons]
      ring
    rw [hexp, Nat.add_mul_mod_self_left]
    exact ht0.symm
  -- Value of the result list.
  have hSdec : S - 1 + 1 = S := by omega
  have hpow : wb ^ S = wb ^ (S - 1) * wb := by rw [← pow_succ, hSdec]
  have hW : wval (r2 ++ [((tS + c1) % wb + c3) % wb,
        (tS + c1) / wb + ((tS + c1) % wb + c3) / wb]) =
      wval r2 + wb ^ (S - 1) * (((tS + c1) % wb + c3) % wb) +
        wb ^ (S - 1) * wb * ((tS + c1) / wb + ((tS + c1) % wb + c3) / wb) := by
    rw [show r2 ++ [((tS + c1) % wb + c3) % wb,
        (tS + c1) / wb + ((tS + c1) % wb + c3) / wb] =
        (r2 ++ [((tS + c1) % wb + c3) % wb]) ++
          [(tS + c1) / wb + ((tS + c1) % wb + c3) / wb] by simp]
    rw [wval_append_single, wval_append_single, hr2len]
    simp only [List.length_append, List.length_cons, List.length_nil, hr2len]
    try rw [pow_succ]
    try ring
  have e8 : wval ((p0 :: ps) ++ [tS]) = wval (p0 :: ps) + wb ^ S * tS := by
    rw [wval_append_single]
    simp [hlo]
  -- Assemble: wb * result = accumulated value + m * modulus.
  have hkey : wb * wval (r2 ++ [((tS + c1) % wb + c3) % wb,
        (tS + c1) / wb + ((tS + c1) % wb + c3) / wb]) =
      wval ((p0 :: ps) ++ [tS]) + wval (x0 :: xs) * yi + m * wval (m0 :: ms) := by
    have hmval : wval (m0 :: ms) = m0 + wb * wval ms := wval_cons _ _
    rw [hW, e8, hmval]
    zify at e1 e2 e3 e4 e5 e6 hpow ⊢
    linear_combination (wb : ℤ) * e2 + (wb : ℤ) * (wb : ℤ) ^ (S - 1) * e4 +
      (wb : ℤ) * (wb : ℤ) ^ (S - 1) * e3 + e5 - e6 + e1 -
      ((tS : ℤ) + (c1 : ℤ)) * hpow
  rw [montRed, hAmod, hkey.symm, Nat.mul_div_cancel_left _ wb_pos]

/-- The outer loop of `ModArith::mul` / `mul_mont` over the words of `y`
(`for (size_t i = 0; i != S; ++i)`). -/
def ciosLoop (modw : List Nat) (modInv : Nat) (xw : List Nat) :
    List Nat → List Nat → List Nat
  | [], t => t
  | yi :: ys, t => ciosLoop modw modInv xw ys (ciosIter modw modInv xw yi t)

/-- Value-level version of the CIOS loop. -/
def montLoop (mval modInv xv : Nat) : List Nat → Nat → Nat
  | [], t => t
  | yi :: ys, t => montLoop mval modInv xv ys (montRed mval modInv t xv yi)

theorem ciosLoop_spec (modw : List Nat) (modInv : Nat) (xw ys t : List Nat)
    (S : Nat) (hS : 1 ≤ S) (hx : xw.length = S) (hmod : modw.length = S)
    (ht : t.length = S + 1) (hMi : modw.headD 0 * modInv % wb = wb - 1) :
    wval (ciosLoop modw modInv xw ys t) =
      montLoop (wval modw) modInv (wval xw) ys (wval t) := by
  induction ys generalizing t with
  | nil => rfl
  | cons yi ys ih =>
    rw [ciosLoop, montLoop,
      ← ciosIter_spec modw modInv xw yi t S hS hx hmod ht hMi]
    exact ih _ (ciosIter_length modw modInv xw yi t S hS hx hmod ht)

/-- The canceling low word of the Montgomery reduction step:
`(t0 * modInv % wb * m0 + t0) % wb = 0` whenever `m0 * modInv ≡ -1 (mod wb)`. -/
theorem mont_low_cancel (t0 m0 modInv : Nat)
    (h : m0 * modInv % wb = wb - 1) :
    (t0 * modInv % wb * m0 + t0) % wb = 0 := by
  have hmc : t0 * modInv % wb ≡ t0 * modInv [MOD wb] := Nat.mod_modEq _ _
  have hwm : m0 * modInv ≡ wb - 1 [MOD wb] := by
    unfold Nat.ModEq
    rw [h, Nat.mod_eq_of_lt (by have := wb_pos; omega)]
  have hsp : wb - 1 + 1 = wb := Nat.succ_pred_eq_of_pos wb_pos
  have h4 : t0 * modInv % wb * m0 + t0 ≡ 0 [MOD wb] := by
    calc t0 * modInv % wb * m0 + t0
        ≡ t0 * modInv * m0 + t0 [MOD wb] := Nat.ModEq.add_right _ (hmc.mul_right _)
      _ = t0 * (m0 * modInv) + t0 := by ring
      _ ≡ t0 * (wb - 1) + t0 [MOD wb] :=
          Nat.ModEq.add_right _ (Nat.ModEq.mul_left _ hwm)
      _ = t0 * (wb - 1 + 1) := by ring
      _ = t0 * wb := by rw [hsp]
      _ ≡ 0 [MOD wb] := by simp [Nat.ModEq, Nat.mul_mod_left]
  simpa [Nat.ModEq] using h4

/-- The division in `montRed` is exact. -/
theorem montRed_mul_wb (mval modInv t xv yi : Nat)
    (hMi : mval % wb * modInv % wb = wb - 1) :
    montRed mval modInv t xv yi * wb =
      t + xv * yi + (t + xv * yi) % wb * modInv % wb * mval := by
  rw [montRed]
  set t1 := t + xv * yi with ht1
  have hdvd : (t1 + t1 % wb * modInv % wb * mval) % wb = 0 := by
    have hc := mont_low_cancel (t1 % wb) (mval % wb) modInv hMi
    have : t1 + t1 % wb * modInv % wb * mval ≡
        t1 % wb * modInv % wb * (mval % wb) + t1 % wb [MOD wb] := by
      have h1 : t1 ≡ t1 % wb [MOD wb] := (Nat.mod_modEq _ _).symm
      have h2 : t1 % wb * modInv % wb * mval ≡
          t1 % wb * modInv % wb * (mval % wb) [MOD wb] :=
        Nat.ModEq.mul_left _ (Nat.mod_modEq _ _).symm
      calc t1 + t1 % wb * modInv % wb * mval
          ≡ t1 % wb + t1 % wb * modInv % wb * (mval % wb) [MOD wb] := h1.add h2
        _ = t1 % wb * modInv % wb * (mval % wb) + t1 % wb := by ring
    have hmod2 : (t1 % wb * modInv % wb * (mval % wb) + t1 % wb) % wb = 0 := by
      have := mont_low_cancel (t1 % wb) (mval % wb) modInv hMi
      simpa [Nat.mod_mod_of_dvd] using this
    calc (t1 + t1 % wb * modInv % wb * mval) % wb
        = (t1 % wb * modInv % wb * (mval % wb) + t1 % wb) % wb := this
      _ = 0 := hmod2
  have := Nat.div_add_mod (t1 + t1 % wb * modInv % wb * mval) wb
  rw [hdvd, Nat.add_zero] at this
  calc (t1 + t1 % wb * modInv % wb * mval) / wb * wb
      = wb * ((t1 + t1 % wb * modInv % wb * mval) / wb) := by ring
    _ = t1 + t1 % wb * modInv % wb * mval := this

/-- One Montgomery reduction step keeps the accumulator below `m + x`. -/
theorem montRed_lt (mval modInv t xv yi : Nat)
    (ht : t < mval + xv) (hyi : yi < wb) :
    montRed mval modInv t xv yi < mval + xv := by
  rw [montRed, Nat.div_lt_iff_lt_mul wb_pos]
  have hq : (t + xv * yi) % wb * modInv % wb < wb := Nat.mod_lt _ wb_pos
  zify at ht hyi hq ⊢
  nlinarith [ht, hyi, hq]

/-- Montgomery congruence of the CIOS loop:
the final accumulator times `wb ^ n` is `t + x * y` modulo `m`. -/
theorem montLoop_modeq (mval modInv xv : Nat) (ys : List Nat) (t : Nat)
    (hMi : mval % wb * modInv % wb = wb - 1) :
    montLoop mval modInv xv ys t * wb ^ ys.length ≡ t + xv * wval ys [MOD mval] := by
  induction ys generalizing t with
  | nil => simp [montLoop, wval, Nat.ModEq]
  | cons yi ys ih =>
    rw [montLoop, List.length_cons, wval_cons]
    have hstep : montRed mval modInv t xv yi * wb ≡ t + xv * yi [MOD mval] := by
      rw [montRed_mul_wb mval modInv t xv yi hMi]
      have : (t + xv * yi) % wb * modInv % wb * mval ≡ 0 [MOD mval] := by
        simp [Nat.ModEq, Nat.mul_mod_left]
      simpa using (Nat.ModEq.refl (t + xv * yi)).add this
    have ihs := ih (montRed mval modInv t xv yi)
    calc montLoop mval modInv xv ys (montRed mval modInv t xv yi) * wb ^ (ys.length + 1)
        = montLoop mval modInv xv ys (montRed mval modInv t xv yi) * wb ^ ys.length * wb := by
          rw [pow_succ]; ring
      _ ≡ (montRed mval modInv t xv yi + xv * wval ys) * wb [MOD mval] := ihs.mul_right wb
      _ = montRed mval modInv t xv yi * wb + xv * wval ys * wb := by ring
      _ ≡ t + xv * yi + xv * wval ys * wb [MOD mval] := hstep.add_right _
      _ = t + xv * (yi + wb * wval ys) := by ring

theorem montLoop_lt (mval modInv xv : Nat) :
    ∀ (ys : List Nat) (t : Nat), t < mval + xv → wordsWf ys →
      montLoop mval modInv xv ys t < mval + xv := by
  intro ys
  induction ys with
  | nil => intro t ht _; exact ht
  | cons yi ys ih =>
    intro t ht hys
    rw [montLoop]
    exact ih _ (montRed_lt mval modInv t xv yi ht (hys yi (List.mem_cons_self _ _)))
      (fun w hw => hys w (List.mem_cons_of_mem _ hw))


theorem wb_pow (S : Nat) : wb ^ S = 2 ^ (64 * S) := by
  rw [wb, ← pow_mul]

theorem wval_replicate_zero (n : Nat) : wval (List.replicate n 0) = 0 := by
  induction n with
  | zero => rfl
  | succ n ih => simp [List.replicate_succ, wval_cons, ih]

theorem toWords_headD (S m : Nat) (hS : 1 ≤ S) :
    (toWords S m).headD 0 = m % wb := by
  cases S with
  | zero => omega
  | succ n => rfl

/-- One Newton step `inv ← inv * (2 - a * inv)` of `evmmax::inv_mod`, with the
wrap-around of the C++ `uint64_t` arithmetic made explicit. -/
def invModStep (a inv : Nat) : Nat := inv * ((2 + wb - a * inv % wb) % wb) % wb

/-- The loop of `evmmax::inv_mod` after `i` iterations (the C++ runs it for
`ITERATIONS = countr_zero(64) = 6` iterations starting from `inv = 1`). -/
def invModIter (a : Nat) : Nat → Nat
  | 0 => 1
  | i + 1 => invModStep a (invModIter a i)

/-- `evmmax::inv_mod` (src/unnamed/part_000): the modular inverse of an odd
64-bit number modulo `2⁶⁴`, by six Newton–Raphson doublings. -/
def inv_mod (a : Nat) : Nat := invModIter a 6


theorem invModStep_spec (a v k : Nat) (h : a * v ≡ 1 [MOD 2 ^ k]) :
    a * invModStep a v ≡ 1 [MOD 2 ^ min (2 * k) 64] := by
  have hdvd_wb : (2 : Nat) ^ min (2 * k) 64 ∣ wb := by
    rw [wb]; exact pow_dvd_pow 2 (Nat.min_le_right _ _)
  -- Drop the outer `% wb` reductions modulo the smaller power of two.
  have h1 : a * invModStep a v ≡
      a * (v * ((2 + wb - a * v % wb) % wb)) [MOD 2 ^ min (2 * k) 64] := by
    rw [invModStep]
    exact ((Nat.mod_modEq _ wb).of_dvd hdvd_wb).mul_left a
  have h2 : a * (v * ((2 + wb - a * v % wb) % wb)) ≡
      a * (v * (2 + wb - a * v % wb)) [MOD 2 ^ min (2 * k) 64] :=
    (((Nat.mod_modEq _ wb).of_dvd hdvd_wb).mul_left v).mul_left a
  refine (h1.trans h2).trans ?_
  have hrle : a * v % wb ≤ 2 + wb :=
    le_of_lt (lt_of_lt_of_le (Nat.mod_lt _ wb_pos) (by omega))
  rw [← Int.natCast_modEq_iff]
  push_cast [Nat.cast_sub hrle]
  -- Integer arithmetic: the step squares the error term.
  have hdz : ((2 : Int) ^ min (2 * k) 64) ∣ (wb : Int) := by
    have hc : (((2 : Nat) ^ min (2 * k) 64 : Nat) : Int) ∣ ((wb : Nat) : Int) :=
      Int.natCast_dvd_natCast.2 hdvd_wb
    push_cast at hc
    exact hc
  have hWmod : (wb : Int) ≡ 0 [ZMOD (2 : Int) ^ min (2 * k) 64] :=
    Int.modEq_zero_iff_dvd.2 hdz
  have hr : (a : Int) * v % (wb : Int) ≡ (a : Int) * v [ZMOD (2 : Int) ^ min (2 * k) 64] :=
    Int.emod_emod_of_dvd _ hdz
  have hfac : (2 : Int) + (wb : Int) - (a : Int) * v % (wb : Int) ≡
      2 + 0 - (a : Int) * v [ZMOD (2 : Int) ^ min (2 * k) 64] :=
    ((Int.ModEq.refl 2).add hWmod).sub hr
  have hcong : (a : Int) * ((v : Int) * (2 + (wb : Int) - (a : Int) * v % (wb : Int))) ≡
      ((a : Int) * v) * (2 - (a : Int) * v) [ZMOD (2 : Int) ^ min (2 * k) 64] := by
    calc (a : Int) * ((v : Int) * (2 + (wb : Int) - (a : Int) * v % (wb : Int)))
        = ((a : Int) * v) * (2 + (wb : Int) - (a : Int) * v % (wb : Int)) := by ring
      _ ≡ ((a : Int) * v) * (2 + 0 - (a : Int) * v)
            [ZMOD (2 : Int) ^ min (2 * k) 64] := hfac.mul_left _
      _ = ((a : Int) * v) * (2 - (a : Int) * v) := by ring
  refine hcong.trans ?_
  -- The quadratic convergence: 1 - w(2-w) = (w-1)².
  have hz : ((a : Int) * v) ≡ 1 [ZMOD ((2 : Int) ^ k)] := by
    have hc := (Int.natCast_modEq_iff).2 h
    push_cast at hc
    exact hc
  have h1dvd : ((2 : Int) ^ k) ∣ 1 - (a : Int) * v := hz.dvd
  have hsqd : ((2 : Int) ^ (2 * k)) ∣ (1 - (a : Int) * v) ^ 2 := by
    rw [two_mul, pow_add, sq]
    exact mul_dvd_mul h1dvd h1dvd
  have hd2k : ((2 : Int) ^ min (2 * k) 64) ∣ (2 : Int) ^ (2 * k) :=
    pow_dvd_pow 2 (Nat.min_le_left _ _)
  rw [Int.modEq_iff_dvd]
  have hring : (1 : Int) - ((a : Int) * v) * (2 - (a : Int) * v) =
      (1 - (a : Int) * v) ^ 2 := by ring
  rw [hring]
  exact dvd_trans hd2k hsqd

theorem invModIter_spec (a : Nat) (ha : a % 2 = 1) (i : Nat) :
    a * invModIter a i ≡ 1 [MOD 2 ^ min (2 ^ i) 64] := by
  induction i with
  | zero =>
    show a * 1 ≡ 1 [MOD 2 ^ min 1 64]
    simpa [Nat.ModEq, Nat.mul_one] using ha
  | succ i ih =>
    have hstep := invModStep_spec a (invModIter a i) (min (2 ^ i) 64) ih
    have hmin : min (2 ^ (i + 1)) 64 = min (2 * min (2 ^ i) 64) 64 := by
      have h2 : 2 ^ (i + 1) = 2 * 2 ^ i := by rw [pow_succ]; ring
      have h64 : (1 : Nat) ≤ 2 ^ i := Nat.one_le_two_pow
      omega
    rw [invModIter, hmin]
    exact hstep

/-- `inv_mod` inverts an odd 64-bit word modulo `2⁶⁴`. -/
theorem inv_mod_spec (a : Nat) (ha : a % 2 = 1) : a * inv_mod a ≡ 1 [MOD wb] := by
  have h := invModIter_spec a ha 6
  have : min (2 ^ 6) 64 = 64 := by norm_num
  rw [this] at h
  exact h

theorem inv_mod_lt (a : Nat) : inv_mod a < wb := by
  show invModStep a (invModIter a 5) < wb
  rw [invModStep]
  exact Nat.mod_lt _ wb_pos

/-- `ModArith::compute_mont_mod_inv` / `evmmax::compute_mont_mod_inv`:
`N' = -inv_mod(mod[0])`, i.e. the two's-complement negation modulo `2⁶⁴` of the
64-bit inverse of the low word of the modulus. -/
def montModInv (modv : Nat) : Nat := (wb - inv_mod (modv % wb)) % wb

/-- The Montgomery constant satisfies `mod[0] * N' ≡ -1 (mod 2⁶⁴)`. -/
theorem montModInv_spec (modv : Nat) (hodd : modv % 2 = 1) :
    modv % wb * montModInv modv % wb = wb - 1 := by
  have h2wb : (2 : Nat) ∣ wb := by rw [wb]; exact dvd_pow_self 2 (by omega)
  have ha : modv % wb % 2 = 1 := by rw [Nat.mod_mod_of_dvd _ h2wb, hodd]
  set a := modv % wb with hadef
  have hinv := inv_mod_spec a ha
  have hlt := inv_mod_lt a
  have hpos : 0 < inv_mod a := by
    rcases Nat.eq_zero_or_pos (inv_mod a) with h0 | h0
    · exfalso
      rw [h0, Nat.mul_zero] at hinv
      have : (0 : Nat) % wb = 1 % wb := hinv
      rw [Nat.zero_mod, Nat.mod_eq_of_lt (by rw [wb]; norm_num)] at this
      omega
    · exact h0
  rw [montModInv, ← hadef]
  have hsub : (wb - inv_mod a) % wb = wb - inv_mod a :=
    Nat.mod_eq_of_lt (by have hwp := wb_pos; omega)
  rw [hsub]
  -- a * (wb - inv) ≡ wb - 1 (mod wb), via the integers.
  have hgoal : a * (wb - inv_mod a) ≡ wb - 1 [MOD wb] := by
    rw [← Int.natCast_modEq_iff]
    have hwb1 : 1 ≤ wb := wb_pos
    push_cast [Nat.cast_sub hlt.le, Nat.cast_sub hwb1]
    have hzi : (a : Int) * inv_mod a ≡ 1 [ZMOD (wb : Int)] := by
      have hc := (Int.natCast_modEq_iff).2 hinv
      push_cast at hc
      exact hc
    have hW0 : (a : Int) * (wb : Int) ≡ 0 [ZMOD (wb : Int)] :=
      Int.modEq_zero_iff_dvd.2 ⟨a, by ring⟩
    calc (a : Int) * ((wb : Int) - (inv_mod a : Int))
        = (a : Int) * wb - (a : Int) * inv_mod a := by ring
      _ ≡ 0 - 1 [ZMOD (wb : Int)] := hW0.sub hzi
      _ = -1 := by ring
      _ ≡ (wb : Int) - 1 [ZMOD (wb : Int)] := by
          rw [Int.modEq_iff_dvd]
          exact ⟨1, by ring⟩
  have := hgoal
  unfold Nat.ModEq at this
  rw [this, Nat.mod_eq_of_lt (by have := wb_pos; omega)]


/-- `evmmax::ModArith<UintT>::mul` (src/unnamed/part_000), identical to
`mul_mont` in `modexp.cpp`: CIOS Montgomery multiplication of two `S`-word
values, the final conditional subtraction `if (t >= mod_) t -= mod_`, and the
truncating cast `static_cast<UintT>(t)`. -/
def mulMont (S modv modInv xv yv : Nat) : Nat :=
  let t := ciosLoop (toWords S modv) modInv (toWords S xv) (toWords S yv)
    (List.replicate (S + 1) 0)
  let tv := wval t
  (if modv ≤ tv then tv - modv else tv) % 2 ^ (64 * S)

/-- Functional correctness of the CIOS Montgomery multiplication: for
`x < m < 2^(64 S)` and any `S`-word `y`, the result is below `m` and congruent
to `x y R⁻¹` modulo `m` (expressed multiplicatively: `result·R ≡ x·y`). -/
theorem mulMont_spec (S modv modInv xv yv : Nat) (hS : 1 ≤ S)
    (hMi : modv % wb * modInv % wb = wb - 1) (hm1 : 1 ≤ modv)
    (hmW : modv < 2 ^ (64 * S)) (hx : xv < modv) (hy : yv < 2 ^ (64 * S)) :
    mulMont S modv modInv xv yv < modv ∧
      mulMont S modv modInv xv yv * 2 ^ (64 * S) ≡ xv * yv [MOD modv] := by
  have hmw : wval (toWords S modv) = modv := by
    rw [wval_toWords, Nat.mod_eq_of_lt hmW]
  have hxw : wval (toWords S xv) = xv := by
    rw [wval_toWords, Nat.mod_eq_of_lt (lt_trans hx hmW)]
  have hyw : wval (toWords S yv) = yv := by
    rw [wval_toWords, Nat.mod_eq_of_lt hy]
  have hMihead : (toWords S modv).headD 0 * modInv % wb = wb - 1 := by
    rw [toWords_headD S modv hS]; exact hMi
  have hloop := ciosLoop_spec (toWords S modv) modInv (toWords S xv)
    (toWords S yv) (List.replicate (S + 1) 0) S hS (toWords_length S xv)
    (toWords_length S modv) (List.length_replicate _ _) hMihead
  rw [hmw, hxw, wval_replicate_zero] at hloop
  set T := montLoop modv modInv xv (toWords S yv) 0 with hT
  have hTlt : T < modv + xv :=
    montLoop_lt modv modInv xv (toWords S yv) 0 (by omega) (toWords_wf S yv)
  have hTmod : T * wb ^ (toWords S yv).length ≡ 0 + xv * wval (toWords S yv)
      [MOD modv] := montLoop_modeq modv modInv xv (toWords S yv) 0 hMi
  rw [toWords_length, hyw, Nat.zero_add, wb_pow] at hTmod
  -- The final conditional subtraction.
  rw [mulMont]
  simp only [hloop, ← hT]
  have hrlt : (if modv ≤ T then T - modv else T) < modv := by
    split <;> omega
  have hrmod : (if modv ≤ T then T - modv else T) ≡ T [MOD modv] := by
    by_cases h : modv ≤ T
    · rw [if_pos h]
      unfold Nat.ModEq
      conv_rhs => rw [← Nat.sub_add_cancel h]
      rw [Nat.add_mod_right]
    · rw [if_neg h]
  have hfin : (if modv ≤ T then T - modv else T) % 2 ^ (64 * S) =
      (if modv ≤ T then T - modv else T) := Nat.mod_eq_of_lt (lt_trans hrlt hmW)
  rw [hfin]
  exact ⟨hrlt, (hrmod.mul_right _).trans hTmod⟩

/-- `ModArith::compute_r_squared`: `R² % mod` with `R = 2^(64 S)`. -/
def r_squared (S modv : Nat) : Nat := 2 ^ (2 * (64 * S)) % modv

/-- `ModArith::to_mont`: conversion into Montgomery form by `mul(x, r_squared)`. -/
def to_mont (S modv modInv x : Nat) : Nat :=
  mulMont S modv modInv x (r_squared S modv)

/-- `ModArith::from_mont`: conversion out of Montgomery form by `mul(x, 1)`. -/
def from_mont (S modv modInv x : Nat) : Nat := mulMont S modv modInv x 1

theorem coprime_wbpow (S m : Nat) (hodd : m % 2 = 1) :
    Nat.Coprime (2 ^ (64 * S)) m :=
  Nat.Coprime.pow_left _ ((Nat.coprime_two_left).2 (Nat.odd_iff.2 hodd))

/-- Cancellation form of `mulMont_spec`: the result is the unique value below
`m` whose product with `R` is congruent to `x·y`. -/
theorem mulMont_eq_of (S modv modInv xv yv v : Nat) (hS : 1 ≤ S)
    (hMi : modv % wb * modInv % wb = wb - 1) (hodd : modv % 2 = 1)
    (hmW : modv < 2 ^ (64 * S)) (hx : xv < modv) (hy : yv < 2 ^ (64 * S))
    (hv : v < modv) (hcong : v * 2 ^ (64 * S) ≡ xv * yv [MOD modv]) :
    mulMont S modv modInv xv yv = v := by
  obtain ⟨hlt, hmod⟩ := mulMont_spec S modv modInv xv yv hS hMi (by omega) hmW hx hy
  have h : mulMont S modv modInv xv yv * 2 ^ (64 * S) ≡ v * 2 ^ (64 * S) [MOD modv] :=
    hmod.trans hcong.symm
  have hcop : Nat.Coprime (2 ^ (64 * S)) modv := coprime_wbpow S modv hodd
  have h2 : mulMont S modv modInv xv yv ≡ v [MOD modv] := by
    exact Nat.ModEq.cancel_right_of_coprime (c := 2 ^ (64 * S)) hcop.symm h
  have := h2
  unfold Nat.ModEq at this
  rw [Nat.mod_eq_of_lt hlt, Nat.mod_eq_of_lt hv] at this
  exact this

/-- Cancel a common factor `R = 2^(64 S)` in a congruence modulo an odd `m`. -/
theorem modEq_cancel_R (S m a b : Nat) (hodd : m % 2 = 1)
    (h : a * 2 ^ (64 * S) ≡ b * 2 ^ (64 * S) [MOD m]) : a ≡ b [MOD m] :=
  Nat.ModEq.cancel_right_of_coprime (coprime_wbpow S m hodd).symm h

/-- C2: for every odd modulus `m` (of `S ≥ 1` machine words) and all inputs
`x < m`, `y < m`, `ModArith::mul(x, y)` returns `x·y·R⁻¹ mod m` where
`R = 2^(S·64)`; consequently `from_mont(mul(to_mont(x), to_mont(y)))` equals
`(x·y) mod m`, and the returned value is always less than `m`. -/
theorem modarith_mul_correct (S m x y : Nat) (hS : 1 ≤ S) (hodd : m % 2 = 1)
    (hmW : m < 2 ^ (64 * S)) (hx : x < m) (hy : y < m) :
    mulMont S m (montModInv m) x y < m ∧
    (∀ rinv, 2 ^ (64 * S) * rinv % m = 1 % m →
      mulMont S m (montModInv m) x y = x * y * rinv % m) ∧
    from_mont S m (montModInv m)
      (mulMont S m (montModInv m) (to_mont S m (montModInv m) x)
        (to_mont S m (montModInv m) y)) = x * y % m := by
  have hMi := montModInv_spec m hodd
  have hm1 : 1 ≤ m := by omega
  obtain ⟨hlt, hcong⟩ := mulMont_spec S m (montModInv m) x y hS hMi hm1 hmW
    hx (lt_trans hy hmW)
  refine ⟨hlt, ?_, ?_⟩
  · -- The result is x·y·R⁻¹ mod m for any inverse rinv of R.
    intro rinv hr
    have hrM : 2 ^ (64 * S) * rinv ≡ 1 [MOD m] := hr
    have h1 : mulMont S m (montModInv m) x y * (2 ^ (64 * S) * rinv) ≡
        mulMont S m (montModInv m) x y * 1 [MOD m] := hrM.mul_left _
    have h2 : mulMont S m (montModInv m) x y * 2 ^ (64 * S) * rinv ≡
        x * y * rinv [MOD m] := hcong.mul_right rinv
    have h3 : mulMont S m (montModInv m) x y ≡ x * y * rinv [MOD m] := by
      calc mulMont S m (montModInv m) x y
          = mulMont S m (montModInv m) x y * 1 := by ring
        _ ≡ mulMont S m (montModInv m) x y * (2 ^ (64 * S) * rinv) [MOD m] :=
            h1.symm
        _ = mulMont S m (montModInv m) x y * 2 ^ (64 * S) * rinv := by ring
        _ ≡ x * y * rinv [MOD m] := h2
    have h4 := h3
    unfold Nat.ModEq at h4
    rw [Nat.mod_eq_of_lt hlt] at h4
    exact h4
  · -- Montgomery round trip.
    have hr2lt : r_squared S m < m := Nat.mod_lt _ (by omega)
    have h1lt : (1 : Nat) < 2 ^ (64 * S) :=
      Nat.one_lt_two_pow_iff.2 (by omega)
    obtain ⟨htxlt, htxc⟩ := mulMont_spec S m (montModInv m) x (r_squared S m)
      hS hMi hm1 hmW hx (lt_trans hr2lt hmW)
    obtain ⟨htylt, htyc⟩ := mulMont_spec S m (montModInv m) y (r_squared S m)
      hS hMi hm1 hmW hy (lt_trans hr2lt hmW)
    -- to_mont x ≡ x·R (mod m)
    have htx : to_mont S m (montModInv m) x ≡ x * 2 ^ (64 * S) [MOD m] := by
      refine modEq_cancel_R S m _ _ hodd ?_
      calc to_mont S m (montModInv m) x * 2 ^ (64 * S)
          ≡ x * r_squared S m [MOD m] := htxc
        _ ≡ x * 2 ^ (2 * (64 * S)) [MOD m] := (Nat.mod_modEq _ _).mul_left x
        _ = x * 2 ^ (64 * S) * 2 ^ (64 * S) := by rw [two_mul, pow_add]; ring
    have hty : to_mont S m (montModInv m) y ≡ y * 2 ^ (64 * S) [MOD m] := by
      refine modEq_cancel_R S m _ _ hodd ?_
      calc to_mont S m (montModInv m) y * 2 ^ (64 * S)
          ≡ y * r_squared S m [MOD m] := htyc
        _ ≡ y * 2 ^ (2 * (64 * S)) [MOD m] := (Nat.mod_modEq _ _).mul_left y
        _ = y * 2 ^ (64 * S) * 2 ^ (64 * S) := by rw [two_mul, pow_add]; ring
    obtain ⟨hult, huc⟩ := mulMont_spec S m (montModInv m)
      (to_mont S m (montModInv m) x) (to_mont S m (montModInv m) y)
      hS hMi hm1 hmW htxlt (lt_trans htylt hmW)
    have hu : mulMont S m (montModInv m) (to_mont S m (montModInv m) x)
        (to_mont S m (montModInv m) y) ≡ x * y * 2 ^ (64 * S) [MOD m] := by
      refine modEq_cancel_R S m _ _ hodd ?_
      calc mulMont S m (montModInv m) (to_mont S m (montModInv m) x)
            (to_mont S m (montModInv m) y) * 2 ^ (64 * S)
          ≡ to_mont S m (montModInv m) x * to_mont S m (montModInv m) y
            [MOD m] := huc
        _ ≡ x * 2 ^ (64 * S) * (y * 2 ^ (64 * S)) [MOD m] := htx.mul hty
        _ = x * y * 2 ^ (64 * S) * 2 ^ (64 * S) := by ring
    refine mulMont_eq_of S m (montModInv m) _ 1 (x * y % m) hS hMi hodd hmW
      hult h1lt (Nat.mod_lt _ (by omega)) ?_
    calc x * y % m * 2 ^ (64 * S) ≡ x * y * 2 ^ (64 * S) [MOD m] :=
          (Nat.mod_modEq _ _).mul_right _
      _ ≡ mulMont S m (montModInv m) (to_mont S m (montModInv m) x)
            (to_mont S m (montModInv m) y) * 1 [MOD m] := by
          rw [Nat.mul_one]
          exact hu.symm

theorem modarith_mul_correct_witness :
    (1 ≤ 1 ∧ 5 % 2 = 1 ∧ 5 < 2 ^ (64 * 1) ∧ 2 < 5 ∧ 3 < 5) ∧
    (mulMont 1 5 (montModInv 5) 2 3 < 5 ∧
      (∀ rinv, 2 ^ (64 * 1) * rinv % 5 = 1 % 5 →
        mulMont 1 5 (montModInv 5) 2 3 = 2 * 3 * rinv % 5) ∧
      from_mont 1 5 (montModInv 5)
        (mulMont 1 5 (montModInv 5) (to_mont 1 5 (montModInv 5) 2)
          (to_mont 1 5 (montModInv 5) 3)) = 2 * 3 % 5) :=
  ⟨⟨by decide, by decide, by decide, by decide, by decide⟩,
    modarith_mul_correct 1 5 2 3 (by decide) (by decide) (by decide)
      (by decide) (by decide)⟩

/-- Generalized Newton step, in `2^W`-wrapping arithmetic:
one `inv ← inv * (2 - x * inv)` squares the inversion error. -/
theorem newton_step_pow2 (W x v k : Nat) (h : x * v ≡ 1 [MOD 2 ^ k]) :
    x * (v * ((2 + 2 ^ W - x * v % 2 ^ W) % 2 ^ W) % 2 ^ W) ≡ 1
      [MOD 2 ^ min (2 * k) W] := by
  have hBpos : 0 < (2 : Nat) ^ W := Nat.pos_pow_of_pos W (by decide)
  have hdvd_B : (2 : Nat) ^ min (2 * k) W ∣ 2 ^ W :=
    pow_dvd_pow 2 (Nat.min_le_right _ _)
  have h1 : x * (v * ((2 + 2 ^ W - x * v % 2 ^ W) % 2 ^ W) % 2 ^ W) ≡
      x * (v * ((2 + 2 ^ W - x * v % 2 ^ W) % 2 ^ W)) [MOD 2 ^ min (2 * k) W] :=
    ((Nat.mod_modEq _ _).of_dvd hdvd_B).mul_left x
  have h2 : x * (v * ((2 + 2 ^ W - x * v % 2 ^ W) % 2 ^ W)) ≡
      x * (v * (2 + 2 ^ W - x * v % 2 ^ W)) [MOD 2 ^ min (2 * k) W] :=
    (((Nat.mod_modEq _ _).of_dvd hdvd_B).mul_left v).mul_left x
  refine (h1.trans h2).trans ?_
  have hrle : x * v % 2 ^ W ≤ 2 + 2 ^ W :=
    le_of_lt (lt_of_lt_of_le (Nat.mod_lt _ hBpos) (by omega))
  rw [← Int.natCast_modEq_iff]
  push_cast [Nat.cast_sub hrle]
  have hdz : ((2 : Int) ^ min (2 * k) W) ∣ (2 : Int) ^ W := by
    have hc : (((2 : Nat) ^ min (2 * k) W : Nat) : Int) ∣ (((2 : Nat) ^ W : Nat) : Int) :=
      Int.natCast_dvd_natCast.2 hdvd_B
    push_cast at hc
    exact hc
  have hWmod : ((2 : Int) ^ W) ≡ 0 [ZMOD (2 : Int) ^ min (2 * k) W] :=
    Int.modEq_zero_iff_dvd.2 hdz
  have hr : (x : Int) * v % ((2 : Int) ^ W) ≡ (x : Int) * v
      [ZMOD (2 : Int) ^ min (2 * k) W] := Int.emod_emod_of_dvd _ hdz
  have hfac : (2 : Int) + (2 : Int) ^ W - (x : Int) * v % ((2 : Int) ^ W) ≡
      2 + 0 - (x : Int) * v [ZMOD (2 : Int) ^ min (2 * k) W] :=
    ((Int.ModEq.refl 2).add hWmod).sub hr
  have hcong : (x : Int) * ((v : Int) * (2 + (2 : Int) ^ W - (x : Int) * v % ((2 : Int) ^ W))) ≡
      ((x : Int) * v) * (2 - (x : Int) * v) [ZMOD (2 : Int) ^ min (2 * k) W] := by
    calc (x : Int) * ((v : Int) * (2 + (2 : Int) ^ W - (x : Int) * v % ((2 : Int) ^ W)))
        = ((x : Int) * v) * (2 + (2 : Int) ^ W - (x : Int) * v % ((2 : Int) ^ W)) := by
          ring
      _ ≡ ((x : Int) * v) * (2 + 0 - (x : Int) * v)
            [ZMOD (2 : Int) ^ min (2 * k) W] := hfac.mul_left _
      _ = ((x : Int) * v) * (2 - (x : Int) * v) := by ring
  refine hcong.trans ?_
  have hz : ((x : Int) * v) ≡ 1 [ZMOD ((2 : Int) ^ k)] := by
    have hc := (Int.natCast_modEq_iff).2 h
    push_cast at hc
    exact hc
  have h1dvd : ((2 : Int) ^ k) ∣ 1 - (x : Int) * v := hz.dvd
  have hsqd : ((2 : Int) ^ (2 * k)) ∣ (1 - (x : Int) * v) ^ 2 := by
    rw [two_mul, pow_add, sq]
    exact mul_dvd_mul h1dvd h1dvd
  have hd2k : ((2 : Int) ^ min (2 * k) W) ∣ (2 : Int) ^ (2 * k) :=
    pow_dvd_pow 2 (Nat.min_le_left _ _)
  rw [Int.modEq_iff_dvd]
  have hring : (1 : Int) - ((x : Int) * v) * (2 - (x : Int) * v) =
      (1 - (x : Int) * v) ^ 2 := by ring
  rw [hring]
  exact dvd_trans hd2k hsqd

/-- One step `inv *= 2 - x * inv` of the `modinv_pow2` loop, in the wrapping
`UIntT` arithmetic of width `W` bits. -/
def modinvPow2Step (W x inv : Nat) : Nat :=
  inv * ((2 + 2 ^ W - x * inv % 2 ^ W) % 2 ^ W) % 2 ^ W

/-- The doubling loop of `modinv_pow2`
(`for (iterations = 64; iterations < k; iterations *= 2)`), with an explicit
fuel that the wrapper instantiates with the proven bound `k`. -/
def modinvPow2Go (W x k : Nat) : Nat → Nat → Nat → Nat
  | 0, _, inv => inv
  | fuel + 1, iterations, inv =>
    if iterations < k then
      modinvPow2Go W x k fuel (iterations * 2) (modinvPow2Step W x inv)
    else inv

/-- `modinv_pow2<UIntT>` (modexp.cpp): modular inversion for modulus `2ᵏ` on a
`W`-bit unsigned type, seeded with the 64-bit inverse `evmmax::modinv(x[0])`
and doubling the number of correct bits each iteration. -/
def modinv_pow2 (W x k : Nat) : Nat := modinvPow2Go W x k k 64 (inv_mod (x % wb))

theorem modinvPow2Go_spec (W x k : Nat) (hkW : k ≤ W) :
    ∀ (fuel iterations inv : Nat), 1 ≤ iterations → k ≤ iterations + fuel →
      x * inv ≡ 1 [MOD 2 ^ min iterations W] →
      x * modinvPow2Go W x k fuel iterations inv ≡ 1 [MOD 2 ^ k] := by
  intro fuel
  induction fuel with
  | zero =>
    intro iterations inv _ hk hinv
    rw [modinvPow2Go]
    refine hinv.of_dvd (pow_dvd_pow 2 ?_)
    omega
  | succ fuel ih =>
    intro iterations inv hit hk hinv
    rw [modinvPow2Go]
    by_cases hlt : iterations < k
    · rw [if_pos hlt]
      have hstep := newton_step_pow2 W x inv (min iterations W) hinv
      have hmin : min (2 * min iterations W) W = min (iterations * 2) W := by
        omega
      rw [hmin] at hstep
      exact ih (iterations * 2) (modinvPow2Step W x inv) (by omega) (by omega) hstep
    · rw [if_neg hlt]
      refine hinv.of_dvd (pow_dvd_pow 2 ?_)
      omega

/-- C6: for every odd `W`-bit input `x` and every `k` with `1 ≤ k ≤ W`,
`modinv_pow2(x, k)` returns a value congruent to the inverse of `x` modulo
`2ᵏ`: `(x * modinv_pow2(x, k)) % 2^k == 1`. -/
theorem modinv_pow2_correct (W x k : Nat) (hW : 64 ≤ W) (hodd : x % 2 = 1)
    (_hx : x < 2 ^ W) (hk1 : 1 ≤ k) (hkW : k ≤ W) :
    x * modinv_pow2 W x k % 2 ^ k = 1 := by
  have h2wb : (2 : Nat) ∣ wb := by rw [wb]; exact dvd_pow_self 2 (by omega)
  have hseed0 : x % wb % 2 = 1 := by rw [Nat.mod_mod_of_dvd _ h2wb, hodd]
  have hseed := inv_mod_spec (x % wb) hseed0
  have hseedx : x * inv_mod (x % wb) ≡ 1 [MOD 2 ^ min 64 W] := by
    have hminW : min 64 W = 64 := by omega
    rw [hminW]
    have hxx : x ≡ x % wb [MOD wb] := (Nat.mod_modEq _ _).symm
    have : x * inv_mod (x % wb) ≡ x % wb * inv_mod (x % wb) [MOD wb] :=
      hxx.mul_right _
    exact (this.trans hseed : _)
  have h := modinvPow2Go_spec W x k hkW k 64 (inv_mod (x % wb)) (by omega)
    (by omega) hseedx
  rw [modinv_pow2]
  have h1 : x * modinvPow2Go W x k k 64 (inv_mod (x % wb)) % 2 ^ k = 1 % 2 ^ k := h
  rw [h1, Nat.mod_eq_of_lt (Nat.one_lt_two_pow_iff.2 (by omega))]

theorem modinv_pow2_correct_witness :
    (64 ≤ 128 ∧ 3 % 2 = 1 ∧ 3 < 2 ^ 128 ∧ 1 ≤ 65 ∧ 65 ≤ 128) ∧
    3 * modinv_pow2 128 3 65 % 2 ^ 65 = 1 :=
  ⟨⟨by decide, by decide, by decide, by decide, by decide⟩,
    modinv_pow2_correct 128 3 65 (by decide) (by decide) (by decide)
      (by decide) (by decide)⟩

/-- `ModArith::sub`: `subc(x, y)` followed by a conditional `+ mod`, in
`W`-bit wrapping arithmetic. -/
def modSub (W m x y : Nat) : Nat :=
  let d := (x + 2 ^ W - y) % 2 ^ W
  if x < y then (d + m) % 2 ^ W else d

theorem modSub_eq (W m x y : Nat) (hx : x < m) (hy : y < m) (hmW : m < 2 ^ W) :
    modSub W m x y = if x < y then m + x - y else x - y := by
  rw [modSub]
  by_cases h : x < y
  · rw [if_pos h, if_pos h]
    have hd : (x + 2 ^ W - y) % 2 ^ W = x + 2 ^ W - y :=
      Nat.mod_eq_of_lt (by omega)
    rw [hd]
    have he : x + 2 ^ W - y + m = 2 ^ W + (m + x - y) := by omega
    rw [he, Nat.add_mod_left, Nat.mod_eq_of_lt (by omega)]
  · rw [if_neg h, if_neg h]
    have he : x + 2 ^ W - y = 2 ^ W + (x - y) := by omega
    rw [he, Nat.add_mod_left, Nat.mod_eq_of_lt (by omega)]

theorem modSub_lt (W m x y : Nat) (hx : x < m) (hy : y < m) (hmW : m < 2 ^ W) :
    modSub W m x y < m := by
  rw [modSub_eq W m x y hx hy hmW]
  split <;> omega

theorem modSub_modeq (W m x y : Nat) (hx : x < m) (hy : y < m) (hmW : m < 2 ^ W) :
    (modSub W m x y : Int) ≡ (x : Int) - y [ZMOD (m : Int)] := by
  rw [modSub_eq W m x y hx hy hmW]
  by_cases h : x < y
  · rw [if_pos h]
    have hc : ((m + x - y : Nat) : Int) = (m : Int) + x - y := by
      have : y ≤ m + x := by omega
      push_cast [Nat.cast_sub this]
      ring
    rw [hc, Int.modEq_iff_dvd]
    exact ⟨-1, by ring⟩
  · rw [if_neg h]
    have hc : ((x - y : Nat) : Int) = (x : Int) - y := by
      have : y ≤ x := by omega
      push_cast [Nat.cast_sub this]
      ring
    rw [hc]

/-- The `u`-halving of `ModArith::inv`: `u >>= 1; if (u_odd) u += inv2`,
in `W`-bit wrapping arithmetic. -/
def invHalf (W inv2 u : Nat) : Nat :=
  if u % 2 = 1 then (u / 2 + inv2) % 2 ^ W else u / 2

/-- The halving step returns a value below `m` with `2 * result ≡ u (mod m)`
when `inv2 = ⌊m/2⌋ + 1` is the inverse of two. -/
theorem invHalf_spec (W m u : Nat) (hodd : m % 2 = 1) (hm3 : 3 ≤ m)
    (hmW : m < 2 ^ W) (hu : u < m) :
    invHalf W (m / 2 + 1) u < m ∧
    (2 * (invHalf W (m / 2 + 1) u) : Int) ≡ (u : Int) [ZMOD (m : Int)] := by
  rw [invHalf]
  by_cases h : u % 2 = 1
  · rw [if_pos h]
    have hlt : u / 2 + (m / 2 + 1) < m := by omega
    have hmod : (u / 2 + (m / 2 + 1)) % 2 ^ W = u / 2 + (m / 2 + 1) :=
      Nat.mod_eq_of_lt (by omega)
    rw [hmod]
    refine ⟨hlt, ?_⟩
    have h2 : 2 * (u / 2 + (m / 2 + 1)) = u + m := by omega
    have hc : ((2 * (u / 2 + (m / 2 + 1)) : Nat) : Int) = (u : Int) + m := by
      rw [h2]; push_cast; ring
    calc (2 * ((u / 2 + (m / 2 + 1) : Nat) : Int)) = (u : Int) + m := by
          exact_mod_cast hc
      _ ≡ u [ZMOD (m : Int)] := by
          rw [Int.modEq_iff_dvd]; exact ⟨-1, by ring⟩
  · rw [if_neg h]
    refine ⟨by omega, ?_⟩
    have hc : (2 : Int) * ((u / 2 : Nat) : Int) = (u : Int) := by
      exact_mod_cast congrArg (fun n : Nat => (n : Int))
        (by omega : 2 * (u / 2) = u)
    rw [hc]

/-- The binary extended-Euclid loop of `ModArith::inv` (src/unnamed/part_000).
One iteration: if `a` is odd, set `a ← a - b` via `subc` (negating the wrapped
difference and swapping both `(a,b)` and `(u,v)` when `a < b`) and update
`u ← sub(u, v)`; then halve `a` exactly and halve `u` modulo `m`.  `fuel` is
instantiated with the proven iteration bound `x + m + 1` by the wrapper. -/
def invGo (W m inv2 : Nat) : Nat → Nat → Nat → Nat → Nat → Nat × Nat
  | 0, _, b, _, v => (b, v)
  | fuel + 1, a, b, u, v =>
    if a = 0 then (b, v)
    else if a % 2 = 1 then
      if a < b then
        invGo W m inv2 fuel ((2 ^ W - (a + 2 ^ W - b) % 2 ^ W) % 2 ^ W / 2) a
          (invHalf W inv2 (modSub W m v u)) u
      else
        invGo W m inv2 fuel ((a + 2 ^ W - b) % 2 ^ W / 2) b
          (invHalf W inv2 (modSub W m u v)) v
    else invGo W m inv2 fuel (a / 2) b (invHalf W inv2 u) v

/-- Cancel the factor 2 in a congruence modulo an odd integer modulus. -/
theorem int_modeq_cancel_two (m : Nat) (hodd : m % 2 = 1) (a b : Int)
    (h : 2 * a ≡ 2 * b [ZMOD (m : Int)]) : a ≡ b [ZMOD (m : Int)] := by
  have hm0 : 0 < (m : Int) := by
    have h1 : 1 ≤ m := by omega
    exact_mod_cast h1
  have hg : Int.gcd (m : Int) 2 = 1 := by
    have h2 : Int.gcd (m : Int) 2 = Nat.gcd m 2 := by
      rw [Int.gcd]
      norm_num
    rw [h2]
    have hdvd : Nat.gcd m 2 ∣ 2 := Nat.gcd_dvd_right m 2
    have hdm : Nat.gcd m 2 ∣ m := Nat.gcd_dvd_left m 2
    rcases (Nat.dvd_prime Nat.prime_two).1 hdvd with h1 | h1
    · exact h1
    · exfalso
      rw [h1] at hdm
      obtain ⟨k, hk⟩ := hdm
      omega
  have hc := Int.ModEq.cancel_left_div_gcd hm0 h
  rwa [hg, Nat.cast_one, Int.ediv_one] at hc

/-- Invariant preservation through the binary extended-Euclid loop: on exit
the first component is `gcd x m` and the second satisfies the Bézout-style
congruence `b_final * r2 ≡ v_final * x (mod m)` and is below `m`. -/
theorem invGo_spec (W m x r2 : Nat) (hodd : m % 2 = 1) (hm3 : 3 ≤ m)
    (hmW : m < 2 ^ W) :
    ∀ (fuel a b u v : Nat), a + b ≤ fuel + 1 →
      a < 2 ^ W → b < 2 ^ W → b % 2 = 1 → 1 ≤ b → u < m → v < m →
      Nat.gcd a b = Nat.gcd x m →
      ((a : Int) * r2 ≡ (u : Int) * x [ZMOD (m : Int)]) →
      ((b : Int) * r2 ≡ (v : Int) * x [ZMOD (m : Int)]) →
      (invGo W m (m / 2 + 1) fuel a b u v).1 = Nat.gcd x m ∧
      (((invGo W m (m / 2 + 1) fuel a b u v).1 : Int) * r2 ≡
        ((invGo W m (m / 2 + 1) fuel a b u v).2 : Int) * x [ZMOD (m : Int)]) ∧
      (invGo W m (m / 2 + 1) fuel a b u v).2 < m := by
  intro fuel
  induction fuel with
  | zero =>
    intro a b u v hfuel ha hb hbodd hb1 hu hv hgcd hiu hiv
    have ha0 : a = 0 := by omega
    subst ha0
    rw [invGo]
    refine ⟨?_, hiv, hv⟩
    show b = Nat.gcd x m
    rw [← hgcd, Nat.gcd_zero_left]
  | succ fuel ih =>
    intro a b u v hfuel ha hb hbodd hb1 hu hv hgcd hiu hiv
    by_cases ha0 : a = 0
    · subst ha0
      rw [invGo, if_pos rfl]
      refine ⟨?_, hiv, hv⟩
      show b = Nat.gcd x m
      rw [← hgcd, Nat.gcd_zero_left]
    · rw [invGo, if_neg ha0]
      by_cases haodd : a % 2 = 1
      · by_cases hab : a < b
        · -- a odd, a < b: swap branch.
          rw [if_pos haodd, if_pos hab]
          have hneg : (2 ^ W - (a + 2 ^ W - b) % 2 ^ W) % 2 ^ W = b - a := by
            have hd : (a + 2 ^ W - b) % 2 ^ W = a + 2 ^ W - b :=
              Nat.mod_eq_of_lt (by omega)
            rw [hd]
            have h1 : 2 ^ W - (a + 2 ^ W - b) = b - a := by omega
            rw [h1, Nat.mod_eq_of_lt (by omega)]
          rw [hneg]
          have hUlt : modSub W m v u < m := modSub_lt W m v u hv hu hmW
          have hhalf := invHalf_spec W m (modSub W m v u) hodd hm3 hmW hUlt
          have hAcong : ((b - a : Nat) : Int) * r2 ≡
              ((modSub W m v u : Nat) : Int) * x [ZMOD (m : Int)] := by
            have hsub := modSub_modeq W m v u hv hu hmW
            have hba : ((b - a : Nat) : Int) = (b : Int) - a := by
              push_cast [Nat.cast_sub hab.le]; ring
            calc ((b - a : Nat) : Int) * r2 = (b : Int) * r2 - (a : Int) * r2 := by
                  rw [hba]; ring
              _ ≡ (v : Int) * x - (u : Int) * x [ZMOD (m : Int)] := hiv.sub hiu
              _ = ((v : Int) - u) * x := by ring
              _ ≡ ((modSub W m v u : Nat) : Int) * x [ZMOD (m : Int)] :=
                  (hsub.symm).mul_right _
          have hhalfcong : (((b - a) / 2 : Nat) : Int) * r2 ≡
              ((invHalf W (m / 2 + 1) (modSub W m v u) : Nat) : Int) * x
                [ZMOD (m : Int)] := by
            refine int_modeq_cancel_two m hodd _ _ ?_
            have h2A : (2 : Int) * (((b - a) / 2 : Nat) : Int) =
                ((b - a : Nat) : Int) := by
              exact_mod_cast congrArg (fun n : Nat => (n : Int))
                (by omega : 2 * ((b - a) / 2) = b - a)
            calc (2 : Int) * ((((b - a) / 2 : Nat) : Int) * r2)
                = ((b - a : Nat) : Int) * r2 := by rw [← h2A]; ring
              _ ≡ ((modSub W m v u : Nat) : Int) * x [ZMOD (m : Int)] := hAcong
              _ ≡ (2 : Int) * (invHalf W (m / 2 + 1) (modSub W m v u) : Int) * x
                  [ZMOD (m : Int)] := (hhalf.2.symm).mul_right _
              _ = (2 : Int) * ((invHalf W (m / 2 + 1) (modSub W m v u) : Int) * x) := by
                  ring
          refine ih ((b - a) / 2) a _ u ?_ (by omega) (by omega) haodd (by omega)
            hhalf.1 hu ?_ hhalfcong hiu
          · omega
          · have h1 : Nat.gcd (b - a) a = Nat.gcd b a :=
              Nat.gcd_sub_self_left hab.le
            have h2 : Nat.gcd (2 * ((b - a) / 2)) a = Nat.gcd ((b - a) / 2) a :=
              Nat.Coprime.gcd_mul_left_cancel _ (by
                show Nat.gcd 2 a = 1
                have hdvd : Nat.gcd 2 a ∣ 2 := Nat.gcd_dvd_left 2 a
                have hda : Nat.gcd 2 a ∣ a := Nat.gcd_dvd_right 2 a
                rcases (Nat.dvd_prime Nat.prime_two).1 hdvd with h1' | h1'
                · exact h1'
                · exfalso
                  rw [h1'] at hda
                  obtain ⟨k, hk⟩ := hda
                  omega)
            have h3 : 2 * ((b - a) / 2) = b - a := by omega
            rw [h3] at h2
            rw [← h2, h1, Nat.gcd_comm b a]
            exact hgcd
        · -- a odd, a ≥ b.
          rw [if_pos haodd, if_neg hab]
          have hd : (a + 2 ^ W - b) % 2 ^ W = a - b := by
            have h1 : a + 2 ^ W - b = 2 ^ W + (a - b) := by omega
            rw [h1, Nat.add_mod_left, Nat.mod_eq_of_lt (by omega)]
          rw [hd]
          have hUlt : modSub W m u v < m := modSub_lt W m u v hu hv hmW
          have hhalf := invHalf_spec W m (modSub W m u v) hodd hm3 hmW hUlt
          have hAcong : ((a - b : Nat) : Int) * r2 ≡
              ((modSub W m u v : Nat) : Int) * x [ZMOD (m : Int)] := by
            have hsub := modSub_modeq W m u v hu hv hmW
            have hba : ((a - b : Nat) : Int) = (a : Int) - b := by
              push_cast [Nat.cast_sub (by omega : b ≤ a)]; ring
            calc ((a - b : Nat) : Int) * r2 = (a : Int) * r2 - (b : Int) * r2 := by
                  rw [hba]; ring
              _ ≡ (u : Int) * x - (v : Int) * x [ZMOD (m : Int)] := hiu.sub hiv
              _ = ((u : Int) - v) * x := by ring
              _ ≡ ((modSub W m u v : Nat) : Int) * x [ZMOD (m : Int)] :=
                  (hsub.symm).mul_right _
          have hhalfcong : (((a - b) / 2 : Nat) : Int) * r2 ≡
              ((invHalf W (m / 2 + 1) (modSub W m u v) : Nat) : Int) * x
                [ZMOD (m : Int)] := by
            refine int_modeq_cancel_two m hodd _ _ ?_
            have h2A : (2 : Int) * (((a - b) / 2 : Nat) : Int) =
                ((a - b : Nat) : Int) := by
              exact_mod_cast congrArg (fun n : Nat => (n : Int))
                (by omega : 2 * ((a - b) / 2) = a - b)
            calc (2 : Int) * ((((a - b) / 2 : Nat) : Int) * r2)
                = ((a - b : Nat) : Int) * r2 := by rw [← h2A]; ring
              _ ≡ ((modSub W m u v : Nat) : Int) * x [ZMOD (m : Int)] := hAcong
              _ ≡ (2 : Int) * (invHalf W (m / 2 + 1) (modSub W m u v) : Int) * x
                  [ZMOD (m : Int)] := (hhalf.2.symm).mul_right _
              _ = (2 : Int) * ((invHalf W (m / 2 + 1) (modSub W m u v) : Int) * x) := by
                  ring
          refine ih ((a - b) / 2) b _ v ?_ (by omega) hb hbodd hb1
            hhalf.1 hv ?_ hhalfcong hiv
          · omega
          · have h1 : Nat.gcd (a - b) b = Nat.gcd a b :=
              Nat.gcd_sub_self_left (by omega)
            have h2 : Nat.gcd (2 * ((a - b) / 2)) b = Nat.gcd ((a - b) / 2) b :=
              Nat.Coprime.gcd_mul_left_cancel _ (by
                show Nat.gcd 2 b = 1
                have hdvd : Nat.gcd 2 b ∣ 2 := Nat.gcd_dvd_left 2 b
                have hdb : Nat.gcd 2 b ∣ b := Nat.gcd_dvd_right 2 b
                rcases (Nat.dvd_prime Nat.prime_two).1 hdvd with h1' | h1'
                · exact h1'
                · exfalso
                  rw [h1'] at hdb
                  obtain ⟨k, hk⟩ := hdb
                  omega)
            have h3 : 2 * ((a - b) / 2) = a - b := by omega
            rw [h3] at h2
            rw [← h2, h1]
            exact hgcd
      · -- a even.
        rw [if_neg haodd]
        have hhalf := invHalf_spec W m u hodd hm3 hmW hu
        have hhalfcong : ((a / 2 : Nat) : Int) * r2 ≡
            ((invHalf W (m / 2 + 1) u : Nat) : Int) * x [ZMOD (m : Int)] := by
          refine int_modeq_cancel_two m hodd _ _ ?_
          have h2A : (2 : Int) * ((a / 2 : Nat) : Int) = (a : Int) := by
            exact_mod_cast congrArg (fun n : Nat => (n : Int))
              (by omega : 2 * (a / 2) = a)
          calc (2 : Int) * (((a / 2 : Nat) : Int) * r2)
              = (a : Int) * r2 := by rw [← h2A]; ring
            _ ≡ (u : Int) * x [ZMOD (m : Int)] := hiu
            _ ≡ (2 : Int) * (invHalf W (m / 2 + 1) u : Int) * x [ZMOD (m : Int)] :=
                (hhalf.2.symm).mul_right _
            _ = (2 : Int) * ((invHalf W (m / 2 + 1) u : Int) * x) := by ring
        refine ih (a / 2) b _ v ?_ (by omega) hb hbodd hb1 hhalf.1 hv ?_
          hhalfcong hiv
        · omega
        · have h2 : Nat.gcd (2 * (a / 2)) b = Nat.gcd (a / 2) b :=
            Nat.Coprime.gcd_mul_left_cancel _ (by
              show Nat.gcd 2 b = 1
              have hdvd : Nat.gcd 2 b ∣ 2 := Nat.gcd_dvd_left 2 b
              have hdb : Nat.gcd 2 b ∣ b := Nat.gcd_dvd_right 2 b
              rcases (Nat.dvd_prime Nat.prime_two).1 hdvd with h1' | h1'
              · exact h1'
              · exfalso
                rw [h1'] at hdb
                obtain ⟨k, hk⟩ := hdb
                omega)
          have h3 : 2 * (a / 2) = a := by omega
          rw [h3] at h2
          rw [← h2]
          exact hgcd

/-- `ModArith::inv` (src/unnamed/part_000): binary extended Euclid, with the
Bézout coefficient `u` initialized to `r_squared` so the output is already in
Montgomery form; returns 0 when `gcd ≠ 1` (`if (b != 1) v = 0`). -/
def modInv (S m x : Nat) : Nat :=
  if (invGo (64 * S) m (m / 2 + 1) (x + m + 1) x m (r_squared S m) 0).1 ≠ 1 then 0
  else (invGo (64 * S) m (m / 2 + 1) (x + m + 1) x m (r_squared S m) 0).2

/-- `gcd(from_mont(x), m) = gcd(x, m)` for `x < m`, `m` odd. -/
theorem gcd_from_mont (S m x : Nat) (hS : 1 ≤ S) (hodd : m % 2 = 1)
    (hm3 : 3 ≤ m) (hmW : m < 2 ^ (64 * S)) (hx : x < m) :
    Nat.gcd (from_mont S m (montModInv m) x) m = Nat.gcd x m := by
  have hMi := montModInv_spec m hodd
  obtain ⟨hflt, hfc⟩ := mulMont_spec S m (montModInv m) x 1 hS hMi (by omega)
    hmW hx (Nat.one_lt_two_pow_iff.2 (by omega))
  rw [from_mont]
  set f := mulMont S m (montModInv m) x 1 with hf
  rw [Nat.mul_one] at hfc
  have hxeq : f * 2 ^ (64 * S) % m = x := by
    have := hfc
    unfold Nat.ModEq at this
    rw [Nat.mod_eq_of_lt hx] at this
    exact this
  have h1 : Nat.gcd x m = Nat.gcd (f * 2 ^ (64 * S) % m) m := by rw [hxeq]
  have h2 : Nat.gcd (f * 2 ^ (64 * S) % m) m = Nat.gcd m (f * 2 ^ (64 * S)) :=
    (Nat.gcd_rec m (f * 2 ^ (64 * S))).symm
  have h3 : Nat.gcd m (f * 2 ^ (64 * S)) = Nat.gcd (f * 2 ^ (64 * S)) m :=
    Nat.gcd_comm _ _
  have h4 : Nat.gcd (2 ^ (64 * S) * f) m = Nat.gcd f m :=
    Nat.Coprime.gcd_mul_left_cancel f (coprime_wbpow S m hodd)
  rw [h1, h2, h3, Nat.mul_comm f _, h4]

/-- Full specification of `ModArith::inv` (shared helper): the Montgomery
inverse when the gcd is 1, zero otherwise, `inv(0) = 0`, and the output is
always below the modulus. -/
theorem modInv_full (S m x : Nat) (hS : 1 ≤ S) (hodd : m % 2 = 1)
    (hm3 : 3 ≤ m) (hmW : m < 2 ^ (64 * S)) (hx : x < m) :
    (Nat.gcd (from_mont S m (montModInv m) x) m = 1 →
      mulMont S m (montModInv m) x (modInv S m x) =
        to_mont S m (montModInv m) 1) ∧
    (Nat.gcd (from_mont S m (montModInv m) x) m ≠ 1 → modInv S m x = 0) ∧
    modInv S m 0 = 0 ∧ modInv S m x < m := by
  have hMi := montModInv_spec m hodd
  have hgbridge := gcd_from_mont S m x hS hodd hm3 hmW hx
  have hr2lt : r_squared S m < m := Nat.mod_lt _ (by omega)
  have hspec := invGo_spec (64 * S) m x (r_squared S m) hodd hm3 hmW
    (x + m + 1) x m (r_squared S m) 0 (by omega) (lt_trans hx hmW) hmW hodd
    (by omega) hr2lt (by omega) rfl
    (by rw [Int.mul_comm])
    (by
      have h0 : ((m : Int)) * (r_squared S m : Int) ≡ 0 [ZMOD (m : Int)] :=
        Int.modEq_zero_iff_dvd.2 ⟨(r_squared S m : Int), rfl⟩
      simpa using h0)
  obtain ⟨hg, hcong, hvlt⟩ := hspec
  refine ⟨?_, ?_, ?_, ?_⟩
  · intro h1
    rw [hgbridge] at h1
    have hb1 : (invGo (64 * S) m (m / 2 + 1) (x + m + 1) x m
        (r_squared S m) 0).1 = 1 := by rw [hg, h1]
    rw [modInv, if_neg (by rw [hb1]; exact fun h => h rfl)]
    set v := (invGo (64 * S) m (m / 2 + 1) (x + m + 1) x m
      (r_squared S m) 0).2 with hvdef
    -- v * x ≡ r_squared (mod m), as naturals.
    rw [hb1] at hcong
    have hvx : v * x ≡ r_squared S m [MOD m] := by
      have hz : ((v * x : Nat) : Int) ≡ ((r_squared S m : Nat) : Int)
          [ZMOD ((m : Nat) : Int)] := by
        push_cast
        have := hcong.symm
        simpa using this
      exact (Int.natCast_modEq_iff).1 hz
    -- to_mont 1 is below m and (to_mont 1) * R ≡ r_squared (mod m).
    obtain ⟨htlt, htc⟩ := mulMont_spec S m (montModInv m) 1 (r_squared S m) hS
      hMi (by omega) hmW (by omega) (lt_trans hr2lt hmW)
    rw [Nat.one_mul] at htc
    refine mulMont_eq_of S m (montModInv m) x v (to_mont S m (montModInv m) 1)
      hS hMi hodd hmW hx (lt_trans hvlt hmW) htlt ?_
    calc to_mont S m (montModInv m) 1 * 2 ^ (64 * S)
        ≡ r_squared S m [MOD m] := htc
      _ ≡ v * x [MOD m] := hvx.symm
      _ = x * v := by ring
  · intro h1
    rw [hgbridge] at h1
    have hb1 : (invGo (64 * S) m (m / 2 + 1) (x + m + 1) x m
        (r_squared S m) 0).1 ≠ 1 := by rw [hg]; exact h1
    rw [modInv, if_pos hb1]
  · have h01 : (0 : Nat) + m + 1 = m + 1 := by omega
    rw [modInv, h01, invGo, if_pos rfl]
    have : m ≠ 1 := by omega
    rw [if_pos this]
  · rw [modInv]
    split
    · omega
    · exact hvlt

/-- C3: for every odd modulus `m ≥ 3` and every Montgomery-form input `x < m`,
`ModArith::inv(x)` returns the Montgomery-form modular inverse of `x` when
`gcd(from_mont(x), m) = 1`, so that `mul(x, inv(x)) = to_mont(1)`; when the
gcd is not 1 it returns 0, and in particular `inv(0) = 0`. -/
theorem modarith_inv_correct (S m x : Nat) (hS : 1 ≤ S) (hodd : m % 2 = 1)
    (hm3 : 3 ≤ m) (hmW : m < 2 ^ (64 * S)) (hx : x < m) :
    (Nat.gcd (from_mont S m (montModInv m) x) m = 1 →
      mulMont S m (montModInv m) x (modInv S m x) =
        to_mont S m (montModInv m) 1) ∧
    (Nat.gcd (from_mont S m (montModInv m) x) m ≠ 1 → modInv S m x = 0) ∧
    modInv S m 0 = 0 := by
  obtain ⟨h1, h2, h3, _⟩ := modInv_full S m x hS hodd hm3 hmW hx
  exact ⟨h1, h2, h3⟩

theorem modarith_inv_correct_witness :
    (1 ≤ 1 ∧ 5 % 2 = 1 ∧ 3 ≤ 5 ∧ 5 < 2 ^ (64 * 1) ∧ 2 < 5) ∧
    ((Nat.gcd (from_mont 1 5 (montModInv 5) 2) 5 = 1 →
        mulMont 1 5 (montModInv 5) 2 (modInv 1 5 2) =
          to_mont 1 5 (montModInv 5) 1) ∧
      (Nat.gcd (from_mont 1 5 (montModInv 5) 2) 5 ≠ 1 → modInv 1 5 2 = 0) ∧
      modInv 1 5 0 = 0) :=
  ⟨⟨by decide, by decide, by decide, by decide, by decide⟩,
    modarith_inv_correct 1 5 2 (by decide) (by decide) (by decide) (by decide)
      (by decide)⟩

theorem wval_lt_of_wf (l : List Nat) (h : wordsWf l) : wval l < wb ^ l.length := by
  induction l with
  | nil => simpa [wval] using Nat.one_pos
  | cons w ws ih =>
    rw [wval_cons, List.length_cons, pow_succ]
    have hw : w < wb := h w (List.mem_cons_self _ _)
    have hws : wval ws < wb ^ ws.length := ih (fun x hx => h x (List.mem_cons_of_mem _ hx))
    calc w + wb * wval ws < wb + wb * wval ws := by omega
      _ = wb * (wval ws + 1) := by ring
      _ ≤ wb * wb ^ ws.length := Nat.mul_le_mul_left _ (by omega)
      _ = wb ^ ws.length * wb := by ring

theorem addmulL_carry_lt (p x : List Nat) (y c : Nat) (hp : wordsWf p)
    (hx : wordsWf x) (hy : y < wb) (hc : c < wb) : (addmulL p x y c).2 < wb := by
  induction p generalizing x c with
  | nil => cases x <;> simpa [addmulL]
  | cons a ps ih =>
    cases x with
    | nil => simpa [addmulL]
    | cons b xs =>
      simp only [addmulL]
      refine ih xs _ (fun w hw => hp w (List.mem_cons_of_mem _ hw))
        (fun w hw => hx w (List.mem_cons_of_mem _ hw)) ?_
      have ha : a < wb := hp a (List.mem_cons_self _ _)
      have hb : b < wb := hx b (List.mem_cons_self _ _)
      have : b * y + a + c ≤ (wb - 1) * (wb - 1) + (wb - 1) + (wb - 1) := by
        have h1 : b * y ≤ (wb - 1) * (wb - 1) :=
          Nat.mul_le_mul (by omega) (by omega)
        omega
      have hwbp := wb_pos
      have h2 : b * y + a + c < wb * wb := by nlinarith
      exact Nat.div_lt_of_lt_mul h2

theorem addmulL_wf (p x : List Nat) (y c : Nat) : wordsWf (addmulL p x y c).1 := by
  induction p generalizing x c with
  | nil => cases x <;> intro w hw <;> simp [addmulL] at hw
  | cons a ps ih =>
    cases x with
    | nil => intro w hw; simp [addmulL] at hw
    | cons b xs =>
      intro w hw
      simp only [addmulL, List.mem_cons] at hw
      rcases hw with hw | hw
      · exact hw ▸ Nat.mod_lt _ wb_pos
      · exact ih xs _ w hw

/-- One outer iteration of the Almost Montgomery Multiplication `mul_amm`
(modexp.cpp): like `ciosIter` but keeping the accumulator as `S` words plus a
one-bit carry `t_carry` (`t_carry = d1 || d2`), skipping the conditional
subtraction. -/
def ammIter (modw : List Nat) (modInv : Nat) (xw : List Nat) (yi : Nat)
    (t : List Nat) (tc : Nat) : List Nat × Nat :=
  let a1 := addmulL t xw yi 0
  let sum1 := (a1.2 + tc) % wb
  let d1 := (a1.2 + tc) / wb
  let t0 := a1.1.headD 0
  let m := t0 * modInv % wb
  let c2 := (modw.headD 0 * m + t0) / wb
  let a2 := addmulL a1.1.tail modw.tail m c2
  let sum2 := (sum1 + a2.2) % wb
  let d2 := (sum1 + a2.2) / wb
  (a2.1 ++ [sum2], max d1 d2)

/-- Value and well-formedness of one AMM iteration: with the carry bit folded
in, it computes exactly the same Montgomery reduction step as `ciosIter`. -/
theorem ammIter_spec (modw : List Nat) (modInv : Nat) (xw : List Nat)
    (yi : Nat) (t : List Nat) (tc : Nat) (S : Nat) (hS : 1 ≤ S)
    (hx : xw.length = S) (hmod : modw.length = S) (ht : t.length = S)
    (hMi : modw.headD 0 * modInv % wb = wb - 1) (hwft : wordsWf t)
    (hwfx : wordsWf xw) (hwfm : wordsWf modw) (hyi : yi < wb) (htc : tc ≤ 1) :
    wval (ammIter modw modInv xw yi t tc).1 +
        (ammIter modw modInv xw yi t tc).2 * wb ^ S =
      montRed (wval modw) modInv (wval t + tc * wb ^ S) (wval xw) yi ∧
    (ammIter modw modInv xw yi t tc).1.length = S ∧
    wordsWf (ammIter modw modInv xw yi t tc).1 ∧
    (ammIter modw modInv xw yi t tc).2 ≤ 1 := by
  obtain ⟨x0, xs, rfl⟩ : ∃ x0 xs, xw = x0 :: xs := by
    cases xw with
    | nil => simp at hx; omega
    | cons a l => exact ⟨a, l, rfl⟩
  obtain ⟨m0, ms, rfl⟩ : ∃ m0 ms, modw = m0 :: ms := by
    cases modw with
    | nil => simp at hmod; omega
    | cons a l => exact ⟨a, l, rfl⟩
  obtain ⟨p0, ps, rfl⟩ : ∃ p0 ps, t = p0 :: ps := by
    cases t with
    | nil => simp at ht; omega
    | cons a l => exact ⟨a, l, rfl⟩
  simp only [List.headD_cons] at hMi
  have hlen' : (p0 :: ps).length = (x0 :: xs).length := by rw [ht, hx]
  rw [ammIter]
  simp only [List.headD_cons, List.tail_cons]
  rcases h1 : addmulL (p0 :: ps) (x0 :: xs) yi 0 with ⟨r1, c1⟩
  have hc1 : c1 < wb := by
    have h := addmulL_carry_lt (p0 :: ps) (x0 :: xs) yi 0 hwft hwfx hyi wb_pos
    rw [h1] at h
    exact h
  have hr1len : r1.length = S := by
    have h := addmulL_length (p0 :: ps) (x0 :: xs) yi 0 hlen'
    rw [h1] at h
    rw [← ht]
    exact h
  have hr1wf : wordsWf r1 := by
    have h := addmulL_wf (p0 :: ps) (x0 :: xs) yi 0
    rw [h1] at h
    exact h
  have hr1ne : r1 ≠ [] := by
    intro h; rw [h] at hr1len; simp at hr1len; omega
  have e1 : wval r1 + c1 * wb ^ S = wval (p0 :: ps) + wval (x0 :: xs) * yi := by
    have h := addmulL_spec (p0 :: ps) (x0 :: xs) yi 0 hlen'
    rw [h1] at h
    dsimp only at h
    rw [ht] at h
    simpa using h
  have ht0 : r1.headD 0 = (x0 * yi + p0 + 0) % wb := by
    have h := addmulL_head p0 x0 ps xs yi 0
    rw [h1] at h
    exact h
  have e6 : wval r1 = r1.headD 0 + wb * wval r1.tail := by
    conv_lhs => rw [cons_headD_tail hr1ne]
    rw [wval_cons]
  set t0 := r1.headD 0 with ht0def
  have ht0lt : t0 < wb := hr1wf t0 (by
    rw [cons_headD_tail hr1ne]
    exact List.mem_cons_self _ _)
  set m := t0 * modInv % wb with hm
  set c2 := (m0 * m + t0) / wb with hc2
  have hc2lt : c2 < wb := by
    rw [hc2]
    have hm0 : m0 < wb := hwfm m0 (List.mem_cons_self _ _)
    have hmlt : m < wb := Nat.mod_lt _ wb_pos
    have hwbp := wb_pos
    have : m0 * m + t0 < wb * wb := by nlinarith
    exact Nat.div_lt_of_lt_mul this
  rcases h2 : addmulL r1.tail ms m c2 with ⟨r2, c3⟩
  have hr1tlen : r1.tail.length = S - 1 := by rw [List.length_tail, hr1len]
  have hmslen : ms.length = S - 1 := by
    have := hmod; simp only [List.length_cons] at this; omega
  have hr2len : r2.length = S - 1 := by
    have h := addmulL_length r1.tail ms m c2 (by rw [hr1tlen, hmslen])
    rw [h2] at h
    dsimp only at h
    rw [hr1tlen] at h
    exact h
  have hc3 : c3 < wb := by
    have h := addmulL_carry_lt r1.tail ms m c2
      (fun w hw => hr1wf w (List.mem_of_mem_tail hw))
      (fun w hw => hwfm w (List.mem_cons_of_mem _ hw)) (Nat.mod_lt _ wb_pos) hc2lt
    rw [h2] at h
    exact h
  have hr2wf : wordsWf r2 := by
    have h := addmulL_wf r1.tail ms m c2
    rw [h2] at h
    exact h
  have e2 : wval r2 + c3 * wb ^ (S - 1) = wval r1.tail + wval ms * m + c2 := by
    have h := addmulL_spec r1.tail ms m c2 (by rw [hr1tlen, hmslen])
    rw [h2] at h
    dsimp only at h
    rw [hr1tlen] at h
    exact h
  -- Carry analysis: at most one of d1, d2 is set.
  have hd1le : (c1 + tc) / wb ≤ 1 := by
    have h := (Nat.div_lt_iff_lt_mul wb_pos).2 (show c1 + tc < 2 * wb by omega)
    omega
  have hd2le : ((c1 + tc) % wb + c3) / wb ≤ 1 := by
    have h1' : (c1 + tc) % wb < wb := Nat.mod_lt _ wb_pos
    have h := (Nat.div_lt_iff_lt_mul wb_pos).2
      (show (c1 + tc) % wb + c3 < 2 * wb by omega)
    omega
  have hmax : max ((c1 + tc) / wb) (((c1 + tc) % wb + c3) / wb) =
      (c1 + tc) / wb + ((c1 + tc) % wb + c3) / wb := by
    by_cases hd1 : (c1 + tc) / wb = 0
    · rw [hd1]
      simp
    · have hd1' : (c1 + tc) / wb = 1 :=
        Nat.le_antisymm hd1le (Nat.one_le_iff_ne_zero.2 hd1)
      have hdm := Nat.div_add_mod (c1 + tc) wb
      rw [hd1'] at hdm
      have hs1 : (c1 + tc) % wb = 0 := by omega
      have hd2 : ((c1 + tc) % wb + c3) / wb = 0 := by
        rw [hs1, Nat.zero_add]
        exact Nat.div_eq_of_lt hc3
      rw [hd1', hd2]
      decide
  -- Low word of the reduction pass vanishes.
  have hlow : (m * m0 + t0) % wb = 0 := mont_low_cancel t0 m0 modInv hMi
  have e5 : wb * c2 = m * m0 + t0 := by
    rw [hc2, Nat.mul_comm m0 m]
    have h := Nat.div_add_mod (m * m0 + t0) wb
    rw [hlow] at h
    simpa using h
  have e3 : (c1 + tc) % wb + wb * ((c1 + tc) / wb) = c1 + tc := Nat.mod_add_div _ _
  have e4 : ((c1 + tc) % wb + c3) % wb + wb * (((c1 + tc) % wb + c3) / wb) =
      (c1 + tc) % wb + c3 := Nat.mod_add_div _ _
  have hAmod : (wval (p0 :: ps) + tc * wb ^ S + wval (x0 :: xs) * yi) % wb = t0 := by
    have hSpow : wb ^ S = wb * wb ^ (S - 1) := by
      rw [← pow_succ']
      congr 1
      omega
    have hexp : wval (p0 :: ps) + tc * wb ^ S + wval (x0 :: xs) * yi =
        x0 * yi + p0 + 0 + wb * (wval ps + tc * wb ^ (S - 1) + wval xs * yi) := by
      simp only [wval_cons, hSpow]
      ring
    rw [hexp, Nat.add_mul_mod_self_left]
    exact ht0.symm
  have hSdec : S - 1 + 1 = S := by omega
  have hpow : wb ^ S = wb ^ (S - 1) * wb := by rw [← pow_succ, hSdec]
  -- Assemble.
  have hW : wval (r2 ++ [((c1 + tc) % wb + c3) % wb]) =
      wval r2 + wb ^ (S - 1) * (((c1 + tc) % wb + c3) % wb) := by
    rw [wval_append_single, hr2len]
  have hkey : wb * (wval (r2 ++ [((c1 + tc) % wb + c3) % wb]) +
        ((c1 + tc) / wb + ((c1 + tc) % wb + c3) / wb) * wb ^ S) =
      wval (p0 :: ps) + tc * wb ^ S + wval (x0 :: xs) * yi +
        m * wval (m0 :: ms) := by
    have hmval : wval (m0 :: ms) = m0 + wb * wval ms := wval_cons _ _
    rw [hW, hmval]
    zify at e1 e2 e3 e4 e5 e6 hpow ⊢
    linear_combination (wb : ℤ) * e2 + (wb : ℤ) * (wb : ℤ) ^ (S - 1) * e4 +
      (wb : ℤ) * (wb : ℤ) ^ (S - 1) * e3 + e5 - e6 + e1 -
      ((tc : ℤ) + (c1 : ℤ) - (wb : ℤ) * (((c1 : ℤ) + (tc : ℤ)) / (wb : ℤ) +
        (((c1 : ℤ) + (tc : ℤ)) % (wb : ℤ) + (c3 : ℤ)) / (wb : ℤ))) * hpow
  refine ⟨?_, ?_, ?_, ?_⟩
  · dsimp only
    rw [hmax, montRed, hAmod]
    rw [← hkey, Nat.mul_div_cancel_left _ wb_pos]
  · dsimp only
    rw [List.length_append, hr2len, List.length_cons, List.length_nil]
    omega
  · dsimp only
    intro w hw
    rw [List.mem_append] at hw
    rcases hw with hw | hw
    · exact hr2wf w hw
    · rw [List.mem_singleton] at hw
      exact hw ▸ Nat.mod_lt _ wb_pos
  · dsimp only
    omega

/-- The outer loop of `mul_amm` over the words of `y`. -/
def ammLoop (modw : List Nat) (modInv : Nat) (xw : List Nat) :
    List Nat → List Nat × Nat → List Nat × Nat
  | [], st => st
  | yi :: ys, st => ammLoop modw modInv xw ys (ammIter modw modInv xw yi st.1 st.2)

theorem ammLoop_spec (modw : List Nat) (modInv : Nat) (xw : List Nat)
    (S : Nat) (hS : 1 ≤ S) (hx : xw.length = S) (hmod : modw.length = S)
    (hMi : modw.headD 0 * modInv % wb = wb - 1) (hwfx : wordsWf xw)
    (hwfm : wordsWf modw) :
    ∀ (ys : List Nat) (t : List Nat) (tc : Nat), t.length = S → wordsWf t →
      tc ≤ 1 → wordsWf ys →
      wval (ammLoop modw modInv xw ys (t, tc)).1 +
          (ammLoop modw modInv xw ys (t, tc)).2 * wb ^ S =
        montLoop (wval modw) modInv (wval xw) ys (wval t + tc * wb ^ S) ∧
      (ammLoop modw modInv xw ys (t, tc)).1.length = S ∧
      wordsWf (ammLoop modw modInv xw ys (t, tc)).1 ∧
      (ammLoop modw modInv xw ys (t, tc)).2 ≤ 1 := by
  intro ys
  induction ys with
  | nil =>
    intro t tc ht hwft htc _
    exact ⟨rfl, ht, hwft, htc⟩
  | cons yi ys ih =>
    intro t tc ht hwft htc hwfy
    have hyi : yi < wb := hwfy yi (List.mem_cons_self _ _)
    obtain ⟨hval, hlen, hwf, hcar⟩ := ammIter_spec modw modInv xw yi t tc S hS
      hx hmod ht hMi hwft hwfx hwfm hyi htc
    have hwfy' : wordsWf ys := fun w hw => hwfy w (List.mem_cons_of_mem _ hw)
    rw [ammLoop, montLoop]
    rcases hstep : ammIter modw modInv xw yi t tc with ⟨t', tc'⟩
    rw [hstep] at hval hlen hwf hcar
    obtain ⟨ih1, ih2, ih3, ih4⟩ := ih t' tc' hlen hwf hcar hwfy'
    rw [ih1, hval]
    exact ⟨rfl, ih2, ih3, ih4⟩

/-- Exact form of the Montgomery CIOS loop: the result times `wb^n` equals the
input plus `x·(value of y)` plus a multiple `Q < wb^n` of the modulus. -/
theorem montLoop_exact (mval modInv xv : Nat)
    (hMi : mval % wb * modInv % wb = wb - 1) :
    ∀ (ys : List Nat) (t : Nat), wordsWf ys →
      ∃ Q < wb ^ ys.length,
        montLoop mval modInv xv ys t * wb ^ ys.length = t + xv * wval ys + Q * mval := by
  intro ys
  induction ys with
  | nil =>
    intro t _
    exact ⟨0, Nat.one_pos, by simp [montLoop, wval]⟩
  | cons yi ys ih =>
    intro t hwfy
    obtain ⟨Q, hQlt, hQ⟩ := ih (montRed mval modInv t xv yi)
      (fun w hw => hwfy w (List.mem_cons_of_mem _ hw))
    have hstep := montRed_mul_wb mval modInv t xv yi hMi
    set q := (t + xv * yi) % wb * modInv % wb with hq
    have hqlt : q < wb := Nat.mod_lt _ wb_pos
    refine ⟨q + wb * Q, ?_, ?_⟩
    · rw [List.length_cons, pow_succ]
      have hwbp := wb_pos
      have hP1 : 1 ≤ wb ^ ys.length := Nat.one_le_pow _ _ hwbp
      nlinarith [hqlt, hQlt]
    · rw [montLoop, List.length_cons, pow_succ, wval_cons]
      calc montLoop mval modInv xv ys (montRed mval modInv t xv yi) *
            (wb ^ ys.length * wb)
          = montLoop mval modInv xv ys (montRed mval modInv t xv yi) *
              wb ^ ys.length * wb := by ring
        _ = (montRed mval modInv t xv yi + xv * wval ys + Q * mval) * wb := by
            rw [hQ]
        _ = montRed mval modInv t xv yi * wb + xv * (wb * wval ys) +
              wb * Q * mval := by ring
        _ = t + xv * yi + q * mval + xv * (wb * wval ys) + wb * Q * mval := by
            rw [hstep]
        _ = t + xv * (yi + wb * wval ys) + (q + wb * Q) * mval := by ring

/-- `mul_amm<UintT>` (modexp.cpp): the Almost Montgomery Multiplication,
running the AMM loop from a zero accumulator; if the final carry is set
(`t >= R`) the modulus is subtracted once with `UintT` wrap-around. -/
def mulAmm (S modv modInv xv yv : Nat) : Nat :=
  let r := ammLoop (toWords S modv) modInv (toWords S xv) (toWords S yv)
    (List.replicate S 0, 0)
  if r.2 = 0 then wval r.1
  else (wval r.1 + 2 ^ (64 * S) - modv) % 2 ^ (64 * S)

/-- Functional properties of `mul_amm`: the result is a full-width value
(below `R`, not necessarily below the modulus) congruent to `x·y·R⁻¹`, and at
most `m` when converting out of Montgomery form with `y = 1`. -/
theorem mulAmm_spec (S modv modInv xv yv : Nat) (hS : 1 ≤ S)
    (hMi : modv % wb * modInv % wb = wb - 1) (hm1 : 1 ≤ modv)
    (hmW : modv < 2 ^ (64 * S)) (hx : xv < 2 ^ (64 * S)) (hy : yv < 2 ^ (64 * S)) :
    mulAmm S modv modInv xv yv < 2 ^ (64 * S) ∧
    mulAmm S modv modInv xv yv * 2 ^ (64 * S) ≡ xv * yv [MOD modv] ∧
    (yv = 1 → mulAmm S modv modInv xv yv ≤ modv) := by
  have hmw : wval (toWords S modv) = modv := by
    rw [wval_toWords, Nat.mod_eq_of_lt hmW]
  have hxw : wval (toWords S xv) = xv := by
    rw [wval_toWords, Nat.mod_eq_of_lt hx]
  have hyw : wval (toWords S yv) = yv := by
    rw [wval_toWords, Nat.mod_eq_of_lt hy]
  have hMihead : (toWords S modv).headD 0 * modInv % wb = wb - 1 := by
    rw [toWords_headD S modv hS]; exact hMi
  have hloop := ammLoop_spec (toWords S modv) modInv (toWords S xv) S hS
    (toWords_length S xv) (toWords_length S modv) hMihead (toWords_wf S xv)
    (toWords_wf S modv) (toWords S yv) (List.replicate S 0) 0
    (List.length_replicate _ _) (by
      intro w hw
      rw [List.eq_of_mem_replicate hw]
      exact wb_pos) (by omega) (toWords_wf S yv)
  rw [wval_replicate_zero, hmw, hxw] at hloop
  simp only [Nat.zero_mul, Nat.add_zero, Nat.zero_add] at hloop
  obtain ⟨hval, hlen, hwf, hcar⟩ := hloop
  rcases hres : ammLoop (toWords S modv) modInv (toWords S xv) (toWords S yv)
    (List.replicate S 0, 0) with ⟨rl, rc⟩
  rw [hres] at hval hlen hwf hcar
  dsimp only at hval hlen hwf hcar
  set T := montLoop modv modInv xv (toWords S yv) 0 with hT
  have hTlt : T < modv + xv :=
    montLoop_lt modv modInv xv (toWords S yv) 0 (by omega) (toWords_wf S yv)
  have hTmod : T * wb ^ (toWords S yv).length ≡ 0 + xv * wval (toWords S yv)
      [MOD modv] := montLoop_modeq modv modInv xv (toWords S yv) 0 hMi
  rw [toWords_length, hyw, Nat.zero_add, wb_pow] at hTmod
  have hrl_lt : wval rl < 2 ^ (64 * S) := by
    have := wval_lt_of_wf rl hwf
    rw [hlen, wb_pow] at this
    exact this
  have hsimp0 : T = wval rl + rc * wb ^ S := hval.symm
  rw [wb_pow] at hsimp0
  have hmain : mulAmm S modv modInv xv yv < 2 ^ (64 * S) ∧
      mulAmm S modv modInv xv yv ≡ T [MOD modv] := by
    rw [mulAmm, hres]
    dsimp only
    by_cases hc : rc = 0
    · rw [if_pos hc]
      subst hc
      rw [Nat.zero_mul, Nat.add_zero] at hsimp0
      exact ⟨hrl_lt, hsimp0 ▸ Nat.ModEq.refl _⟩
    · rw [if_neg hc]
      have hc1 : rc = 1 := by omega
      subst hc1
      rw [Nat.one_mul] at hsimp0
      have hrlm : wval rl < modv := by omega
      have hmod : (wval rl + 2 ^ (64 * S) - modv) % 2 ^ (64 * S) =
          wval rl + 2 ^ (64 * S) - modv := Nat.mod_eq_of_lt (by omega)
      rw [hmod]
      constructor
      · omega
      · have heq : wval rl + 2 ^ (64 * S) - modv = T - modv := by omega
        rw [heq]
        have hTm : modv ≤ T := by omega
        unfold Nat.ModEq
        conv_rhs => rw [← Nat.sub_add_cancel hTm]
        rw [Nat.add_mod_right]
  refine ⟨hmain.1, (hmain.2.mul_right _).trans hTmod, ?_⟩
  -- With y = 1 the result is at most the modulus.
  intro hy1
  subst hy1
  obtain ⟨Q, hQlt, hQ⟩ := montLoop_exact modv modInv xv hMi (toWords S 1) 0
    (toWords_wf S 1)
  rw [toWords_length] at hQ hQlt
  rw [hyw] at hQ
  rw [← hT] at hQ
  have hTle : T ≤ modv := by
    have hbound : T * wb ^ S < (modv + 1) * wb ^ S := by
      rw [hQ]
      have h1 : xv ≤ wb ^ S - 1 := by rw [wb_pow]; omega
      have h2 : Q ≤ wb ^ S - 1 := by omega
      have hP1 : 1 ≤ wb ^ S := Nat.one_le_pow _ _ wb_pos
      have h3 : Q * modv ≤ (wb ^ S - 1) * modv := Nat.mul_le_mul_right _ h2
      have h4 : 0 + xv * 1 + Q * modv ≤ (wb ^ S - 1) + (wb ^ S - 1) * modv := by
        omega
      calc 0 + xv * 1 + Q * modv ≤ (wb ^ S - 1) + (wb ^ S - 1) * modv := h4
        _ = (wb ^ S - 1) * (modv + 1) := by ring
        _ < (modv + 1) * wb ^ S := by
            rw [Nat.mul_comm (wb ^ S - 1) (modv + 1)]
            exact mul_lt_mul_of_pos_left (by omega) (by omega)
    have := Nat.lt_of_mul_lt_mul_right hbound
    omega
  have hrc0 : rc = 0 := by
    rcases Nat.eq_zero_or_pos rc with h0 | h0
    · exact h0
    · exfalso
      have hrc1 : rc = 1 := by omega
      rw [hrc1, Nat.one_mul] at hsimp0
      have hP1 : modv < 2 ^ (64 * S) := hmW
      omega
  rw [mulAmm, hres]
  dsimp only
  rw [if_pos hrc0]
  rw [hrc0, Nat.zero_mul, Nat.add_zero] at hsimp0
  omega

/-! ### The `Exponent` view of `modexp.cpp`

`Exponent` wraps the big-endian exponent bytes: construction trims leading
zero bytes and records the bit width; `operator[]` indexes the bits from the
most significant end (`e[0]` is the top bit, so `e[bit_width-1-i]` is bit `i`
of the value). We embed byte strings as `List Nat` (big-endian, each < 256). -/

/-- `std::bit_width` on a byte, by fuel-bounded halving (8 steps suffice). -/
def bwGo : Nat → Nat → Nat
  | 0, _ => 0
  | f + 1, b => if b = 0 then 0 else bwGo f (b / 2) + 1

/-- `std::bit_width(trimmed_bytes[0])` for a byte value. -/
def byteWidth (b : Nat) : Nat := bwGo 8 b

/-- Big-endian value of a byte string. -/
def beVal : List Nat → Nat
  | [] => 0
  | b :: bs => b * 256 ^ bs.length + beVal bs

/-- The leading-zero-byte trimming in `Exponent`'s constructor
(`std::ranges::find_if(bytes, [](auto x) \x7b return x != 0; \x7d)`). -/
def trimBytes (bs : List Nat) : List Nat := bs.dropWhile (fun b => b == 0)

/-- `Exponent::bit_width()`: `0` for an all-zero string, otherwise
`bit_width(trimmed[0]) + 8*(trimmed.size() - 1)`. -/
def expWidth (bs : List Nat) : Nat :=
  match trimBytes bs with
  | [] => 0
  | b :: rest => byteWidth b + 8 * rest.length

/-- `Exponent::operator[]` re-indexed from the least significant end: the C++
code is called as `exp[i - 1]` with `i` counting down from `bit_width`, i.e.
the loop reads bit `index` where `byte = data[exp_size - 1 - index/8]` and the
bit is `(byte >> index%8) & 1`. -/
def expBit (bs : List Nat) (i : Nat) : Bool :=
  Nat.testBit ((trimBytes bs).getD ((expWidth bs + 7) / 8 - 1 - i / 8) 0) (i % 8)

theorem bwGo_spec (f : Nat) : ∀ b, b < 2 ^ f →
    b < 2 ^ bwGo f b ∧ (b ≠ 0 → 2 ^ (bwGo f b - 1) ≤ b) := by
  induction f with
  | zero => intro b hb; interval_cases b; exact ⟨Nat.zero_lt_one, by omega⟩
  | succ f ih =>
    intro b hb
    by_cases h0 : b = 0
    · subst h0; simp [bwGo]
    · rw [bwGo, if_neg h0]
      have hhalf : b / 2 < 2 ^ f := by
        rw [pow_succ] at hb
        omega
      obtain ⟨ih1, ih2⟩ := ih (b / 2) hhalf
      constructor
      · rw [pow_succ]
        omega
      · intro _
        by_cases h2 : b / 2 = 0
        · have hz : bwGo f (b / 2) = 0 := by
            rw [h2]; cases f <;> simp [bwGo]
          rw [hz]
          have h01 : (0 : Nat) + 1 - 1 = 0 := rfl
          rw [h01, pow_zero]
          omega
        · have h3 := ih2 h2
          have hw1 : 1 ≤ bwGo f (b / 2) := by
            rcases Nat.eq_zero_or_pos (bwGo f (b / 2)) with h4 | h4
            · rw [h4, pow_zero] at ih1
              omega
            · exact h4
          have : 2 ^ (bwGo f (b / 2) + 1 - 1) = 2 * 2 ^ (bwGo f (b / 2) - 1) := by
            rw [← pow_succ']
            congr 1
            omega
          rw [this]
          omega

theorem byteWidth_spec (b : Nat) (hb : b < 256) :
    b < 2 ^ byteWidth b ∧ (b ≠ 0 → 2 ^ (byteWidth b - 1) ≤ b) :=
  bwGo_spec 8 b (by norm_num; omega)

theorem byteWidth_le (b : Nat) (hb : b < 256) : byteWidth b ≤ 8 := by
  by_contra h
  push_neg at h
  obtain ⟨_, h2⟩ := byteWidth_spec b hb
  have hb0 : b ≠ 0 := by
    rintro rfl
    simp [byteWidth, bwGo] at h
  have := h2 hb0
  have h8 : (2 : Nat) ^ 8 ≤ 2 ^ (byteWidth b - 1) :=
    Nat.pow_le_pow_right (by norm_num) (by omega)
  norm_num at h8
  omega

theorem byteWidth_pos (b : Nat) (hb : b ≠ 0) : 1 ≤ byteWidth b := by
  by_contra h
  push_neg at h
  interval_cases h4 : byteWidth b
  revert h4
  rw [byteWidth]
  rcases b with _ | b
  · omega
  · simp [bwGo]

theorem beVal_trimBytes (bs : List Nat) : beVal (trimBytes bs) = beVal bs := by
  induction bs with
  | nil => rfl
  | cons b rest ih =>
    rw [trimBytes, List.dropWhile_cons]
    by_cases h : b = 0
    · subst h
      simp only [beq_self_eq_true, if_pos]
      rw [← trimBytes, ih, beVal]
      omega
    · rw [if_neg (by simpa using h)]

theorem trimBytes_head_ne (bs : List Nat) (b : Nat) (rest : List Nat)
    (h : trimBytes bs = b :: rest) : b ≠ 0 := by
  induction bs with
  | nil => exact absurd h (by simp [trimBytes])
  | cons a as ih =>
    rw [trimBytes, List.dropWhile_cons] at h
    by_cases ha : a = 0
    · subst ha
      simp only [beq_self_eq_true, if_pos] at h
      exact ih h
    · rw [if_neg (by simpa using ha)] at h
      have : a = b := by injection h
      omega

theorem trimBytes_mem (bs : List Nat) (b : Nat) (h : b ∈ trimBytes bs) :
    b ∈ bs := (List.dropWhile_sublist _).subset h

theorem beVal_lt (bs : List Nat) (hb : ∀ b ∈ bs, b < 256) :
    beVal bs < 256 ^ bs.length := by
  induction bs with
  | nil => exact Nat.zero_lt_one
  | cons b rest ih =>
    rw [beVal, List.length_cons, pow_succ']
    have h1 : b < 256 := hb b (List.mem_cons_self b rest)
    have h2 : beVal rest < 256 ^ rest.length :=
      ih (fun x hx => hb x (List.mem_cons_of_mem _ hx))
    nlinarith

theorem testBit_add_low (a v k i : Nat) (hv : v < 2 ^ k) (hi : i < k) :
    Nat.testBit (a * 2 ^ k + v) i = Nat.testBit v i := by
  rw [Nat.testBit_to_div_mod, Nat.testBit_to_div_mod]
  have h1 : (2 : Nat) ^ k = 2 ^ (k - i) * 2 ^ i := by
    rw [← pow_add]
    congr 1
    omega
  have h2 : (a * 2 ^ k + v) / 2 ^ i = v / 2 ^ i + a * 2 ^ (k - i) := by
    rw [h1, ← Nat.mul_assoc, Nat.add_comm]
    exact Nat.add_mul_div_right v (a * 2 ^ (k - i)) (Nat.pos_pow_of_pos i (by norm_num))
  rw [h2]
  have h3 : a * 2 ^ (k - i) = a * 2 ^ (k - i - 1) * 2 := by
    rw [Nat.mul_assoc, ← pow_succ]
    congr 2
    omega
  rw [h3, Nat.add_mul_mod_self_right]

theorem testBit_add_high (a v k i : Nat) (hv : v < 2 ^ k) (hi : k ≤ i) :
    Nat.testBit (a * 2 ^ k + v) i = Nat.testBit a (i - k) := by
  rw [Nat.testBit_to_div_mod, Nat.testBit_to_div_mod]
  have h1 : (2 : Nat) ^ i = 2 ^ k * 2 ^ (i - k) := by
    rw [← pow_add]
    congr 1
    omega
  have h2 : (a * 2 ^ k + v) / 2 ^ k = a + v / 2 ^ k := by
    rw [Nat.add_comm, Nat.add_mul_div_right v a (Nat.pos_pow_of_pos k (by norm_num))]
    omega
  rw [h1, ← Nat.div_div_eq_div_mul, h2, Nat.div_eq_of_lt hv, Nat.add_zero]

theorem pow256_eq (L : Nat) : (256 : Nat) ^ L = 2 ^ (8 * L) := by
  rw [pow_mul]
  norm_num

/-- Reading bit `i` of a big-endian byte string: it is bit `i % 8` of the byte
`length - 1 - i/8` (counting from the front). -/
theorem beVal_testBit (t : List Nat) (hb : ∀ b ∈ t, b < 256) (i : Nat)
    (hi : i < 8 * t.length) :
    Nat.testBit (beVal t) i = Nat.testBit (t.getD (t.length - 1 - i / 8) 0) (i % 8) := by
  induction t with
  | nil => simp at hi
  | cons b rest ih =>
    have hrest : ∀ x ∈ rest, x < 256 := fun x hx => hb x (List.mem_cons_of_mem _ hx)
    have hv : beVal rest < 2 ^ (8 * rest.length) := by
      rw [← pow256_eq]
      exact beVal_lt rest hrest
    rw [beVal, pow256_eq]
    by_cases hlow : i < 8 * rest.length
    · rw [testBit_add_low _ _ _ _ hv hlow, ih hrest hlow]
      have hq : i / 8 < rest.length := by omega
      have hidx : (b :: rest).length - 1 - i / 8 = (rest.length - 1 - i / 8) + 1 := by
        rw [List.length_cons]
        omega
      rw [hidx, List.getD_cons_succ]
    · rw [testBit_add_high _ _ _ _ hv (by omega)]
      have hq : i / 8 = rest.length := by
        rw [List.length_cons] at hi
        omega
      have hidx : (b :: rest).length - 1 - i / 8 = 0 := by
        rw [List.length_cons]
        omega
      have hbit : i - 8 * rest.length = i % 8 := by omega
      rw [hidx, List.getD_cons_zero, hbit]

theorem expWidth_eq (bs : List Nat) (b : Nat) (rest : List Nat)
    (ht : trimBytes bs = b :: rest) :
    expWidth bs = byteWidth b + 8 * rest.length := by
  unfold expWidth
  rw [ht]

theorem expWidth_eq_zero (bs : List Nat) (ht : trimBytes bs = []) :
    expWidth bs = 0 := by
  unfold expWidth
  rw [ht]

/-- The trimmed byte string is `(bit_width + 7) / 8` bytes long. -/
theorem trimBytes_length (bs : List Nat) (hb : ∀ b ∈ bs, b < 256)
    (hne : trimBytes bs ≠ []) :
    (expWidth bs + 7) / 8 = (trimBytes bs).length := by
  rcases ht : trimBytes bs with _ | ⟨b, rest⟩
  · exact absurd ht hne
  · have hbne : b ≠ 0 := trimBytes_head_ne bs b rest ht
    have hblt : b < 256 := hb b (trimBytes_mem bs b (ht ▸ List.mem_cons_self b rest))
    have h1 := byteWidth_pos b hbne
    have h8 := byteWidth_le b hblt
    rw [expWidth_eq bs b rest ht, List.length_cons]
    omega

/-- `Exponent::operator[]`, re-indexed from the least-significant bit, reads
exactly the binary digits of the byte string's value. -/
theorem expBit_eq_testBit (bs : List Nat) (hb : ∀ b ∈ bs, b < 256) (i : Nat)
    (hi : i < expWidth bs) :
    expBit bs i = Nat.testBit (beVal bs) i := by
  have hne : trimBytes bs ≠ [] := by
    intro h
    rw [expWidth_eq_zero bs h] at hi
    omega
  have htb : ∀ b ∈ trimBytes bs, b < 256 := fun b h => hb b (trimBytes_mem bs b h)
  have hlen := trimBytes_length bs hb hne
  have hi8 : i < 8 * (trimBytes bs).length := by
    rcases ht : trimBytes bs with _ | ⟨b, rest⟩
    · exact absurd ht hne
    · have hbne : b ≠ 0 := trimBytes_head_ne bs b rest ht
      have hblt : b < 256 := hb b (trimBytes_mem bs b (ht ▸ List.mem_cons_self b rest))
      have h8 := byteWidth_le b hblt
      rw [expWidth_eq bs b rest ht] at hi
      rw [List.length_cons]
      omega
  rw [expBit, hlen, ← beVal_testBit (trimBytes bs) htb i hi8, beVal_trimBytes]

/-- The value of the exponent bytes lies in `[2^(bw-1), 2^bw)` (for a nonzero
exponent), i.e. `bit_width` is the exact bit length of the value. -/
theorem beVal_bounds (bs : List Nat) (hb : ∀ b ∈ bs, b < 256) :
    beVal bs < 2 ^ expWidth bs ∧
      (trimBytes bs ≠ [] → 2 ^ (expWidth bs - 1) ≤ beVal bs) := by
  rcases ht : trimBytes bs with _ | ⟨b, rest⟩
  · constructor
    · rw [← beVal_trimBytes, ht, expWidth_eq_zero bs ht]
      norm_num [beVal]
    · intro h
      exact absurd rfl h
  · have hbne : b ≠ 0 := trimBytes_head_ne bs b rest ht
    have hblt : b < 256 := hb b (trimBytes_mem bs b (ht ▸ List.mem_cons_self b rest))
    have hrest : ∀ x ∈ rest, x < 256 := fun x hx =>
      hb x (trimBytes_mem bs x (ht ▸ List.mem_cons_of_mem b hx))
    obtain ⟨hbw1, hbw2⟩ := byteWidth_spec b hblt
    have h1 := byteWidth_pos b hbne
    have hrlt : beVal rest < 2 ^ (8 * rest.length) := by
      rw [← pow256_eq]
      exact beVal_lt rest hrest
    rw [expWidth_eq bs b rest ht, ← beVal_trimBytes, ht, beVal, pow256_eq]
    constructor
    · have hsplit : (2 : Nat) ^ (byteWidth b + 8 * rest.length) =
          2 ^ byteWidth b * 2 ^ (8 * rest.length) := by rw [pow_add]
      rw [hsplit]
      nlinarith
    · intro _
      have hsplit : (2 : Nat) ^ (byteWidth b + 8 * rest.length - 1) =
          2 ^ (byteWidth b - 1) * 2 ^ (8 * rest.length) := by
        rw [← pow_add]
        congr 1
        omega
      rw [hsplit]
      have := hbw2 hbne
      nlinarith [Nat.pos_pow_of_pos (8 * rest.length) (show 0 < 2 by norm_num)]

/-- One step of the binary expansion read MSB-first:
`E >>> i = 2·(E >>> (i+1)) + bit i`. -/
theorem shiftRight_succ_decomp (E i : Nat) :
    E >>> i = 2 * (E >>> (i + 1)) + (if Nat.testBit E i then 1 else 0) := by
  rw [Nat.shiftRight_eq_div_pow, Nat.shiftRight_eq_div_pow, Nat.testBit_to_div_mod,
    pow_succ, ← Nat.div_div_eq_div_mul]
  by_cases h : E / 2 ^ i % 2 = 1
  · rw [if_pos (by simpa using h)]
    omega
  · rw [if_neg (by simpa using h)]
    omega

/-- For a value of exact bit length `bw`, shifting right by `bw - 1` leaves
exactly the top bit. -/
theorem shiftRight_top (E bw : Nat) (hbw : bw ≠ 0) (h1 : 2 ^ (bw - 1) ≤ E)
    (h2 : E < 2 ^ bw) : E >>> (bw - 1) = 1 := by
  rw [Nat.shiftRight_eq_div_pow]
  have hp : 0 < 2 ^ (bw - 1) := Nat.pos_pow_of_pos _ (by norm_num)
  have hge : 1 ≤ E / 2 ^ (bw - 1) := (Nat.one_le_div_iff hp).2 h1
  have hlt : E / 2 ^ (bw - 1) < 2 := by
    rw [Nat.div_lt_iff_lt_mul hp]
    have : (2 : Nat) ^ (bw - 1) * 2 = 2 ^ bw := by
      rw [← pow_succ]
      congr 1
      omega
    omega
  omega

/-- The square-and-multiply loop of `modexp_odd` (Montgomery-multiplication
version, modexp.cpp):
`for (i = bit_width-1; i != 0; --i) \x7b ret = mul_mont(ret, ret);
if (exp[i-1]) ret = mul_mont(ret, base_mont); \x7d`, with the loop counter as
structural fuel (fuel `i` stands for counter value `i`, reading exponent bit
`i - 1`, i.e. bit `i-1` from the least-significant end). -/
def oddLoopMont (S modv modInv baseMont : Nat) (bit : Nat → Bool) :
    Nat → Nat → Nat
  | 0, ret => ret
  | i + 1, ret =>
    oddLoopMont S modv modInv baseMont bit i
      (if bit i then
        mulMont S modv modInv (mulMont S modv modInv ret ret) baseMont
      else mulMont S modv modInv ret ret)

/-- `modexp_odd` (Montgomery version, modexp.cpp): converts the base into
Montgomery form by division (`base·R % mod`), seeds `ret_mont = base_mont`,
runs the MSB-first square-and-multiply loop, and converts back with
`mul_mont(ret, 1)`. -/
def modexpOddMont (S modv basev : Nat) (ebytes : List Nat) : Nat :=
  mulMont S modv (montModInv modv)
    (oddLoopMont S modv (montModInv modv) (basev * 2 ^ (64 * S) % modv)
      (expBit ebytes) (expWidth ebytes - 1) (basev * 2 ^ (64 * S) % modv)) 1

/-- The square-and-multiply loop of `modexp_odd` (AMM version, modexp.cpp):
identical shape, with `mul_amm` in place of `mul_mont`. -/
def oddLoopAmm (S modv modInv baseMont : Nat) (bit : Nat → Bool) :
    Nat → Nat → Nat
  | 0, ret => ret
  | i + 1, ret =>
    oddLoopAmm S modv modInv baseMont bit i
      (if bit i then
        mulAmm S modv modInv (mulAmm S modv modInv ret ret) baseMont
      else mulAmm S modv modInv ret ret)

/-- `modexp_odd` (AMM version, modexp.cpp): same loop with `mul_amm`, final
conversion `mul_amm(ret, 1)` followed by one conditional reduction
`if (ret >= mod) ret -= mod`. -/
def modexpOddAmm (S modv basev : Nat) (ebytes : List Nat) : Nat :=
  if modv ≤
      mulAmm S modv (montModInv modv)
        (oddLoopAmm S modv (montModInv modv) (basev * 2 ^ (64 * S) % modv)
          (expBit ebytes) (expWidth ebytes - 1) (basev * 2 ^ (64 * S) % modv)) 1
  then
    mulAmm S modv (montModInv modv)
      (oddLoopAmm S modv (montModInv modv) (basev * 2 ^ (64 * S) % modv)
        (expBit ebytes) (expWidth ebytes - 1) (basev * 2 ^ (64 * S) % modv)) 1
      - modv
  else
    mulAmm S modv (montModInv modv)
      (oddLoopAmm S modv (montModInv modv) (basev * 2 ^ (64 * S) % modv)
        (expBit ebytes) (expWidth ebytes - 1) (basev * 2 ^ (64 * S) % modv)) 1

theorem oddLoopMont_spec (S m b E : Nat) (hS : 1 ≤ S) (hodd : m % 2 = 1)
    (hmW : m < 2 ^ (64 * S)) (bm : Nat) (hbm : bm < m)
    (hbmc : bm ≡ b * 2 ^ (64 * S) [MOD m]) (bit : Nat → Bool) :
    ∀ i ret, (∀ j, j < i → bit j = Nat.testBit E j) → ret < m →
      ret ≡ b ^ (E >>> i) * 2 ^ (64 * S) [MOD m] →
      oddLoopMont S m (montModInv m) bm bit i ret < m ∧
        oddLoopMont S m (montModInv m) bm bit i ret ≡
          b ^ E * 2 ^ (64 * S) [MOD m] := by
  have hMi := montModInv_spec m hodd
  have hm1 : 1 ≤ m := by omega
  intro i
  induction i with
  | zero =>
    intro ret hbit hlt hc
    rw [Nat.shiftRight_zero] at hc
    exact ⟨hlt, hc⟩
  | succ i ih =>
    intro ret hbit hlt hc
    simp only [oddLoopMont]
    have hdec := shiftRight_succ_decomp E i
    obtain ⟨hsqlt, hsqc⟩ := mulMont_spec S m (montModInv m) ret ret hS hMi hm1
      hmW hlt (lt_trans hlt hmW)
    have hsq2 : mulMont S m (montModInv m) ret ret ≡
        b ^ (2 * (E >>> (i + 1))) * 2 ^ (64 * S) [MOD m] := by
      apply modEq_cancel_R S m _ _ hodd
      calc mulMont S m (montModInv m) ret ret * 2 ^ (64 * S)
          ≡ ret * ret [MOD m] := hsqc
        _ ≡ (b ^ (E >>> (i + 1)) * 2 ^ (64 * S)) *
            (b ^ (E >>> (i + 1)) * 2 ^ (64 * S)) [MOD m] := hc.mul hc
        _ = (b ^ (2 * (E >>> (i + 1))) * 2 ^ (64 * S)) * 2 ^ (64 * S) := by
            rw [two_mul, pow_add]
            ring
    have hbit' : ∀ j, j < i → bit j = Nat.testBit E j :=
      fun j hj => hbit j (by omega)
    by_cases hbi : bit i = true
    · rw [if_pos hbi]
      have htb : Nat.testBit E i = true := by rw [← hbit i (by omega), hbi]
      have hEi : E >>> i = 2 * (E >>> (i + 1)) + 1 := by
        rw [hdec, if_pos htb]
      obtain ⟨hnlt, hnc⟩ := mulMont_spec S m (montModInv m)
        (mulMont S m (montModInv m) ret ret) bm hS hMi hm1 hmW hsqlt
        (lt_trans hbm hmW)
      refine ih _ hbit' hnlt ?_
      apply modEq_cancel_R S m _ _ hodd
      calc mulMont S m (montModInv m) (mulMont S m (montModInv m) ret ret) bm *
            2 ^ (64 * S)
          ≡ mulMont S m (montModInv m) ret ret * bm [MOD m] := hnc
        _ ≡ (b ^ (2 * (E >>> (i + 1))) * 2 ^ (64 * S)) *
            (b * 2 ^ (64 * S)) [MOD m] := hsq2.mul hbmc
        _ = (b ^ (E >>> i) * 2 ^ (64 * S)) * 2 ^ (64 * S) := by
            rw [hEi, pow_add, pow_one]
            ring
    · rw [if_neg hbi]
      have htb : Nat.testBit E i = false := by
        rw [← hbit i (by omega)]
        exact Bool.not_eq_true _ ▸ (by simpa using hbi)
      have hEi : E >>> i = 2 * (E >>> (i + 1)) := by
        rw [hdec, htb]
        simp
      refine ih _ hbit' hsqlt ?_
      rw [← hEi] at hsq2
      exact hsq2

theorem oddLoopAmm_spec (S m b E : Nat) (hS : 1 ≤ S) (hodd : m % 2 = 1)
    (hmW : m < 2 ^ (64 * S)) (bm : Nat) (hbm : bm < m)
    (hbmc : bm ≡ b * 2 ^ (64 * S) [MOD m]) (bit : Nat → Bool) :
    ∀ i ret, (∀ j, j < i → bit j = Nat.testBit E j) → ret < 2 ^ (64 * S) →
      ret ≡ b ^ (E >>> i) * 2 ^ (64 * S) [MOD m] →
      oddLoopAmm S m (montModInv m) bm bit i ret < 2 ^ (64 * S) ∧
        oddLoopAmm S m (montModInv m) bm bit i ret ≡
          b ^ E * 2 ^ (64 * S) [MOD m] := by
  have hMi := montModInv_spec m hodd
  have hm1 : 1 ≤ m := by omega
  intro i
  induction i with
  | zero =>
    intro ret hbit hlt hc
    rw [Nat.shiftRight_zero] at hc
    exact ⟨hlt, hc⟩
  | succ i ih =>
    intro ret hbit hlt hc
    simp only [oddLoopAmm]
    have hdec := shiftRight_succ_decomp E i
    obtain ⟨hsqlt, hsqc, _⟩ := mulAmm_spec S m (montModInv m) ret ret hS hMi hm1
      hmW hlt hlt
    have hsq2 : mulAmm S m (montModInv m) ret ret ≡
        b ^ (2 * (E >>> (i + 1))) * 2 ^ (64 * S) [MOD m] := by
      apply modEq_cancel_R S m _ _ hodd
      calc mulAmm S m (montModInv m) ret ret * 2 ^ (64 * S)
          ≡ ret * ret [MOD m] := hsqc
        _ ≡ (b ^ (E >>> (i + 1)) * 2 ^ (64 * S)) *
            (b ^ (E >>> (i + 1)) * 2 ^ (64 * S)) [MOD m] := hc.mul hc
        _ = (b ^ (2 * (E >>> (i + 1))) * 2 ^ (64 * S)) * 2 ^ (64 * S) := by
            rw [two_mul, pow_add]
            ring
    have hbit' : ∀ j, j < i → bit j = Nat.testBit E j :=
      fun j hj => hbit j (by omega)
    by_cases hbi : bit i = true
    · rw [if_pos hbi]
      have htb : Nat.testBit E i = true := by rw [← hbit i (by omega), hbi]
      have hEi : E >>> i = 2 * (E >>> (i + 1)) + 1 := by
        rw [hdec, if_pos htb]
      obtain ⟨hnlt, hnc, _⟩ := mulAmm_spec S m (montModInv m)
        (mulAmm S m (montModInv m) ret ret) bm hS hMi hm1 hmW hsqlt
        (lt_trans hbm hmW)
      refine ih _ hbit' hnlt ?_
      apply modEq_cancel_R S m _ _ hodd
      calc mulAmm S m (montModInv m) (mulAmm S m (montModInv m) ret ret) bm *
            2 ^ (64 * S)
          ≡ mulAmm S m (montModInv m) ret ret * bm [MOD m] := hnc
        _ ≡ (b ^ (2 * (E >>> (i + 1))) * 2 ^ (64 * S)) *
            (b * 2 ^ (64 * S)) [MOD m] := hsq2.mul hbmc
        _ = (b ^ (E >>> i) * 2 ^ (64 * S)) * 2 ^ (64 * S) := by
            rw [hEi, pow_add, pow_one]
            ring
    · rw [if_neg hbi]
      have htb : Nat.testBit E i = false := by
        rw [← hbit i (by omega)]
        exact Bool.not_eq_true _ ▸ (by simpa using hbi)
      have hEi : E >>> i = 2 * (E >>> (i + 1)) := by
        rw [hdec, htb]
        simp
      refine ih _ hbit' hsqlt ?_
      rw [← hEi] at hsq2
      exact hsq2

/-- Converting a Montgomery-form accumulator out with `mul_mont(r, 1)` yields
`v % m` whenever `r ≡ v·R (mod m)`. -/
theorem mont_result_eq (S m r v : Nat) (hS : 1 ≤ S) (hodd : m % 2 = 1)
    (hmW : m < 2 ^ (64 * S)) (hr : r < m)
    (hrc : r ≡ v * 2 ^ (64 * S) [MOD m]) :
    mulMont S m (montModInv m) r 1 = v % m := by
  have hMi := montModInv_spec m hodd
  have hm1 : 1 ≤ m := by omega
  obtain ⟨hflt, hfc⟩ := mulMont_spec S m (montModInv m) r 1 hS hMi hm1 hmW hr
    (Nat.one_lt_two_pow_iff.2 (by omega))
  have hfinal : mulMont S m (montModInv m) r 1 ≡ v [MOD m] := by
    apply modEq_cancel_R S m _ _ hodd
    calc mulMont S m (montModInv m) r 1 * 2 ^ (64 * S)
        ≡ r * 1 [MOD m] := hfc
      _ = r := Nat.mul_one r
      _ ≡ v * 2 ^ (64 * S) [MOD m] := hrc
  unfold Nat.ModEq at hfinal
  rw [Nat.mod_eq_of_lt hflt] at hfinal
  exact hfinal

/-- Converting an AMM accumulator out with `mul_amm(r, 1)` followed by one
conditional reduction yields `v % m` whenever `r ≡ v·R (mod m)`. -/
theorem amm_result_eq (S m r v : Nat) (hS : 1 ≤ S) (hodd : m % 2 = 1)
    (hmW : m < 2 ^ (64 * S)) (hr : r < 2 ^ (64 * S))
    (hrc : r ≡ v * 2 ^ (64 * S) [MOD m]) :
    (if m ≤ mulAmm S m (montModInv m) r 1 then
      mulAmm S m (montModInv m) r 1 - m
    else mulAmm S m (montModInv m) r 1) = v % m := by
  have hMi := montModInv_spec m hodd
  have hm1 : 1 ≤ m := by omega
  obtain ⟨hflt, hfc, hfle⟩ := mulAmm_spec S m (montModInv m) r 1 hS hMi hm1 hmW
    hr (Nat.one_lt_two_pow_iff.2 (by omega))
  have hle := hfle rfl
  have hfinal : mulAmm S m (montModInv m) r 1 ≡ v [MOD m] := by
    apply modEq_cancel_R S m _ _ hodd
    calc mulAmm S m (montModInv m) r 1 * 2 ^ (64 * S)
        ≡ r * 1 [MOD m] := hfc
      _ = r := Nat.mul_one r
      _ ≡ v * 2 ^ (64 * S) [MOD m] := hrc
  unfold Nat.ModEq at hfinal
  by_cases hc : m ≤ mulAmm S m (montModInv m) r 1
  · rw [if_pos hc]
    have hrm : mulAmm S m (montModInv m) r 1 = m := le_antisymm hle hc
    rw [hrm, Nat.sub_self]
    rw [hrm, Nat.mod_self] at hfinal
    exact hfinal
  · rw [if_neg hc]
    push_neg at hc
    rw [Nat.mod_eq_of_lt hc] at hfinal
    exact hfinal

theorem modexpOddMont_correct (S m b : Nat) (ebytes : List Nat) (hS : 1 ≤ S)
    (hodd : m % 2 = 1) (hmW : m < 2 ^ (64 * S))
    (hbytes : ∀ x ∈ ebytes, x < 256) (hE : beVal ebytes ≠ 0) :
    modexpOddMont S m b ebytes = b ^ beVal ebytes % m := by
  have hm1 : 1 ≤ m := by omega
  have hne : trimBytes ebytes ≠ [] := by
    intro h
    exact hE (by rw [← beVal_trimBytes, h]; rfl)
  obtain ⟨hElt, hEgeFun⟩ := beVal_bounds ebytes hbytes
  have hEge := hEgeFun hne
  have hbw0 : expWidth ebytes ≠ 0 := by
    intro h
    rw [h, pow_zero] at hElt
    omega
  have htop := shiftRight_top (beVal ebytes) (expWidth ebytes) hbw0 hEge hElt
  have hbmlt : b * 2 ^ (64 * S) % m < m := Nat.mod_lt _ hm1
  have hbmc : b * 2 ^ (64 * S) % m ≡ b * 2 ^ (64 * S) [MOD m] := Nat.mod_modEq _ _
  have hinit : b * 2 ^ (64 * S) % m ≡
      b ^ (beVal ebytes >>> (expWidth ebytes - 1)) * 2 ^ (64 * S) [MOD m] := by
    rw [htop, pow_one]
    exact hbmc
  have hbit : ∀ j, j < expWidth ebytes - 1 →
      expBit ebytes j = Nat.testBit (beVal ebytes) j :=
    fun j hj => expBit_eq_testBit ebytes hbytes j (by omega)
  obtain ⟨hrlt, hrc⟩ := oddLoopMont_spec S m b (beVal ebytes) hS hodd hmW
    (b * 2 ^ (64 * S) % m) hbmlt hbmc (expBit ebytes) (expWidth ebytes - 1)
    (b * 2 ^ (64 * S) % m) hbit hbmlt hinit
  unfold modexpOddMont
  exact mont_result_eq S m _ (b ^ beVal ebytes) hS hodd hmW hrlt hrc

theorem modexpOddAmm_correct (S m b : Nat) (ebytes : List Nat) (hS : 1 ≤ S)
    (hodd : m % 2 = 1) (hmW : m < 2 ^ (64 * S))
    (hbytes : ∀ x ∈ ebytes, x < 256) (hE : beVal ebytes ≠ 0) :
    modexpOddAmm S m b ebytes = b ^ beVal ebytes % m := by
  have hm1 : 1 ≤ m := by omega
  have hne : trimBytes ebytes ≠ [] := by
    intro h
    exact hE (by rw [← beVal_trimBytes, h]; rfl)
  obtain ⟨hElt, hEgeFun⟩ := beVal_bounds ebytes hbytes
  have hEge := hEgeFun hne
  have hbw0 : expWidth ebytes ≠ 0 := by
    intro h
    rw [h, pow_zero] at hElt
    omega
  have htop := shiftRight_top (beVal ebytes) (expWidth ebytes) hbw0 hEge hElt
  have hbmlt : b * 2 ^ (64 * S) % m < m := Nat.mod_lt _ hm1
  have hbmc : b * 2 ^ (64 * S) % m ≡ b * 2 ^ (64 * S) [MOD m] := Nat.mod_modEq _ _
  have hinit : b * 2 ^ (64 * S) % m ≡
      b ^ (beVal ebytes >>> (expWidth ebytes - 1)) * 2 ^ (64 * S) [MOD m] := by
    rw [htop, pow_one]
    exact hbmc
  have hbit : ∀ j, j < expWidth ebytes - 1 →
      expBit ebytes j = Nat.testBit (beVal ebytes) j :=
    fun j hj => expBit_eq_testBit ebytes hbytes j (by omega)
  obtain ⟨hrlt, hrc⟩ := oddLoopAmm_spec S m b (beVal ebytes) hS hodd hmW
    (b * 2 ^ (64 * S) % m) hbmlt hbmc (expBit ebytes) (expWidth ebytes - 1)
    (b * 2 ^ (64 * S) % m) hbit (lt_trans hbmlt hmW) hinit
  unfold modexpOddAmm
  exact amm_result_eq S m _ (b ^ beVal ebytes) hS hodd hmW hrlt hrc

/-- C4: for every odd modulus `m` (fitting `S ≥ 1` machine words), every base,
and every nonzero big-endian exponent byte string, the
Montgomery-multiplication based `modexp_odd` (with a conditional subtraction
after every `mul_mont`) and the Almost-Montgomery-Multiplication based
`modexp_odd` (intermediates possibly in `[0, 2·mod)`, one final reduction)
both return `base^exp mod m`; in particular they agree. -/
theorem modexp_odd_amm_equiv (S m b : Nat) (ebytes : List Nat) (hS : 1 ≤ S)
    (hodd : m % 2 = 1) (hmW : m < 2 ^ (64 * S))
    (hbytes : ∀ x ∈ ebytes, x < 256) (hE : beVal ebytes ≠ 0) :
    modexpOddMont S m b ebytes = b ^ beVal ebytes % m ∧
    modexpOddAmm S m b ebytes = b ^ beVal ebytes % m ∧
    modexpOddAmm S m b ebytes = modexpOddMont S m b ebytes := by
  have h1 := modexpOddMont_correct S m b ebytes hS hodd hmW hbytes hE
  have h2 := modexpOddAmm_correct S m b ebytes hS hodd hmW hbytes hE
  exact ⟨h1, h2, by rw [h1, h2]⟩

theorem modexp_odd_amm_equiv_witness :
    ((1 : Nat) ≤ 1 ∧ 5 % 2 = 1 ∧ 5 < 2 ^ (64 * 1) ∧
      (∀ x ∈ [3], x < 256) ∧ beVal [3] ≠ 0) ∧
    (modexpOddMont 1 5 2 [3] = 2 ^ beVal [3] % 5 ∧
      modexpOddAmm 1 5 2 [3] = 2 ^ beVal [3] % 5 ∧
      modexpOddAmm 1 5 2 [3] = modexpOddMont 1 5 2 [3]) :=
  ⟨⟨by decide, by decide, by decide, by decide, by decide⟩,
    modexp_odd_amm_equiv 1 5 2 [3] (by decide) (by decide) (by decide)
      (by decide) (by decide)⟩

/-! ### `CodeAnalysis::check_jumpdest` (src/lib/evmone/baseline.hpp)

The jumpdest bitmap is a `BitsetSpan` over 64-bit words; we embed the backing
array as a little-endian `List Nat` of words. -/

/-- `BitsetSpan::test`: `word = m_array[index / 64]`, `bit_mask = 1 << index % 64`,
result `(word & bit_mask) != 0`. -/
def bitsetTest (words : List Nat) (index : Nat) : Bool :=
  decide (words.getD (index / 64) 0 &&& (1 <<< (index % 64)) ≠ 0)

/-- `CodeAnalysis::check_jumpdest`: `position >= m_raw_code.size()` returns
`false`, otherwise the bitset is consulted. -/
def check_jumpdest (codeSize : Nat) (words : List Nat) (position : Nat) : Bool :=
  if codeSize ≤ position then false else bitsetTest words position

theorem bitsetTest_eq (words : List Nat) (i : Nat) :
    bitsetTest words i = Nat.testBit (words.getD (i / 64) 0) (i % 64) := by
  rw [bitsetTest, Nat.shiftLeft_eq, one_mul, Nat.and_two_pow]
  rcases h : Nat.testBit (words.getD (i / 64) 0) (i % 64)
  · simp
  · simp

/-- C9: `check_jumpdest(d)` is `true` iff `d` is within the raw code and bit
`d` of the jumpdest bitmap is set; any position at or beyond the code size
yields `false` regardless of the bitmap contents. -/
theorem check_jumpdest_correct (codeSize : Nat) (words : List Nat) (d : Nat) :
    (check_jumpdest codeSize words d = true ↔
      d < codeSize ∧ Nat.testBit (words.getD (d / 64) 0) (d % 64) = true) ∧
    (codeSize ≤ d → ∀ ws : List Nat, check_jumpdest codeSize ws d = false) := by
  constructor
  · rw [check_jumpdest]
    by_cases h : codeSize ≤ d
    · rw [if_pos h]
      constructor
      · intro hfalse
        exact absurd hfalse (by simp)
      · intro ⟨h1, _⟩
        omega
    · rw [if_neg h, bitsetTest_eq]
      push_neg at h
      constructor
      · intro ht
        exact ⟨h, ht⟩
      · intro ⟨_, ht⟩
        exact ht
  · intro h ws
    rw [check_jumpdest, if_pos h]

theorem check_jumpdest_correct_witness :
    check_jumpdest 2 [2] 1 = true ∧ check_jumpdest 2 [2] 5 = false :=
  ⟨(check_jumpdest_correct 2 [2] 1).1.mpr ⟨by decide, by decide⟩,
    (check_jumpdest_correct 2 [2] 5).2 (by decide) [2]⟩

/-! ### `bn254::validate` (src/lib/evmone_precompiles/bn254.cpp)

`AffinePoint` holds two `FieldElement`s, whose `value_` members are numbers in
Montgomery form with respect to the BN254 field prime (`S = 4` words).
`validate` computes `y·y` and `x·x·x + B` on the Montgomery values and also
accepts the default point `(0, 0)` (`pt == 0`). -/

/-- `ModArith::add`: `addc(x, y)`, `subc(sum, mod)`, pick the sum when no add
carry and a subtract borrow occurred, else the difference (wrapping). -/
def modAdd (W m x y : Nat) : Nat :=
  if (x + y) % 2 ^ W < m ∧ x + y < 2 ^ W then (x + y) % 2 ^ W
  else ((x + y) % 2 ^ W + 2 ^ W - m) % 2 ^ W

theorem modAdd_eq (W m x y : Nat) (hx : x < m) (hy : y < m) (hmW : m < 2 ^ W) :
    modAdd W m x y = (x + y) % m := by
  rw [modAdd]
  by_cases hc : x + y < 2 ^ W
  · rw [Nat.mod_eq_of_lt hc]
    by_cases h2 : x + y < m
    · rw [if_pos ⟨h2, hc⟩, Nat.mod_eq_of_lt h2]
    · rw [if_neg (fun h => absurd h.1 h2)]
      push_neg at h2
      have he : x + y + 2 ^ W - m = x + y - m + 2 ^ W := by omega
      rw [he, Nat.add_mod_right, Nat.mod_eq_of_lt (by omega),
        Nat.mod_eq_sub_mod h2, Nat.mod_eq_of_lt (by omega)]
  · push_neg at hc
    rw [if_neg (fun h => absurd h.2 (not_lt.2 hc))]
    have hs : (x + y) % 2 ^ W = x + y - 2 ^ W := by
      rw [Nat.mod_eq_sub_mod hc, Nat.mod_eq_of_lt (by omega)]
    rw [hs]
    have he : x + y - 2 ^ W + 2 ^ W - m = x + y - m := by omega
    rw [he, Nat.mod_eq_of_lt (by omega), Nat.mod_eq_sub_mod (by omega),
      Nat.mod_eq_of_lt (by omega)]

theorem modAdd_lt (W m x y : Nat) (hx : x < m) (hy : y < m) (hmW : m < 2 ^ W) :
    modAdd W m x y < m := by
  rw [modAdd_eq W m x y hx hy hmW]
  exact Nat.mod_lt _ (by omega)

/-- `to_mont` maps `x < m` to a value below `m` congruent to `x·R`. -/
theorem to_mont_spec (S m x : Nat) (hS : 1 ≤ S) (hodd : m % 2 = 1)
    (hmW : m < 2 ^ (64 * S)) (hx : x < m) :
    to_mont S m (montModInv m) x < m ∧
      to_mont S m (montModInv m) x ≡ x * 2 ^ (64 * S) [MOD m] := by
  have hMi := montModInv_spec m hodd
  have hm1 : 1 ≤ m := by omega
  obtain ⟨hlt, hc⟩ := mulMont_spec S m (montModInv m) x (r_squared S m) hS hMi
    hm1 hmW hx (lt_trans (Nat.mod_lt _ hm1) hmW)
  refine ⟨hlt, modEq_cancel_R S m _ _ hodd ?_⟩
  calc to_mont S m (montModInv m) x * 2 ^ (64 * S)
      ≡ x * r_squared S m [MOD m] := hc
    _ ≡ x * (2 ^ (64 * S) * 2 ^ (64 * S)) [MOD m] := by
        apply Nat.ModEq.mul_left x
        rw [r_squared]
        have hp : (2 : Nat) ^ (2 * (64 * S)) = 2 ^ (64 * S) * 2 ^ (64 * S) := by
          rw [two_mul, pow_add]
        rw [← hp]
        exact Nat.mod_modEq _ _
    _ = x * 2 ^ (64 * S) * 2 ^ (64 * S) := by ring

/-- A Montgomery representative is zero exactly when its plain value is. -/
theorem to_mont_eq_zero (S m x : Nat) (hS : 1 ≤ S) (hodd : m % 2 = 1)
    (hmW : m < 2 ^ (64 * S)) (hx : x < m) :
    to_mont S m (montModInv m) x = 0 ↔ x = 0 := by
  obtain ⟨hlt, hc⟩ := to_mont_spec S m x hS hodd hmW hx
  constructor
  · intro h0
    rw [h0] at hc
    have hx0 : x ≡ 0 [MOD m] := by
      apply modEq_cancel_R S m x 0 hodd
      rw [Nat.zero_mul]
      exact hc.symm
    unfold Nat.ModEq at hx0
    rw [Nat.mod_eq_of_lt hx, Nat.zero_mod] at hx0
    exact hx0
  · intro h0
    subst h0
    rw [Nat.zero_mul] at hc
    unfold Nat.ModEq at hc
    rw [Nat.mod_eq_of_lt hlt, Nat.zero_mod] at hc
    exact hc

/-- The BN254 base field prime `Curve::FpSpec::ORDER`. -/
def bn254P : Nat :=
  0x30644e72e131a029b85045b68181585d97816a916871ca8d3c208c16d87cfd47

/-- `Curve::B = Fp\x7b3\x7d` — the constant 3 in Montgomery form. -/
def bn254B : Nat := to_mont 4 bn254P (montModInv bn254P) 3

/-- `bn254::validate`: `yy == xxx + B || pt == 0`, on Montgomery values. -/
def bn254_validate (x y : Nat) : Bool :=
  (mulMont 4 bn254P (montModInv bn254P) y y ==
      modAdd (64 * 4) bn254P
        (mulMont 4 bn254P (montModInv bn254P)
          (mulMont 4 bn254P (montModInv bn254P) x x) x)
        bn254B)
    || (x == 0 && y == 0)


/-- C10: `bn254::validate` accepts the affine point `(0, 0)` (the encoding of
the point at infinity) even though `(0, 0)` does not satisfy the curve
equation `y² = x³ + 3`; for every other affine point (coordinates stored in
Montgomery form via `to_mont`) it returns `true` iff the curve equation holds
modulo the field prime. -/
theorem bn254_validate_correct (px py : Nat) (hx : px < bn254P)
    (hy : py < bn254P) :
    (bn254_validate 0 0 = true ∧
      ¬ (0 * 0) % bn254P = (0 * 0 * 0 + 3) % bn254P) ∧
    (¬ (px = 0 ∧ py = 0) →
      (bn254_validate (to_mont 4 bn254P (montModInv bn254P) px)
          (to_mont 4 bn254P (montModInv bn254P) py) = true ↔
        py * py % bn254P = (px * px * px + 3) % bn254P)) := by
  have hodd : bn254P % 2 = 1 := by decide
  have hmW : bn254P < 2 ^ (64 * 4) := by decide
  have hS : (1 : Nat) ≤ 4 := by norm_num
  have hMi := montModInv_spec bn254P hodd
  have hm1 : 1 ≤ bn254P := by decide
  refine ⟨⟨?_, by decide⟩, ?_⟩
  · unfold bn254_validate
    simp
  · intro hne
    obtain ⟨hXlt, hXc⟩ := to_mont_spec 4 bn254P px hS hodd hmW hx
    obtain ⟨hYlt, hYc⟩ := to_mont_spec 4 bn254P py hS hodd hmW hy
    obtain ⟨hBlt, hBc⟩ := to_mont_spec 4 bn254P 3 hS hodd hmW (by decide)
    obtain ⟨hyylt, hyyc⟩ := mulMont_spec 4 bn254P (montModInv bn254P)
      (to_mont 4 bn254P (montModInv bn254P) py)
      (to_mont 4 bn254P (montModInv bn254P) py) hS hMi hm1 hmW hYlt
      (lt_trans hYlt hmW)
    obtain ⟨hxxlt, hxxc⟩ := mulMont_spec 4 bn254P (montModInv bn254P)
      (to_mont 4 bn254P (montModInv bn254P) px)
      (to_mont 4 bn254P (montModInv bn254P) px) hS hMi hm1 hmW hXlt
      (lt_trans hXlt hmW)
    obtain ⟨hxxxlt, hxxxc⟩ := mulMont_spec 4 bn254P (montModInv bn254P)
      (mulMont 4 bn254P (montModInv bn254P)
        (to_mont 4 bn254P (montModInv bn254P) px)
        (to_mont 4 bn254P (montModInv bn254P) px))
      (to_mont 4 bn254P (montModInv bn254P) px) hS hMi hm1 hmW hxxlt
      (lt_trans hXlt hmW)
    have hyy2 : mulMont 4 bn254P (montModInv bn254P)
        (to_mont 4 bn254P (montModInv bn254P) py)
        (to_mont 4 bn254P (montModInv bn254P) py) ≡
        py * py * 2 ^ (64 * 4) [MOD bn254P] := by
      apply modEq_cancel_R 4 bn254P _ _ hodd
      refine hyyc.trans ?_
      calc to_mont 4 bn254P (montModInv bn254P) py *
            to_mont 4 bn254P (montModInv bn254P) py
          ≡ py * 2 ^ (64 * 4) * (py * 2 ^ (64 * 4)) [MOD bn254P] := hYc.mul hYc
        _ = py * py * 2 ^ (64 * 4) * 2 ^ (64 * 4) := by ring
    have hxx2 : mulMont 4 bn254P (montModInv bn254P)
        (to_mont 4 bn254P (montModInv bn254P) px)
        (to_mont 4 bn254P (montModInv bn254P) px) ≡
        px * px * 2 ^ (64 * 4) [MOD bn254P] := by
      apply modEq_cancel_R 4 bn254P _ _ hodd
      refine hxxc.trans ?_
      calc to_mont 4 bn254P (montModInv bn254P) px *
            to_mont 4 bn254P (montModInv bn254P) px
          ≡ px * 2 ^ (64 * 4) * (px * 2 ^ (64 * 4)) [MOD bn254P] := hXc.mul hXc
        _ = px * px * 2 ^ (64 * 4) * 2 ^ (64 * 4) := by ring
    have hxxx2 : mulMont 4 bn254P (montModInv bn254P)
        (mulMont 4 bn254P (montModInv bn254P)
          (to_mont 4 bn254P (montModInv bn254P) px)
          (to_mont 4 bn254P (montModInv bn254P) px))
        (to_mont 4 bn254P (montModInv bn254P) px) ≡
        px * px * px * 2 ^ (64 * 4) [MOD bn254P] := by
      apply modEq_cancel_R 4 bn254P _ _ hodd
      refine hxxxc.trans ?_
      calc mulMont 4 bn254P (montModInv bn254P)
            (to_mont 4 bn254P (montModInv bn254P) px)
            (to_mont 4 bn254P (montModInv bn254P) px) *
            to_mont 4 bn254P (montModInv bn254P) px
          ≡ px * px * 2 ^ (64 * 4) * (px * 2 ^ (64 * 4)) [MOD bn254P] :=
            hxx2.mul hXc
        _ = px * px * px * 2 ^ (64 * 4) * 2 ^ (64 * 4) := by ring
    have haddeq := modAdd_eq (64 * 4) bn254P
      (mulMont 4 bn254P (montModInv bn254P)
        (mulMont 4 bn254P (montModInv bn254P)
          (to_mont 4 bn254P (montModInv bn254P) px)
          (to_mont 4 bn254P (montModInv bn254P) px))
        (to_mont 4 bn254P (montModInv bn254P) px)) bn254B hxxxlt hBlt hmW
    have haddlt := modAdd_lt (64 * 4) bn254P
      (mulMont 4 bn254P (montModInv bn254P)
        (mulMont 4 bn254P (montModInv bn254P)
          (to_mont 4 bn254P (montModInv bn254P) px)
          (to_mont 4 bn254P (montModInv bn254P) px))
        (to_mont 4 bn254P (montModInv bn254P) px)) bn254B hxxxlt hBlt hmW
    have hadd2 : modAdd (64 * 4) bn254P
        (mulMont 4 bn254P (montModInv bn254P)
          (mulMont 4 bn254P (montModInv bn254P)
            (to_mont 4 bn254P (montModInv bn254P) px)
            (to_mont 4 bn254P (montModInv bn254P) px))
          (to_mont 4 bn254P (montModInv bn254P) px)) bn254B ≡
        (px * px * px + 3) * 2 ^ (64 * 4) [MOD bn254P] := by
      rw [haddeq]
      refine (Nat.mod_modEq _ _).trans ?_
      calc mulMont 4 bn254P (montModInv bn254P)
            (mulMont 4 bn254P (montModInv bn254P)
              (to_mont 4 bn254P (montModInv bn254P) px)
              (to_mont 4 bn254P (montModInv bn254P) px))
            (to_mont 4 bn254P (montModInv bn254P) px) + bn254B
          ≡ px * px * px * 2 ^ (64 * 4) + 3 * 2 ^ (64 * 4) [MOD bn254P] :=
            hxxx2.add hBc
        _ = (px * px * px + 3) * 2 ^ (64 * 4) := by ring
    have hz : ((to_mont 4 bn254P (montModInv bn254P) px == 0) &&
        (to_mont 4 bn254P (montModInv bn254P) py == 0)) = false := by
      by_contra h
      rw [Bool.not_eq_false, Bool.and_eq_true, beq_iff_eq, beq_iff_eq] at h
      exact hne ⟨(to_mont_eq_zero 4 bn254P px hS hodd hmW hx).1 h.1,
        (to_mont_eq_zero 4 bn254P py hS hodd hmW hy).1 h.2⟩
    unfold bn254_validate
    rw [hz, Bool.or_false, beq_iff_eq]
    constructor
    · intro heq
      have hstep : py * py * 2 ^ (64 * 4) ≡
          (px * px * px + 3) * 2 ^ (64 * 4) [MOD bn254P] :=
        hyy2.symm.trans (heq ▸ hadd2)
      have := modEq_cancel_R 4 bn254P (py * py) (px * px * px + 3) hodd hstep
      exact this
    · intro heq
      have hc : py * py ≡ px * px * px + 3 [MOD bn254P] := heq
      have hstep := hyy2.trans ((hc.mul_right (2 ^ (64 * 4))).trans hadd2.symm)
      unfold Nat.ModEq at hstep
      rw [Nat.mod_eq_of_lt hyylt, Nat.mod_eq_of_lt haddlt] at hstep
      exact hstep

theorem bn254_validate_correct_witness :
    ((1 : Nat) < bn254P ∧ (2 : Nat) < bn254P) ∧
    ((bn254_validate 0 0 = true ∧
        ¬ (0 * 0) % bn254P = (0 * 0 * 0 + 3) % bn254P) ∧
      (¬ ((1 : Nat) = 0 ∧ (2 : Nat) = 0) →
        (bn254_validate (to_mont 4 bn254P (montModInv bn254P) 1)
            (to_mont 4 bn254P (montModInv bn254P) 2) = true ↔
          2 * 2 % bn254P = (1 * 1 * 1 + 3) % bn254P))) :=
  ⟨⟨by decide, by decide⟩, bn254_validate_correct 1 2 (by decide) (by decide)⟩

/-! ### `ecc::mul` (src/unnamed/part_010, src/unnamed/part_011)

Projective (Jacobian) points hold three `FieldElement`s; we embed the
Montgomery values as plain `Nat`s. The field operations are the `ModArith`
ones already embedded above (`mulMont`, `modAdd`, `modSub`), with `W = 64·S`
bits. `ecc::dbl` is embedded in its `Curve::A == 0` branch. -/

structure ProjPoint where
  x : Nat
  y : Nat
  z : Nat

/-- `ecc::dbl` (the `dbl-2009-l` formula for `A = 0`). -/
def eccDbl (S m mi : Nat) (p : ProjPoint) : ProjPoint :=
  let xx := mulMont S m mi p.x p.x
  let yy := mulMont S m mi p.y p.y
  let yyyy := mulMont S m mi yy yy
  let t0 := modAdd (64 * S) m p.x yy
  let t1 := mulMont S m mi t0 t0
  let t2 := modSub (64 * S) m t1 xx
  let t3 := modSub (64 * S) m t2 yyyy
  let d := modAdd (64 * S) m t3 t3
  let e := modAdd (64 * S) m (modAdd (64 * S) m xx xx) xx
  let f := mulMont S m mi e e
  let t4 := modAdd (64 * S) m d d
  let x3 := modSub (64 * S) m f t4
  let t6 := modSub (64 * S) m d x3
  let t8 := modAdd (64 * S) m (modAdd (64 * S) m (modAdd (64 * S) m
    (modAdd (64 * S) m (modAdd (64 * S) m (modAdd (64 * S) m
      (modAdd (64 * S) m yyyy yyyy) yyyy) yyyy) yyyy) yyyy) yyyy) yyyy
  let t9 := mulMont S m mi e t6
  let y3 := modSub (64 * S) m t9 t8
  let t10 := mulMont S m mi p.y p.z
  let z3 := modAdd (64 * S) m t10 t10
  ProjPoint.mk x3 y3 z3

/-- `ecc::add(ProjPoint, AffinePoint)` — mixed addition (`madd`), including
the `q == 0`, `p == 0` and doubling special cases. -/
def eccAddMixed (S m mi : Nat) (p : ProjPoint) (qx qy : Nat) : ProjPoint :=
  if qx = 0 ∧ qy = 0 then p
  else if p.z = 0 then ProjPoint.mk qx qy (to_mont S m mi 1)
  else
    let z1z1 := mulMont S m mi p.z p.z
    let u2 := mulMont S m mi qx z1z1
    let z1z1z1 := mulMont S m mi p.z z1z1
    let s2 := mulMont S m mi qy z1z1z1
    let h := modSub (64 * S) m u2 p.x
    let t1 := modAdd (64 * S) m h h
    let i := mulMont S m mi t1 t1
    let j := mulMont S m mi h i
    let t2 := modSub (64 * S) m s2 p.y
    if h = 0 ∧ t2 = 0 then eccDbl S m mi p
    else
      let r := modAdd (64 * S) m t2 t2
      let v := mulMont S m mi p.x i
      let t3 := mulMont S m mi r r
      let t4 := modAdd (64 * S) m v v
      let t5 := modSub (64 * S) m t3 j
      let x3 := modSub (64 * S) m t5 t4
      let t6 := modSub (64 * S) m v x3
      let t7 := mulMont S m mi p.y j
      let t8 := modAdd (64 * S) m t7 t7
      let t9 := mulMont S m mi r t6
      let y3 := modSub (64 * S) m t9 t8
      let t10 := mulMont S m mi p.z h
      let z3 := modAdd (64 * S) m t10 t10
      ProjPoint.mk x3 y3 z3

/-- `ecc::test_bit` / `bit_test`: reads 64-bit word `index / 64` of the
scalar and masks bit `index % 64`. -/
def test_bit (c i : Nat) : Bool :=
  decide (c / wb ^ (i / 64) % wb &&& (1 <<< (i % 64)) ≠ 0)

/-- The scalar-reduction loop of `ecc::mul`:
`while (true) \x7b [r, lt] = subc(c, ORDER); if (lt) break; c = r; \x7d`,
with structural fuel. -/
def eccMulReduce (ORDER : Nat) : Nat → Nat → Nat
  | 0, c => c
  | f + 1, c => if c < ORDER then c else eccMulReduce ORDER f (c - ORDER)

/-- The double-and-add loop of `ecc::mul` (fuel = loop counter `i`, the body
reads scalar bit `i - 1`). -/
def eccMulLoop (S m mi px py c : Nat) : Nat → ProjPoint → ProjPoint
  | 0, r => r
  | i + 1, r =>
    eccMulLoop S m mi px py c i
      (if test_bit c i then eccAddMixed S m mi (eccDbl S m mi r) px py
      else eccDbl S m mi r)

/-- `ecc::mul`: reduce the scalar below `ORDER`, then run the left-to-right
double-and-add loop from the default point `(0, mont(1), 0)` over
`bit_width = W - clz(c)` iterations. -/
def eccMul (S m mi ORDER px py c : Nat) : ProjPoint :=
  eccMulLoop S m mi px py (eccMulReduce ORDER (c + 1) c)
    (bwGo (64 * S) (eccMulReduce ORDER (c + 1) c))
    (ProjPoint.mk 0 (to_mont S m mi 1) 0)

theorem eccMulReduce_spec (ORDER : Nat) (hord : 1 ≤ ORDER) :
    ∀ f c, c < f → eccMulReduce ORDER f c = c % ORDER := by
  intro f
  induction f with
  | zero => intro c hc; omega
  | succ f ih =>
    intro c hc
    rw [eccMulReduce]
    by_cases h : c < ORDER
    · rw [if_pos h, Nat.mod_eq_of_lt h]
    · rw [if_neg h, ih (c - ORDER) (by omega), ← Nat.mod_eq_sub_mod (by omega)]

theorem bwGo_zero (f : Nat) : bwGo f 0 = 0 := by
  cases f <;> rfl

/-- C7: `ecc::mul(P, c)` first reduces the scalar modulo the curve order (the
subtraction loop computes exactly `c % ORDER`, so the double-and-add loop
always runs on the reduced scalar), and both `mul(P, 0)` and
`mul(P, ORDER)` return the point at infinity (`z == 0`), for every affine
point and every curve instantiation. -/
theorem ecc_mul_reduce_and_infinity (S m mi ORDER px py c : Nat)
    (hord : 1 ≤ ORDER) :
    eccMulReduce ORDER (c + 1) c = c % ORDER ∧
    eccMul S m mi ORDER px py c =
      eccMulLoop S m mi px py (c % ORDER) (bwGo (64 * S) (c % ORDER))
        (ProjPoint.mk 0 (to_mont S m mi 1) 0) ∧
    (eccMul S m mi ORDER px py 0).z = 0 ∧
    (eccMul S m mi ORDER px py ORDER).z = 0 := by
  have hred : eccMulReduce ORDER (c + 1) c = c % ORDER :=
    eccMulReduce_spec ORDER hord (c + 1) c (by omega)
  have hred0 : eccMulReduce ORDER (0 + 1) 0 = 0 := by
    rw [eccMulReduce_spec ORDER hord (0 + 1) 0 (by omega), Nat.zero_mod]
  have hredO : eccMulReduce ORDER (ORDER + 1) ORDER = 0 := by
    rw [eccMulReduce_spec ORDER hord (ORDER + 1) ORDER (by omega), Nat.mod_self]
  refine ⟨hred, ?_, ?_, ?_⟩
  · rw [eccMul, hred]
  · rw [eccMul, hred0, bwGo_zero]
    rfl
  · rw [eccMul, hredO, bwGo_zero]
    rfl

theorem ecc_mul_reduce_and_infinity_witness :
    (1 : Nat) ≤ 5 ∧
    (eccMulReduce 5 (12 + 1) 12 = 12 % 5 ∧
      eccMul 1 7 0 5 1 2 12 =
        eccMulLoop 1 7 0 1 2 (12 % 5) (bwGo (64 * 1) (12 % 5))
          (ProjPoint.mk 0 (to_mont 1 7 0 1) 0) ∧
      (eccMul 1 7 0 5 1 2 0).z = 0 ∧
      (eccMul 1 7 0 5 1 2 5).z = 0) :=
  ⟨by decide, ecc_mul_reduce_and_infinity 1 7 0 5 1 2 12 (by decide)⟩

/-! ### `collect_deposit_requests` (src/test/state/requests.cpp)

Logs are embedded as address/topics/data records (numbers for the address and
topic hashes, a byte list for the data); a receipt is its list of logs. The
constants `DEPOSIT_CONTRACT_ADDRESS` and `DEPOSIT_EVENT_SIGNATURE_HASH` are
declared in `requests.hpp` (not part of the sources here), so the embedding
is parameterized over them — the analysed control flow does not depend on
their values. -/

structure Log where
  addr : Nat
  topics : List Nat
  data : List Nat

/-- `read_word_as_size`: big-endian load of a 32-byte word, `nullopt` when it
exceeds `uint32_t`. -/
def read_word_as_size (data : List Nat) (pos : Nat) : Option Nat :=
  if 2 ^ 32 - 1 < beVal ((data.drop pos).take 32) then none
  else some (beVal ((data.drop pos).take 32))

/-- `validate_size_at`: the word at `offset` decodes and equals the size. -/
def validate_size_at (data : List Nat) (offset expected : Nat) : Bool :=
  match read_word_as_size data offset with
  | none => false
  | some v => v == expected

/-- The body of the log loop in `collect_deposit_requests`: skipping
(`continue`) yields the unchanged accumulator, a failed check yields `none`,
and a matching deposit log appends the five field slices. The expected
offsets `160, 256, 320, 384, 512` and sizes `48, 32, 8, 96, 8` are the
hard-coded `EXPECTED_OFFSETS` / field sizes computed from the ABI layout. -/
def processLog (depositAddr sigHash : Nat) (acc : List Nat) (lg : Log) :
    Option (List Nat) :=
  if lg.addr ≠ depositAddr then some acc
  else if lg.topics = [] ∨ lg.topics.headD 0 ≠ sigHash then some acc
  else if lg.data.length ≠ 576 then none
  else
    match read_word_as_size lg.data 0, read_word_as_size lg.data 32,
        read_word_as_size lg.data 64, read_word_as_size lg.data 96,
        read_word_as_size lg.data 128 with
    | some o0, some o1, some o2, some o3, some o4 =>
      if o0 = 160 ∧ o1 = 256 ∧ o2 = 320 ∧ o3 = 384 ∧ o4 = 512 then
        if validate_size_at lg.data 160 48 && validate_size_at lg.data 256 32 &&
            validate_size_at lg.data 320 8 && validate_size_at lg.data 384 96 &&
            validate_size_at lg.data 512 8 then
          some (acc ++ ((lg.data.drop 192).take 48) ++
            ((lg.data.drop 288).take 32) ++ ((lg.data.drop 352).take 8) ++
            ((lg.data.drop 416).take 96) ++ ((lg.data.drop 544).take 8))
        else none
      else none
    | _, _, _, _, _ => none

/-- The inner `for (log : receipt.logs)` loop. -/
def collectLogs (depositAddr sigHash : Nat) :
    List Nat → List Log → Option (List Nat)
  | acc, [] => some acc
  | acc, lg :: rest =>
    match processLog depositAddr sigHash acc lg with
    | none => none
    | some acc2 => collectLogs depositAddr sigHash acc2 rest

/-- The outer `for (receipt : receipts)` loop. -/
def collectReceipts (depositAddr sigHash : Nat) :
    List Nat → List (List Log) → Option (List Nat)
  | acc, [] => some acc
  | acc, r :: rs =>
    match collectLogs depositAddr sigHash acc r with
    | none => none
    | some acc2 => collectReceipts depositAddr sigHash acc2 rs

/-- `collect_deposit_requests`, starting from the empty request data. -/
def collect_deposit_requests (depositAddr sigHash : Nat)
    (receipts : List (List Log)) : Option (List Nat) :=
  collectReceipts depositAddr sigHash [] receipts

theorem processLog_skip (depositAddr sigHash : Nat) (acc : List Nat) (lg : Log)
    (h : lg.addr ≠ depositAddr ∨ lg.topics = [] ∨
      lg.topics.headD 0 ≠ sigHash) :
    processLog depositAddr sigHash acc lg = some acc := by
  rw [processLog]
  by_cases h1 : lg.addr ≠ depositAddr
  · rw [if_pos h1]
  · rw [if_neg h1]
    have h2 : lg.topics = [] ∨ lg.topics.headD 0 ≠ sigHash := by tauto
    rw [if_pos h2]

theorem processLog_bad_size (depositAddr sigHash : Nat) (acc : List Nat)
    (lg : Log) (ha : lg.addr = depositAddr) (ht0 : lg.topics ≠ [])
    (ht : lg.topics.headD 0 = sigHash) (hd : lg.data.length ≠ 576) :
    processLog depositAddr sigHash acc lg = none := by
  rw [processLog, if_neg (by tauto), if_neg (by tauto), if_pos hd]

theorem collectLogs_none (depositAddr sigHash : Nat) (lg : Log)
    (ha : lg.addr = depositAddr) (ht0 : lg.topics ≠ [])
    (ht : lg.topics.headD 0 = sigHash) (hd : lg.data.length ≠ 576) :
    ∀ logs acc, lg ∈ logs →
      collectLogs depositAddr sigHash acc logs = none := by
  intro logs
  induction logs with
  | nil => intro acc h; exact absurd h (List.not_mem_nil lg)
  | cons l rest ih =>
    intro acc h
    rw [collectLogs]
    rcases List.mem_cons.1 h with rfl | hmem
    · rw [processLog_bad_size depositAddr sigHash acc lg ha ht0 ht hd]
    · rcases hp : processLog depositAddr sigHash acc l with _ | acc2
      · rfl
      · exact ih acc2 hmem

theorem collectReceipts_none (depositAddr sigHash : Nat) (lg : Log)
    (ha : lg.addr = depositAddr) (ht0 : lg.topics ≠ [])
    (ht : lg.topics.headD 0 = sigHash) (hd : lg.data.length ≠ 576) :
    ∀ rs acc, (∃ r ∈ rs, lg ∈ r) →
      collectReceipts depositAddr sigHash acc rs = none := by
  intro rs
  induction rs with
  | nil =>
    intro acc h
    obtain ⟨r, hr, _⟩ := h
    exact absurd hr (List.not_mem_nil r)
  | cons r rest ih =>
    intro acc h
    rw [collectReceipts]
    obtain ⟨r0, hr0, hmem⟩ := h
    rcases List.mem_cons.1 hr0 with rfl | hrest
    · rw [collectLogs_none depositAddr sigHash lg ha ht0 ht hd r0 acc hmem]
    · rcases hp : collectLogs depositAddr sigHash acc r with _ | acc2
      · rfl
      · exact ih acc2 ⟨r0, hrest, hmem⟩

/-- C8: a log addressed to the deposit contract whose first topic is the
deposit event signature but whose data is not exactly 576 bytes fails the
whole collection (`none`), wherever it occurs; a log with a different
address, or with no/different first topic, is skipped: processing it leaves
the collection state unchanged. -/
theorem collect_deposit_requests_correct (depositAddr sigHash : Nat)
    (receipts : List (List Log)) (lg : Log) :
    ((∃ r ∈ receipts, lg ∈ r) → lg.addr = depositAddr → lg.topics ≠ [] →
      lg.topics.headD 0 = sigHash → lg.data.length ≠ 576 →
      collect_deposit_requests depositAddr sigHash receipts = none) ∧
    ((lg.addr ≠ depositAddr ∨ lg.topics = [] ∨
        lg.topics.headD 0 ≠ sigHash) →
      ∀ acc rest, collectLogs depositAddr sigHash acc (lg :: rest) =
        collectLogs depositAddr sigHash acc rest) := by
  constructor
  · intro hmem ha ht0 ht hd
    exact collectReceipts_none depositAddr sigHash lg ha ht0 ht hd receipts
      [] hmem
  · intro hskip acc rest
    rw [collectLogs, processLog_skip depositAddr sigHash acc lg hskip]

theorem collect_deposit_requests_correct_witness :
    collect_deposit_requests 7 9 [[Log.mk 7 [9] []]] = none ∧
    collectLogs 7 9 [] [Log.mk 5 [] [], Log.mk 7 [9] [1]] =
      collectLogs 7 9 [] [Log.mk 7 [9] [1]] :=
  ⟨(collect_deposit_requests_correct 7 9 [[Log.mk 7 [9] []]]
      (Log.mk 7 [9] [])).1
      ⟨[Log.mk 7 [9] []], List.mem_cons_self _ _, List.mem_cons_self _ _⟩
      rfl (by simp) rfl (by simp),
    (collect_deposit_requests_correct 7 9 [] (Log.mk 5 [] [])).2
      (Or.inl (by simp)) [] [Log.mk 7 [9] [1]]⟩

/-! ### `evmone::crypto::modexp` (src/lib/evmone_precompiles/modexp.cpp)

The remaining pieces of the MODEXP precompile: `modexp_pow2`, `modexp_even`
(CRT combination), `ctz`-based dispatch in `modexp_impl`, the `intx::be`
byte loads/stores, and the size dispatch of the public `modexp`. -/

/-- `intx::be::trunc`: the low `len` bytes of `n`, big-endian. -/
def beBytes : Nat → Nat → List Nat
  | 0, _ => []
  | len + 1, n => beBytes len (n / 256) ++ [n % 256]

theorem beBytes_length (len n : Nat) : (beBytes len n).length = len := by
  induction len generalizing n with
  | zero => rfl
  | succ len ih =>
    rw [beBytes, List.length_append, ih, List.length_cons, List.length_nil]

theorem beVal_append_byte (l : List Nat) (b : Nat) :
    beVal (l ++ [b]) = 256 * beVal l + b := by
  induction l with
  | nil =>
    simp only [List.nil_append, beVal, List.length_nil, pow_zero]
    omega
  | cons a rest ih =>
    rw [List.cons_append, beVal, ih, beVal, List.length_append,
      List.length_cons, List.length_nil]
    rw [pow_succ]
    ring

theorem beVal_beBytes (len n : Nat) : beVal (beBytes len n) = n % 256 ^ len := by
  induction len generalizing n with
  | zero => rw [beBytes, beVal, pow_zero, Nat.mod_one]
  | succ len ih =>
    rw [beBytes, beVal_append_byte, ih]
    have hr : n % 256 < 256 := Nat.mod_lt _ (by norm_num)
    have hqm : n / 256 % 256 ^ len < 256 ^ len :=
      Nat.mod_lt _ (Nat.pos_pow_of_pos _ (by norm_num))
    have key : n % 256 ^ (len + 1) = 256 * (n / 256 % 256 ^ len) + n % 256 := by
      conv_lhs => rw [← Nat.div_add_mod n 256, ← Nat.div_add_mod (n / 256)
        (256 ^ len)]
      rw [pow_succ, Nat.mul_add, ← Nat.mul_assoc, Nat.add_assoc,
        Nat.mul_comm 256 (256 ^ len), Nat.add_comm (256 ^ len * 256 * (n / 256 / 256 ^ len))]
      rw [Nat.add_mul_mod_self_left]
      exact Nat.mod_eq_of_lt (by omega)
    omega

/-- The square-and-multiply loop of `modexp_pow2`, in `W`-bit wrapping
arithmetic (`UIntT`): `for (i = bit_width; i != 0; --i)` starting from
`ret = 1`. -/
def pow2Loop (W base : Nat) (bit : Nat → Bool) : Nat → Nat → Nat
  | 0, ret => ret
  | i + 1, ret =>
    pow2Loop W base bit i
      (if bit i then ret * ret % 2 ^ W * base % 2 ^ W else ret * ret % 2 ^ W)

/-- `modexp_pow2<UIntT>`: plain wrapping square-and-multiply followed by the
mask `&= (1 << k) - 1`. -/
def modexp_pow2 (W basev : Nat) (ebytes : List Nat) (k : Nat) : Nat :=
  pow2Loop W basev (expBit ebytes) (expWidth ebytes) 1 &&& (2 ^ k - 1)

theorem pow2Loop_spec (W base E : Nat) (bit : Nat → Bool) :
    ∀ i ret, (∀ j, j < i → bit j = Nat.testBit E j) →
      ret ≡ base ^ (E >>> i) [MOD 2 ^ W] →
      pow2Loop W base bit i ret ≡ base ^ E [MOD 2 ^ W] := by
  intro i
  induction i with
  | zero =>
    intro ret hbit hc
    rw [Nat.shiftRight_zero] at hc
    exact hc
  | succ i ih =>
    intro ret hbit hc
    simp only [pow2Loop]
    have hdec := shiftRight_succ_decomp E i
    have hbit' : ∀ j, j < i → bit j = Nat.testBit E j :=
      fun j hj => hbit j (by omega)
    have hsq : ret * ret % 2 ^ W ≡ base ^ (2 * (E >>> (i + 1))) [MOD 2 ^ W] := by
      refine (Nat.mod_modEq _ _).trans ?_
      calc ret * ret ≡ base ^ (E >>> (i + 1)) * base ^ (E >>> (i + 1))
            [MOD 2 ^ W] := hc.mul hc
        _ = base ^ (2 * (E >>> (i + 1))) := by
            rw [two_mul, pow_add]
    by_cases hbi : bit i = true
    · rw [if_pos hbi]
      have htb : Nat.testBit E i = true := by rw [← hbit i (by omega), hbi]
      have hEi : E >>> i = 2 * (E >>> (i + 1)) + 1 := by
        rw [hdec, if_pos htb]
      refine ih _ hbit' ?_
      rw [hEi]
      refine (Nat.mod_modEq _ _).trans ?_
      calc ret * ret % 2 ^ W * base
          ≡ base ^ (2 * (E >>> (i + 1))) * base [MOD 2 ^ W] := hsq.mul_right _
        _ = base ^ (2 * (E >>> (i + 1)) + 1) := by
            rw [pow_succ]
    · rw [if_neg hbi]
      have htb : Nat.testBit E i = false := by
        rw [← hbit i (by omega)]
        exact Bool.not_eq_true _ ▸ (by simpa using hbi)
      have hEi : E >>> i = 2 * (E >>> (i + 1)) := by
        rw [hdec, htb]
        simp
      refine ih _ hbit' ?_
      rw [hEi]
      exact hsq

/-- `modexp_pow2` computes `base^E mod 2ᵏ` (for `k ≤ W`). -/
theorem modexp_pow2_spec (W basev : Nat) (ebytes : List Nat) (k : Nat)
    (hkW : k ≤ W) (hbytes : ∀ x ∈ ebytes, x < 256) :
    modexp_pow2 W basev ebytes k = basev ^ beVal ebytes % 2 ^ k := by
  obtain ⟨hElt, _⟩ := beVal_bounds ebytes hbytes
  have htop : beVal ebytes >>> expWidth ebytes = 0 := by
    rw [Nat.shiftRight_eq_div_pow]
    exact Nat.div_eq_of_lt hElt
  have hbit : ∀ j, j < expWidth ebytes →
      expBit ebytes j = Nat.testBit (beVal ebytes) j :=
    fun j hj => expBit_eq_testBit ebytes hbytes j hj
  have hinit : (1 : Nat) ≡
      basev ^ (beVal ebytes >>> expWidth ebytes) [MOD 2 ^ W] := by
    rw [htop, pow_zero]
  have h := pow2Loop_spec W basev (beVal ebytes) (expBit ebytes)
    (expWidth ebytes) 1 hbit hinit
  rw [modexp_pow2, Nat.and_pow_two_sub_one_eq_mod]
  unfold Nat.ModEq at h
  calc pow2Loop W basev (expBit ebytes) (expWidth ebytes) 1 % 2 ^ k
      = pow2Loop W basev (expBit ebytes) (expWidth ebytes) 1 % 2 ^ W % 2 ^ k :=
        (Nat.mod_mod_of_dvd _ (pow_dvd_pow 2 hkW)).symm
    _ = basev ^ beVal ebytes % 2 ^ W % 2 ^ k := by rw [h]
    _ = basev ^ beVal ebytes % 2 ^ k :=
        Nat.mod_mod_of_dvd _ (pow_dvd_pow 2 hkW)

/-- Helper version of the `modinv_pow2` inverse property (see
`modinvPow2Go_spec`): `x * modinv_pow2(x, k) ≡ 1 (mod 2ᵏ)`. -/
theorem modinv_pow2_inverse (W x k : Nat) (hW : 64 ≤ W) (hodd : x % 2 = 1)
    (hk1 : 1 ≤ k) (hkW : k ≤ W) :
    x * modinv_pow2 W x k % 2 ^ k = 1 := by
  have h2wb : (2 : Nat) ∣ wb := by rw [wb]; exact dvd_pow_self 2 (by omega)
  have hseed0 : x % wb % 2 = 1 := by rw [Nat.mod_mod_of_dvd _ h2wb, hodd]
  have hseed := inv_mod_spec (x % wb) hseed0
  have hseedx : x * inv_mod (x % wb) ≡ 1 [MOD 2 ^ min 64 W] := by
    have hminW : min 64 W = 64 := by omega
    rw [hminW]
    have hxx : x ≡ x % wb [MOD wb] := (Nat.mod_modEq _ _).symm
    have h := hxx.mul_right (inv_mod (x % wb))
    exact (h.trans hseed : _)
  have h := modinvPow2Go_spec W x k hkW k 64 (inv_mod (x % wb)) (by omega)
    (by omega) hseedx
  rw [modinv_pow2]
  have h1 : x * modinvPow2Go W x k k 64 (inv_mod (x % wb)) % 2 ^ k =
      1 % 2 ^ k := h
  rw [h1, Nat.mod_eq_of_lt (Nat.one_lt_two_pow_iff.2 (by omega))]

/-- `intx::ctz` via repeated halving (fuel-bounded). -/
def ctzGo : Nat → Nat → Nat
  | 0, _ => 0
  | f + 1, n => if n % 2 = 1 then 0 else ctzGo f (n / 2) + 1

/-- Count of trailing zero bits of a `W`-bit value. -/
def ctz (W n : Nat) : Nat := ctzGo W n

theorem ctzGo_spec (f : Nat) : ∀ n, 0 < n → n < 2 ^ f →
    n / 2 ^ ctzGo f n % 2 = 1 ∧ n = n / 2 ^ ctzGo f n * 2 ^ ctzGo f n := by
  induction f with
  | zero =>
    intro n h0 hf
    rw [pow_zero] at hf
    omega
  | succ f ih =>
    intro n h0 hf
    rw [ctzGo]
    by_cases h : n % 2 = 1
    · rw [if_pos h, pow_zero, Nat.div_one]
      exact ⟨h, by omega⟩
    · rw [if_neg h]
      have h2 : n / 2 < 2 ^ f := by
        rw [pow_succ] at hf
        omega
      have h02 : 0 < n / 2 := by omega
      obtain ⟨ih1, ih2⟩ := ih (n / 2) h02 h2
      have hdd : n / 2 ^ (ctzGo f (n / 2) + 1) = n / 2 / 2 ^ ctzGo f (n / 2) := by
        rw [pow_succ']
        rw [Nat.div_div_eq_div_mul]
      constructor
      · rw [hdd]
        exact ih1
      · rw [hdd, pow_succ']
        calc n = n / 2 * 2 := by omega
          _ = n / 2 / 2 ^ ctzGo f (n / 2) * 2 ^ ctzGo f (n / 2) * 2 := by
              rw [← ih2]
          _ = n / 2 / 2 ^ ctzGo f (n / 2) * (2 * 2 ^ ctzGo f (n / 2)) := by ring

theorem modEq_eq_of_lt (m a b : Nat) (h : a ≡ b [MOD m]) (ha : a < m) :
    a = b % m := by
  have h2 := h
  unfold Nat.ModEq at h2
  rw [Nat.mod_eq_of_lt ha] at h2
  exact h2

/-- `modexp_even<UIntT>` (modexp.cpp): the Koç even-modulus CRT combination
`x1 + (((x2 - x1) * modinv_pow2(mod_odd, k)) & ((1 << k) - 1)) * mod_odd` in
`W = 64·S`-bit wrapping arithmetic. -/
def modexp_even (S basev : Nat) (ebytes : List Nat) (modOdd k : Nat) : Nat :=
  (modexpOddMont S modOdd basev ebytes +
    ((((modexp_pow2 (64 * S) basev ebytes k + 2 ^ (64 * S) -
          modexpOddMont S modOdd basev ebytes) % 2 ^ (64 * S) *
        modinv_pow2 (64 * S) modOdd k % 2 ^ (64 * S)) &&& (2 ^ k - 1)) *
      modOdd % 2 ^ (64 * S))) % 2 ^ (64 * S)

/-- `modexp_even` computes `base^E mod (mod_odd · 2ᵏ)` for an odd `mod_odd`,
`k ≥ 1` and a nonzero exponent. -/
theorem modexp_even_spec (S basev : Nat) (ebytes : List Nat) (modOdd k : Nat)
    (hS : 1 ≤ S) (hodd : modOdd % 2 = 1) (hk1 : 1 ≤ k)
    (hmW : modOdd * 2 ^ k < 2 ^ (64 * S))
    (hbytes : ∀ x ∈ ebytes, x < 256) (hE : beVal ebytes ≠ 0) :
    modexp_even S basev ebytes modOdd k =
      basev ^ beVal ebytes % (modOdd * 2 ^ k) := by
  have hm1 : 1 ≤ modOdd := by omega
  have hW : 64 ≤ 64 * S := by omega
  have h2k : 1 ≤ 2 ^ k := Nat.one_le_pow _ _ (by norm_num)
  have h2k2 : 2 ≤ 2 ^ k := by
    calc 2 = 2 ^ 1 := (pow_one 2).symm
      _ ≤ 2 ^ k := Nat.pow_le_pow_right (by norm_num) hk1
  have hkW : k ≤ 64 * S := by
    by_contra h
    push_neg at h
    have hp : 2 ^ (64 * S) ≤ 2 ^ k := Nat.pow_le_pow_right (by norm_num) (by omega)
    nlinarith
  have hmoW : modOdd < 2 ^ (64 * S) := by nlinarith
  have hx1 := modexpOddMont_correct S modOdd basev ebytes hS hodd hmoW hbytes hE
  have hx2 := modexp_pow2_spec (64 * S) basev ebytes k hkW hbytes
  have hinv := modinv_pow2_inverse (64 * S) modOdd k hW hodd hk1 hkW
  unfold modexp_even
  rw [Nat.and_pow_two_sub_one_eq_mod]
  set x1 := modexpOddMont S modOdd basev ebytes with hx1d
  set x2 := modexp_pow2 (64 * S) basev ebytes k with hx2d
  set inv := modinv_pow2 (64 * S) modOdd k with hinvd
  have hx1lt : x1 < modOdd := by
    rw [hx1]
    exact Nat.mod_lt _ (by omega)
  have hx2lt : x2 < 2 ^ k := by
    rw [hx2]
    exact Nat.mod_lt _ (by omega)
  have hx1cong : x1 ≡ basev ^ beVal ebytes [MOD modOdd] := by
    rw [hx1]
    exact Nat.mod_modEq _ _
  have hx2cong : x2 ≡ basev ^ beVal ebytes [MOD 2 ^ k] := by
    rw [hx2]
    exact Nat.mod_modEq _ _
  set y := (x2 + 2 ^ (64 * S) - x1) % 2 ^ (64 * S) * inv % 2 ^ (64 * S) % 2 ^ k
    with hyd
  have hylt : y < 2 ^ k := Nat.mod_lt _ (by omega)
  have hyma : y * modOdd % 2 ^ (64 * S) = y * modOdd :=
    Nat.mod_eq_of_lt (by nlinarith)
  have houter : x1 + y * modOdd < modOdd * 2 ^ k := by nlinarith
  rw [hyma, Nat.mod_eq_of_lt (lt_trans houter hmW)]
  have hdvdWk : (2 : Nat) ^ k ∣ 2 ^ (64 * S) := pow_dvd_pow 2 hkW
  have hinvc : modOdd * inv ≡ 1 [MOD 2 ^ k] := by
    unfold Nat.ModEq
    rw [hinv, Nat.mod_eq_of_lt (by omega)]
  have hyc : y ≡ (x2 + 2 ^ (64 * S) - x1) * inv [MOD 2 ^ k] := by
    rw [hyd]
    refine (Nat.mod_modEq _ _).trans ?_
    refine ((Nat.mod_modEq _ _).of_dvd hdvdWk).trans ?_
    exact ((Nat.mod_modEq _ _).of_dvd hdvdWk).mul_right inv
  have c1 : x1 + y * modOdd ≡ basev ^ beVal ebytes [MOD modOdd] := by
    unfold Nat.ModEq
    rw [Nat.add_mul_mod_self_right]
    exact hx1cong
  have c2 : x1 + y * modOdd ≡ basev ^ beVal ebytes [MOD 2 ^ k] := by
    have hyc2 : y * modOdd ≡ x2 + 2 ^ (64 * S) - x1 [MOD 2 ^ k] := by
      refine (hyc.mul_right modOdd).trans ?_
      have he : (x2 + 2 ^ (64 * S) - x1) * inv * modOdd =
          (x2 + 2 ^ (64 * S) - x1) * (modOdd * inv) := by ring
      rw [he]
      have := hinvc.mul_left (x2 + 2 ^ (64 * S) - x1)
      rw [Nat.mul_one] at this
      exact this
    have hsum : x1 + y * modOdd ≡ x1 + (x2 + 2 ^ (64 * S) - x1) [MOD 2 ^ k] :=
      hyc2.add_left x1
    have heq : x1 + (x2 + 2 ^ (64 * S) - x1) = x2 + 2 ^ (64 * S) := by omega
    rw [heq] at hsum
    refine hsum.trans ?_
    have hzero : (2 : Nat) ^ (64 * S) ≡ 0 [MOD 2 ^ k] := by
      unfold Nat.ModEq
      rw [Nat.zero_mod]
      exact Nat.dvd_iff_mod_eq_zero.mp hdvdWk
    refine (hzero.add_left x2).trans ?_
    rw [Nat.add_zero]
    exact hx2cong
  have hcop : Nat.Coprime modOdd (2 ^ k) :=
    ((Nat.coprime_two_left).2 (Nat.odd_iff.2 hodd)).symm.pow_right k
  have hfinal := (Nat.modEq_and_modEq_iff_modEq_mul hcop).1 ⟨c1, c2⟩
  exact modEq_eq_of_lt _ _ _ hfinal houter

theorem ctz_spec (W n : Nat) (h0 : 0 < n) (hW : n < 2 ^ W) :
    n / 2 ^ ctz W n % 2 = 1 ∧ n = n / 2 ^ ctz W n * 2 ^ ctz W n :=
  ctzGo_spec W n h0 hW

theorem expWidth_zero_iff (bs : List Nat) (hb : ∀ b ∈ bs, b < 256) :
    expWidth bs = 0 ↔ beVal bs = 0 := by
  rcases ht : trimBytes bs with _ | ⟨b, rest⟩
  · rw [expWidth_eq_zero bs ht, ← beVal_trimBytes, ht]
    simp [beVal]
  · have hbne : b ≠ 0 := trimBytes_head_ne bs b rest ht
    have h1 := byteWidth_pos b hbne
    obtain ⟨_, hge⟩ := beVal_bounds bs hb
    have hge2 := hge (by rw [ht]; exact List.cons_ne_nil b rest)
    have hpow : 1 ≤ 2 ^ (expWidth bs - 1) := Nat.one_le_pow _ _ (by norm_num)
    rw [expWidth_eq bs b rest ht]
    constructor
    · intro h
      omega
    · intro h
      rw [h] at hge2
      omega

/-- `modexp_impl<Size>` (modexp.cpp): load base and modulus as `S`-word
big-endian values, dispatch on the exponent width and the modulus trailing
zeros (`exp == 0` / odd / power-of-two / even), and store the result
truncated to `mod_bytes.size()` big-endian bytes. -/
def modexp_impl (S : Nat) (base_bytes ebytes mod_bytes : List Nat) :
    List Nat :=
  beBytes mod_bytes.length
    (if expWidth ebytes = 0 then
      (if beVal mod_bytes ≠ 1 then 1 else 0)
    else if ctz (64 * S) (beVal mod_bytes) = 0 then
      modexpOddMont S (beVal mod_bytes) (beVal base_bytes) ebytes
    else if beVal mod_bytes / 2 ^ ctz (64 * S) (beVal mod_bytes) = 1 then
      modexp_pow2 (64 * S) (beVal base_bytes) ebytes
        (ctz (64 * S) (beVal mod_bytes))
    else
      modexp_even S (beVal base_bytes) ebytes
        (beVal mod_bytes / 2 ^ ctz (64 * S) (beVal mod_bytes))
        (ctz (64 * S) (beVal mod_bytes)))

theorem modexp_impl_spec (S : Nat) (base_bytes ebytes mod_bytes : List Nat)
    (hS : 1 ≤ S) (he : ∀ x ∈ ebytes, x < 256) (hm : ∀ x ∈ mod_bytes, x < 256)
    (hmS : mod_bytes.length ≤ 8 * S) (hm0 : beVal mod_bytes ≠ 0) :
    modexp_impl S base_bytes ebytes mod_bytes =
      beBytes mod_bytes.length
        (beVal base_bytes ^ beVal ebytes % beVal mod_bytes) := by
  have hmW : beVal mod_bytes < 2 ^ (64 * S) := by
    have h1 := beVal_lt mod_bytes hm
    have h2 : (256 : Nat) ^ mod_bytes.length ≤ 256 ^ (8 * S) :=
      Nat.pow_le_pow_right (by norm_num) hmS
    have h3 : (256 : Nat) ^ (8 * S) = 2 ^ (64 * S) := by
      rw [pow256_eq]
      congr 1
      ring
    omega
  rw [modexp_impl]
  congr 1
  by_cases hEw : expWidth ebytes = 0
  · rw [if_pos hEw]
    have hE0 : beVal ebytes = 0 := (expWidth_zero_iff ebytes he).1 hEw
    rw [hE0, pow_zero]
    by_cases hm1 : beVal mod_bytes = 1
    · rw [if_neg (by omega), hm1, Nat.mod_one]
    · rw [if_pos hm1, Nat.mod_eq_of_lt (by omega)]
  · rw [if_neg hEw]
    have hE : beVal ebytes ≠ 0 := fun h => hEw ((expWidth_zero_iff ebytes he).2 h)
    obtain ⟨hctzodd, hctzdecomp⟩ := ctz_spec (64 * S) (beVal mod_bytes)
      (by omega) hmW
    by_cases ht0 : ctz (64 * S) (beVal mod_bytes) = 0
    · rw [if_pos ht0]
      have hodd : beVal mod_bytes % 2 = 1 := by
        rw [ht0, pow_zero, Nat.div_one] at hctzodd
        exact hctzodd
      exact modexpOddMont_correct S (beVal mod_bytes) (beVal base_bytes)
        ebytes hS hodd hmW he hE
    · rw [if_neg ht0]
      have hq1 : 1 ≤ beVal mod_bytes / 2 ^ ctz (64 * S) (beVal mod_bytes) := by
        rcases Nat.eq_zero_or_pos
          (beVal mod_bytes / 2 ^ ctz (64 * S) (beVal mod_bytes)) with h | h
        · rw [h] at hctzodd
          norm_num at hctzodd
        · exact h
      have h2t : 2 ^ ctz (64 * S) (beVal mod_bytes) ≤ beVal mod_bytes := by
        nlinarith [hctzdecomp]
      have htW : ctz (64 * S) (beVal mod_bytes) < 64 * S := by
        by_contra h
        push_neg at h
        have := Nat.pow_le_pow_right (show 1 ≤ 2 by norm_num) h
        omega
      by_cases hp2 : beVal mod_bytes / 2 ^ ctz (64 * S) (beVal mod_bytes) = 1
      · rw [if_pos hp2]
        have hmeq : beVal mod_bytes = 2 ^ ctz (64 * S) (beVal mod_bytes) := by
          conv_lhs => rw [hctzdecomp]
          rw [hp2, Nat.one_mul]
        rw [modexp_pow2_spec (64 * S) (beVal base_bytes) ebytes
          (ctz (64 * S) (beVal mod_bytes)) (le_of_lt htW) he, ← hmeq]
      · rw [if_neg hp2]
        have hmW2 : beVal mod_bytes / 2 ^ ctz (64 * S) (beVal mod_bytes) *
            2 ^ ctz (64 * S) (beVal mod_bytes) < 2 ^ (64 * S) := by
          rw [← hctzdecomp]
          exact hmW
        rw [modexp_even_spec S (beVal base_bytes) ebytes
          (beVal mod_bytes / 2 ^ ctz (64 * S) (beVal mod_bytes))
          (ctz (64 * S) (beVal mod_bytes)) hS hctzodd (by omega) hmW2 he hE,
          ← hctzdecomp]

/-- `evmone::crypto::modexp`: size dispatch to `modexp_impl<Size>` with
`Size ∈ 16, 32, 64, 128, 256, 1024` bytes (`S = Size / 8` words). -/
def modexp (base_bytes ebytes mod_bytes : List Nat) : List Nat :=
  if max mod_bytes.length base_bytes.length ≤ 16 then
    modexp_impl 2 base_bytes ebytes mod_bytes
  else if max mod_bytes.length base_bytes.length ≤ 32 then
    modexp_impl 4 base_bytes ebytes mod_bytes
  else if max mod_bytes.length base_bytes.length ≤ 64 then
    modexp_impl 8 base_bytes ebytes mod_bytes
  else if max mod_bytes.length base_bytes.length ≤ 128 then
    modexp_impl 16 base_bytes ebytes mod_bytes
  else if max mod_bytes.length base_bytes.length ≤ 256 then
    modexp_impl 32 base_bytes ebytes mod_bytes
  else modexp_impl 128 base_bytes ebytes mod_bytes

/-- C1: for big-endian byte strings `base`, `exp`, `mod` with `base` and
`mod` at most 1024 bytes and a nonzero modulus value `m`,
`evmone::crypto::modexp` outputs exactly `mod.size()` bytes holding the
big-endian value of `base^exp mod m` (which fits, so the truncation to
`mod.size()` bytes is value-preserving); for `exp = 0` the output value is
`1` for `m > 1` and `0` for `m = 1`. -/
theorem modexp_correct (base_bytes ebytes mod_bytes : List Nat)
    (hb : ∀ x ∈ base_bytes, x < 256) (he : ∀ x ∈ ebytes, x < 256)
    (hm : ∀ x ∈ mod_bytes, x < 256) (hbsz : base_bytes.length ≤ 1024)
    (hmsz : mod_bytes.length ≤ 1024) (hm0 : beVal mod_bytes ≠ 0) :
    modexp base_bytes ebytes mod_bytes =
      beBytes mod_bytes.length
        (beVal base_bytes ^ beVal ebytes % beVal mod_bytes) ∧
    (modexp base_bytes ebytes mod_bytes).length = mod_bytes.length ∧
    (beVal ebytes = 0 →
      beVal (modexp base_bytes ebytes mod_bytes) =
        if beVal mod_bytes = 1 then 0 else 1) := by
  have hml : mod_bytes.length ≤ max mod_bytes.length base_bytes.length :=
    Nat.le_max_left _ _
  have key : modexp base_bytes ebytes mod_bytes =
      beBytes mod_bytes.length
        (beVal base_bytes ^ beVal ebytes % beVal mod_bytes) := by
    rw [modexp]
    by_cases h16 : max mod_bytes.length base_bytes.length ≤ 16
    · rw [if_pos h16]
      exact modexp_impl_spec 2 base_bytes ebytes mod_bytes (by omega) he hm
        (by omega) hm0
    · rw [if_neg h16]
      by_cases h32 : max mod_bytes.length base_bytes.length ≤ 32
      · rw [if_pos h32]
        exact modexp_impl_spec 4 base_bytes ebytes mod_bytes (by omega) he hm
          (by omega) hm0
      · rw [if_neg h32]
        by_cases h64 : max mod_bytes.length base_bytes.length ≤ 64
        · rw [if_pos h64]
          exact modexp_impl_spec 8 base_bytes ebytes mod_bytes (by omega) he
            hm (by omega) hm0
        · rw [if_neg h64]
          by_cases h128 : max mod_bytes.length base_bytes.length ≤ 128
          · rw [if_pos h128]
            exact modexp_impl_spec 16 base_bytes ebytes mod_bytes (by omega)
              he hm (by omega) hm0
          · rw [if_neg h128]
            by_cases h256 : max mod_bytes.length base_bytes.length ≤ 256
            · rw [if_pos h256]
              exact modexp_impl_spec 32 base_bytes ebytes mod_bytes (by omega)
                he hm (by omega) hm0
            · rw [if_neg h256]
              exact modexp_impl_spec 128 base_bytes ebytes mod_bytes
                (by omega) he hm (by omega) hm0
  refine ⟨key, ?_, ?_⟩
  · rw [key, beBytes_length]
  · intro hE0
    have hlen1 : 1 ≤ mod_bytes.length := by
      by_contra h
      push_neg at h
      have hnil : mod_bytes = [] := List.length_eq_zero.1 (by omega)
      rw [hnil] at hm0
      exact hm0 rfl
    have h256len : (256 : Nat) ≤ 256 ^ mod_bytes.length := by
      calc (256 : Nat) = 256 ^ 1 := (pow_one _).symm
        _ ≤ 256 ^ mod_bytes.length := Nat.pow_le_pow_right (by norm_num) hlen1
    rw [key, hE0, pow_zero, beVal_beBytes]
    by_cases hm1 : beVal mod_bytes = 1
    · rw [if_pos hm1, hm1, Nat.mod_one, Nat.zero_mod]
    · have h1m : (1 : Nat) % beVal mod_bytes = 1 := Nat.mod_eq_of_lt (by omega)
      rw [if_neg hm1, h1m, Nat.mod_eq_of_lt (by omega)]

theorem modexp_correct_witness :
    ((∀ x ∈ [(2 : Nat)], x < 256) ∧ (∀ x ∈ [(10 : Nat)], x < 256) ∧
      (∀ x ∈ [(7 : Nat)], x < 256) ∧
      ([(2 : Nat)] : List Nat).length ≤ 1024 ∧
      ([(7 : Nat)] : List Nat).length ≤ 1024 ∧ beVal [7] ≠ 0) ∧
    (modexp [2] [10] [7] =
        beBytes ([(7 : Nat)] : List Nat).length
          (beVal [2] ^ beVal [10] % beVal [7]) ∧
      (modexp [2] [10] [7]).length = ([(7 : Nat)] : List Nat).length ∧
      (beVal [10] = 0 →
        beVal (modexp [2] [10] [7]) = if beVal [7] = 1 then 0 else 1)) :=
  ⟨⟨by decide, by decide, by decide, by decide, by decide, by decide⟩,
    modexp_correct [2] [10] [7] (by decide) (by decide) (by decide)
      (by decide) (by decide) (by decide)⟩

/-! ### `secp256r1::verify` (src/lib/evmone_precompiles/secp256r1.cpp)

The P-256 curve has `A = FIELD_PRIME - 3`, so `ecc::dbl` runs its
`dbl-2001-b` branch; `ecc::add` on two Jacobian points uses the
`add-1998-cmo-2` formula. All field values are Montgomery representatives
modulo the field prime (`S = 4` words); the scalar arithmetic for `u₁, u₂`
is `ModArith` modulo the group order. -/

/-- Variant of `mulMont_spec` with the symmetric operand bound: the scanned
operand `y` below the modulus, `x` only full-width. -/
theorem mulMont_spec_sym (S modv modInv xv yv : Nat) (hS : 1 ≤ S)
    (hMi : modv % wb * modInv % wb = wb - 1) (hm1 : 1 ≤ modv)
    (hmW : modv < 2 ^ (64 * S)) (hx : xv < 2 ^ (64 * S)) (hy : yv < modv) :
    mulMont S modv modInv xv yv < modv ∧
      mulMont S modv modInv xv yv * 2 ^ (64 * S) ≡ xv * yv [MOD modv] := by
  have hmw : wval (toWords S modv) = modv := by
    rw [wval_toWords, Nat.mod_eq_of_lt hmW]
  have hxw : wval (toWords S xv) = xv := by
    rw [wval_toWords, Nat.mod_eq_of_lt hx]
  have hyw : wval (toWords S yv) = yv := by
    rw [wval_toWords, Nat.mod_eq_of_lt (lt_trans hy hmW)]
  have hMihead : (toWords S modv).headD 0 * modInv % wb = wb - 1 := by
    rw [toWords_headD S modv hS]; exact hMi
  have hloop := ciosLoop_spec (toWords S modv) modInv (toWords S xv)
    (toWords S yv) (List.replicate (S + 1) 0) S hS (toWords_length S xv)
    (toWords_length S modv) (List.length_replicate _ _) hMihead
  rw [hmw, hxw, wval_replicate_zero] at hloop
  set T := montLoop modv modInv xv (toWords S yv) 0 with hT
  obtain ⟨Q, hQlt, hQ⟩ := montLoop_exact modv modInv xv hMi (toWords S yv) 0
    (toWords_wf S yv)
  rw [toWords_length, hyw, ← hT] at hQ
  rw [toWords_length] at hQlt
  have hTmod : T * wb ^ (toWords S yv).length ≡ 0 + xv * wval (toWords S yv)
      [MOD modv] := montLoop_modeq modv modInv xv (toWords S yv) 0 hMi
  rw [toWords_length, hyw, Nat.zero_add, wb_pow] at hTmod
  have hT2m : T < 2 * modv := by
    have hqb : Q * modv < wb ^ S * modv := by
      exact Nat.mul_lt_mul_of_lt_of_le hQlt (le_refl modv) (by omega)
    have hxyb : xv * yv < wb ^ S * modv := by
      rw [wb_pow]
      exact Nat.mul_lt_mul_of_lt_of_le hx hy.le (by omega)
    have hbound : T * wb ^ S < 2 * modv * wb ^ S := by
      rw [hQ]
      have hP1 : 1 ≤ wb ^ S := Nat.one_le_pow _ _ wb_pos
      calc 0 + xv * yv + Q * modv < wb ^ S * modv + wb ^ S * modv := by omega
        _ = 2 * modv * wb ^ S := by ring
    exact Nat.lt_of_mul_lt_mul_right hbound
  rw [mulMont]
  simp only [hloop, ← hT]
  have hrlt : (if modv ≤ T then T - modv else T) < modv := by
    split <;> omega
  have hrmod : (if modv ≤ T then T - modv else T) ≡ T [MOD modv] := by
    by_cases h : modv ≤ T
    · rw [if_pos h]
      unfold Nat.ModEq
      conv_rhs => rw [← Nat.sub_add_cancel h]
      rw [Nat.add_mod_right]
    · rw [if_neg h]
  have hfin : (if modv ≤ T then T - modv else T) % 2 ^ (64 * S) =
      (if modv ≤ T then T - modv else T) := Nat.mod_eq_of_lt (lt_trans hrlt hmW)
  rw [hfin]
  exact ⟨hrlt, (hrmod.mul_right _).trans hTmod⟩

/-- `to_mont` for an arbitrary full-width input. -/
theorem to_mont_spec_any (S m x : Nat) (hS : 1 ≤ S) (hodd : m % 2 = 1)
    (hmW : m < 2 ^ (64 * S)) (hx : x < 2 ^ (64 * S)) :
    to_mont S m (montModInv m) x < m ∧
      to_mont S m (montModInv m) x ≡ x * 2 ^ (64 * S) [MOD m] := by
  have hMi := montModInv_spec m hodd
  have hm1 : 1 ≤ m := by omega
  obtain ⟨hlt, hc⟩ := mulMont_spec_sym S m (montModInv m) x (r_squared S m) hS
    hMi hm1 hmW hx (Nat.mod_lt _ (by omega))
  refine ⟨hlt, modEq_cancel_R S m _ _ hodd ?_⟩
  refine hc.trans ?_
  calc x * r_squared S m
      ≡ x * (2 ^ (64 * S) * 2 ^ (64 * S)) [MOD m] := by
        apply Nat.ModEq.mul_left x
        rw [r_squared]
        have hp : (2 : Nat) ^ (2 * (64 * S)) = 2 ^ (64 * S) * 2 ^ (64 * S) := by
          rw [two_mul, pow_add]
        rw [← hp]
        exact Nat.mod_modEq _ _
    _ = x * 2 ^ (64 * S) * 2 ^ (64 * S) := by ring

/-- Multiplying by the zero representative gives zero. -/
theorem mulMont_zero_right (S m x : Nat) (hS : 1 ≤ S) (hodd : m % 2 = 1)
    (hmW : m < 2 ^ (64 * S)) (hx : x < m) :
    mulMont S m (montModInv m) x 0 = 0 := by
  have hm1 : 1 ≤ m := by omega
  refine mulMont_eq_of S m (montModInv m) x 0 0 hS (montModInv_spec m hodd)
    hodd hmW hx (by positivity) (by omega) ?_
  rw [Nat.zero_mul, Nat.mul_zero]

/-- `ecc::dbl`, `Curve::A == FIELD_PRIME - 3` branch (`dbl-2001-b`). -/
def eccDbl3 (S m mi : Nat) (p : ProjPoint) : ProjPoint :=
  let zz := mulMont S m mi p.z p.z
  let yy := mulMont S m mi p.y p.y
  let xyy := mulMont S m mi p.x yy
  let t0 := modSub (64 * S) m p.x zz
  let t1 := modAdd (64 * S) m p.x zz
  let t2 := mulMont S m mi t0 t1
  let alpha := modAdd (64 * S) m (modAdd (64 * S) m t2 t2) t2
  let t3 := mulMont S m mi alpha alpha
  let t4 := modAdd (64 * S) m (modAdd (64 * S) m (modAdd (64 * S) m
    (modAdd (64 * S) m (modAdd (64 * S) m (modAdd (64 * S) m
      (modAdd (64 * S) m xyy xyy) xyy) xyy) xyy) xyy) xyy) xyy
  let x3 := modSub (64 * S) m t3 t4
  let t5 := modAdd (64 * S) m p.y p.z
  let t6 := mulMont S m mi t5 t5
  let t7 := modSub (64 * S) m t6 yy
  let z3 := modSub (64 * S) m t7 zz
  let t8 := modAdd (64 * S) m (modAdd (64 * S) m
    (modAdd (64 * S) m xyy xyy) xyy) xyy
  let t9 := modSub (64 * S) m t8 x3
  let t10 := mulMont S m mi yy yy
  let t11 := modAdd (64 * S) m (modAdd (64 * S) m (modAdd (64 * S) m
    (modAdd (64 * S) m (modAdd (64 * S) m (modAdd (64 * S) m
      (modAdd (64 * S) m t10 t10) t10) t10) t10) t10) t10) t10
  let t12 := mulMont S m mi alpha t9
  let y3 := modSub (64 * S) m t12 t11
  ProjPoint.mk x3 y3 z3

/-- `ecc::add(ProjPoint, AffinePoint)` with the `A = P - 3` doubling. -/
def eccAddMixed3 (S m mi : Nat) (p : ProjPoint) (qx qy : Nat) : ProjPoint :=
  if qx = 0 ∧ qy = 0 then p
  else if p.z = 0 then ProjPoint.mk qx qy (to_mont S m mi 1)
  else
    let z1z1 := mulMont S m mi p.z p.z
    let u2 := mulMont S m mi qx z1z1
    let z1z1z1 := mulMont S m mi p.z z1z1
    let s2 := mulMont S m mi qy z1z1z1
    let h := modSub (64 * S) m u2 p.x
    let t1 := modAdd (64 * S) m h h
    let i := mulMont S m mi t1 t1
    let j := mulMont S m mi h i
    let t2 := modSub (64 * S) m s2 p.y
    if h = 0 ∧ t2 = 0 then eccDbl3 S m mi p
    else
      let r := modAdd (64 * S) m t2 t2
      let v := mulMont S m mi p.x i
      let t3 := mulMont S m mi r r
      let t4 := modAdd (64 * S) m v v
      let t5 := modSub (64 * S) m t3 j
      let x3 := modSub (64 * S) m t5 t4
      let t6 := modSub (64 * S) m v x3
      let t7 := mulMont S m mi p.y j
      let t8 := modAdd (64 * S) m t7 t7
      let t9 := mulMont S m mi r t6
      let y3 := modSub (64 * S) m t9 t8
      let t10 := mulMont S m mi p.z h
      let z3 := modAdd (64 * S) m t10 t10
      ProjPoint.mk x3 y3 z3

/-- `ecc::add(ProjPoint, ProjPoint)` (`add-1998-cmo-2`), with the
`A = P - 3` doubling in the `p == q` case. -/
def eccAdd3 (S m mi : Nat) (p q : ProjPoint) : ProjPoint :=
  if p.z = 0 then q
  else if q.z = 0 then p
  else
    let z1z1 := mulMont S m mi p.z p.z
    let z2z2 := mulMont S m mi q.z q.z
    let u1 := mulMont S m mi p.x z2z2
    let u2 := mulMont S m mi q.x z1z1
    let z1z1z1 := mulMont S m mi p.z z1z1
    let z2z2z2 := mulMont S m mi q.z z2z2
    let s1 := mulMont S m mi p.y z2z2z2
    let s2 := mulMont S m mi q.y z1z1z1
    let h := modSub (64 * S) m u2 u1
    let r := modSub (64 * S) m s2 s1
    if h = 0 ∧ r = 0 then eccDbl3 S m mi p
    else
      let hh := mulMont S m mi h h
      let hhh := mulMont S m mi h hh
      let v := mulMont S m mi u1 hh
      let t2 := mulMont S m mi r r
      let t3 := modAdd (64 * S) m v v
      let t4 := modSub (64 * S) m t2 hhh
      let x3 := modSub (64 * S) m t4 t3
      let t5 := modSub (64 * S) m v x3
      let t6 := mulMont S m mi s1 hhh
      let t7 := mulMont S m mi r t5
      let y3 := modSub (64 * S) m t7 t6
      let t8 := mulMont S m mi q.z h
      let z3 := mulMont S m mi p.z t8
      ProjPoint.mk x3 y3 z3

/-- The double-and-add loop of `ecc::mul` for the `A = P - 3` curve. -/
def eccMulLoop3 (S m mi px py c : Nat) : Nat → ProjPoint → ProjPoint
  | 0, r => r
  | i + 1, r =>
    eccMulLoop3 S m mi px py c i
      (if test_bit c i then eccAddMixed3 S m mi (eccDbl3 S m mi r) px py
      else eccDbl3 S m mi r)

/-- `ecc::mul` for the `A = P - 3` curve. -/
def eccMul3 (S m mi ORDER px py c : Nat) : ProjPoint :=
  eccMulLoop3 S m mi px py (eccMulReduce ORDER (c + 1) c)
    (bwGo (64 * S) (eccMulReduce ORDER (c + 1) c))
    (ProjPoint.mk 0 (to_mont S m mi 1) 0)

/-- The secp256r1 (P-256) field prime. -/
def secpP : Nat :=
  0xffffffff00000001000000000000000000000000ffffffffffffffffffffffff

/-- The secp256r1 group order `N`. -/
def secpN : Nat :=
  0xffffffff00000000ffffffffffffffffbce6faada7179e84f3b9cac2fc632551

/-- The secp256r1 curve coefficient `B`. -/
def secpB : Nat :=
  0x5ac635d8aa3a93e7b3ebbd55769886bc651d06b0cc53b0f63bce3c3e27d2604b

/-- The generator `G` x-coordinate. -/
def secpGx : Nat :=
  0x6b17d1f2e12c4247f8bce6e563a440f277037d812deb33a0f4a13945d898c296

/-- The generator `G` y-coordinate. -/
def secpGy : Nat :=
  0x4fe342e2fe1a7f9b8ee7eb4a7c0f9e162bce33576b315ececbb6406837bf51f5

/-- `is_on_curve` (secp256r1.cpp): `y·y == x·x·x + A·x + B` on Montgomery
values, `A = FE(FIELD_PRIME - 3)`, `B = FE(Curve::B)`. -/
def secp_is_on_curve (xm ym : Nat) : Bool :=
  mulMont 4 secpP (montModInv secpP) ym ym ==
    modAdd (64 * 4) secpP
      (modAdd (64 * 4) secpP
        (mulMont 4 secpP (montModInv secpP)
          (mulMont 4 secpP (montModInv secpP) xm xm) xm)
        (mulMont 4 secpP (montModInv secpP)
          (to_mont 4 secpP (montModInv secpP) (secpP - 3)) xm))
      (to_mont 4 secpP (montModInv secpP) secpB)

/-- `s_inv = n.inv(n.to_mont(s))` over the group order. -/
def secp_sinv (s : Nat) : Nat :=
  modInv 4 secpN (to_mont 4 secpN (montModInv secpN) s)

/-- `u = n.from_mont(n.mul(n.to_mont(a), s_inv))` over the group order. -/
def secp_u (a s : Nat) : Nat :=
  from_mont 4 secpN (montModInv secpN)
    (mulMont 4 secpN (montModInv secpN)
      (to_mont 4 secpN (montModInv secpN) a) (secp_sinv s))

/-- `R = ecc::add(ecc::mul(G, u1), ecc::mul(Q, u2))` as computed by `verify`. -/
def secp_R (z r s qx qy : Nat) : ProjPoint :=
  eccAdd3 4 secpP (montModInv secpP)
    (eccMul3 4 secpP (montModInv secpP) secpN
      (to_mont 4 secpP (montModInv secpP) secpGx)
      (to_mont 4 secpP (montModInv secpP) secpGy) (secp_u z s))
    (eccMul3 4 secpP (montModInv secpP) secpN
      (to_mont 4 secpP (montModInv secpP) qx)
      (to_mont 4 secpP (montModInv secpP) qy) (secp_u r s))

/-- The specification-side point `R = u₁·G + u₂·Q` with `u₁ = z·s⁻¹ mod N`
and `u₂ = r·s⁻¹ mod N` spelled out through a given inverse `sInv` of `s`,
computed with the same embedded curve arithmetic. -/
def secp_Rspec (z r qx qy sInv : Nat) : ProjPoint :=
  eccAdd3 4 secpP (montModInv secpP)
    (eccMul3 4 secpP (montModInv secpP) secpN
      (to_mont 4 secpP (montModInv secpP) secpGx)
      (to_mont 4 secpP (montModInv secpP) secpGy) (z * sInv % secpN))
    (eccMul3 4 secpP (montModInv secpP) secpN
      (to_mont 4 secpP (montModInv secpP) qx)
      (to_mont 4 secpP (montModInv secpP) qy) (r * sInv % secpN))

/-- `x1 = ecc::to_affine(jR).x.value()`: the plain affine x-coordinate. -/
def secp_x1 (p : ProjPoint) : Nat :=
  from_mont 4 secpP (montModInv secpP)
    (mulMont 4 secpP (montModInv secpP) p.x
      (mulMont 4 secpP (montModInv secpP) (modInv 4 secpP p.z)
        (modInv 4 secpP p.z)))

/-- `secp256r1::verify`: range checks on `r`, `s`, the public key
coordinates, the `Q == 0` and curve-membership checks, then the
`x1 == r` comparison after one conditional reduction of `x1` by `N`. -/
def secp_verify (z r s qx qy : Nat) : Bool :=
  if r = 0 ∨ secpN ≤ r ∨ s = 0 ∨ secpN ≤ s then false
  else if secpP ≤ qx ∨ secpP ≤ qy then false
  else if to_mont 4 secpP (montModInv secpP) qx = 0 ∧
      to_mont 4 secpP (montModInv secpP) qy = 0 then false
  else if secp_is_on_curve (to_mont 4 secpP (montModInv secpP) qx)
      (to_mont 4 secpP (montModInv secpP) qy) = false then false
  else if secpN ≤ secp_x1 (secp_R z r s qx qy) then
    secp_x1 (secp_R z r s qx qy) - secpN == r
  else
    secp_x1 (secp_R z r s qx qy) == r

theorem mulMont_ltm (S m x y : Nat) (hS : 1 ≤ S) (hodd : m % 2 = 1)
    (hmW : m < 2 ^ (64 * S)) (hx : x < m) (hy : y < m) :
    mulMont S m (montModInv m) x y < m :=
  (mulMont_spec S m (montModInv m) x y hS (montModInv_spec m hodd) (by omega)
    hmW hx (lt_trans hy hmW)).1

theorem to_mont_one_lt (S m : Nat) (hS : 1 ≤ S) (hodd : m % 2 = 1) (hm1 : 1 < m)
    (hmW : m < 2 ^ (64 * S)) : to_mont S m (montModInv m) 1 < m :=
  (to_mont_spec S m 1 hS hodd hmW hm1).1

theorem eccDbl3_bounds (S m : Nat) (hS : 1 ≤ S) (hodd : m % 2 = 1)
    (hmW : m < 2 ^ (64 * S)) (p : ProjPoint) (hx : p.x < m) (hy : p.y < m)
    (hz : p.z < m) :
    (eccDbl3 S m (montModInv m) p).x < m ∧
    (eccDbl3 S m (montModInv m) p).y < m ∧
    (eccDbl3 S m (montModInv m) p).z < m := by
  simp only [eccDbl3]
  refine ⟨?_, ?_, ?_⟩ <;>
    (repeat' first
      | exact hx
      | exact hy
      | exact hz
      | exact hmW
      | exact hS
      | exact hodd
      | apply mulMont_ltm
      | apply modAdd_lt
      | apply modSub_lt)

theorem eccAddMixed3_bounds (S m : Nat) (hS : 1 ≤ S) (hodd : m % 2 = 1)
    (hm1 : 1 < m) (hmW : m < 2 ^ (64 * S)) (p : ProjPoint) (qx qy : Nat)
    (hx : p.x < m) (hy : p.y < m) (hz : p.z < m) (hqx : qx < m) (hqy : qy < m) :
    (eccAddMixed3 S m (montModInv m) p qx qy).x < m ∧
    (eccAddMixed3 S m (montModInv m) p qx qy).y < m ∧
    (eccAddMixed3 S m (montModInv m) p qx qy).z < m := by
  rw [eccAddMixed3]
  by_cases h1 : qx = 0 ∧ qy = 0
  · rw [if_pos h1]
    exact ⟨hx, hy, hz⟩
  · rw [if_neg h1]
    by_cases h2 : p.z = 0
    · rw [if_pos h2]
      exact ⟨hqx, hqy, to_mont_one_lt S m hS hodd hm1 hmW⟩
    · rw [if_neg h2]
      by_cases h3 : modSub (64 * S) m
            (mulMont S m (montModInv m) qx
              (mulMont S m (montModInv m) p.z p.z)) p.x = 0 ∧
          modSub (64 * S) m
            (mulMont S m (montModInv m) qy
              (mulMont S m (montModInv m) p.z
                (mulMont S m (montModInv m) p.z p.z))) p.y = 0
      · rw [if_pos h3]
        exact eccDbl3_bounds S m hS hodd hmW p hx hy hz
      · rw [if_neg h3]
        refine ⟨?_, ?_, ?_⟩ <;>
          (repeat' first
            | exact hx
            | exact hy
            | exact hz
            | exact hqx
            | exact hqy
            | exact hmW
            | exact hS
            | exact hodd
            | apply mulMont_ltm
            | apply modAdd_lt
            | apply modSub_lt)

theorem eccAdd3_bounds (S m : Nat) (hS : 1 ≤ S) (hodd : m % 2 = 1)
    (hmW : m < 2 ^ (64 * S)) (p q : ProjPoint)
    (hx : p.x < m) (hy : p.y < m) (hz : p.z < m)
    (hqx : q.x < m) (hqy : q.y < m) (hqz : q.z < m) :
    (eccAdd3 S m (montModInv m) p q).x < m ∧
    (eccAdd3 S m (montModInv m) p q).y < m ∧
    (eccAdd3 S m (montModInv m) p q).z < m := by
  rw [eccAdd3]
  by_cases h1 : p.z = 0
  · rw [if_pos h1]
    exact ⟨hqx, hqy, hqz⟩
  · rw [if_neg h1]
    by_cases h2 : q.z = 0
    · rw [if_pos h2]
      exact ⟨hx, hy, hz⟩
    · rw [if_neg h2]
      by_cases h3 : modSub (64 * S) m
            (mulMont S m (montModInv m) q.x
              (mulMont S m (montModInv m) p.z p.z))
            (mulMont S m (montModInv m) p.x
              (mulMont S m (montModInv m) q.z q.z)) = 0 ∧
          modSub (64 * S) m
            (mulMont S m (montModInv m) q.y
              (mulMont S m (montModInv m) p.z
                (mulMont S m (montModInv m) p.z p.z)))
            (mulMont S m (montModInv m) p.y
              (mulMont S m (montModInv m) q.z
                (mulMont S m (montModInv m) q.z q.z))) = 0
      · rw [if_pos h3]
        exact eccDbl3_bounds S m hS hodd hmW p hx hy hz
      · rw [if_neg h3]
        refine ⟨?_, ?_, ?_⟩ <;>
          (repeat' first
            | exact hx
            | exact hy
            | exact hz
            | exact hqx
            | exact hqy
            | exact hqz
            | exact hmW
            | exact hS
            | exact hodd
            | apply mulMont_ltm
            | apply modAdd_lt
            | apply modSub_lt)

theorem eccMulLoop3_bounds (S m : Nat) (hS : 1 ≤ S) (hodd : m % 2 = 1)
    (hm1 : 1 < m) (hmW : m < 2 ^ (64 * S)) (px py c : Nat)
    (hpx : px < m) (hpy : py < m) :
    ∀ i r, r.x < m → r.y < m → r.z < m →
      (eccMulLoop3 S m (montModInv m) px py c i r).x < m ∧
      (eccMulLoop3 S m (montModInv m) px py c i r).y < m ∧
      (eccMulLoop3 S m (montModInv m) px py c i r).z < m := by
  intro i
  induction i with
  | zero =>
    intro r hx hy hz
    exact ⟨hx, hy, hz⟩
  | succ i ih =>
    intro r hx hy hz
    simp only [eccMulLoop3]
    obtain ⟨hdx, hdy, hdz⟩ := eccDbl3_bounds S m hS hodd hmW r hx hy hz
    by_cases hb : test_bit c i = true
    · rw [if_pos hb]
      obtain ⟨hax, hay, haz⟩ := eccAddMixed3_bounds S m hS hodd hm1 hmW
        (eccDbl3 S m (montModInv m) r) px py hdx hdy hdz hpx hpy
      exact ih _ hax hay haz
    · rw [if_neg hb]
      exact ih _ hdx hdy hdz

theorem eccMul3_bounds (S m : Nat) (hS : 1 ≤ S) (hodd : m % 2 = 1)
    (hm1 : 1 < m) (hmW : m < 2 ^ (64 * S)) (ORDER px py c : Nat)
    (hpx : px < m) (hpy : py < m) :
    (eccMul3 S m (montModInv m) ORDER px py c).x < m ∧
    (eccMul3 S m (montModInv m) ORDER px py c).y < m ∧
    (eccMul3 S m (montModInv m) ORDER px py c).z < m := by
  rw [eccMul3]
  exact eccMulLoop3_bounds S m hS hodd hm1 hmW px py _ hpx hpy _
    (ProjPoint.mk 0 (to_mont S m (montModInv m) 1) 0)
    (show (0 : Nat) < m by omega)
    (to_mont_one_lt S m hS hodd hm1 hmW) (show (0 : Nat) < m by omega)

/-- The code's `u = n.from_mont(n.mul(n.to_mont(a), s_inv))` equals the
specification's `a·s⁻¹ mod N` for any modular inverse `sInv` of `s`. -/
theorem secp_u_eq (a s sInv : Nat) (ha : a < 2 ^ (64 * 4)) (hsN : s < secpN)
    (hsinv : s * sInv % secpN = 1) :
    secp_u a s = a * sInv % secpN := by
  have hS : (1 : Nat) ≤ 4 := by norm_num
  have hodd : secpN % 2 = 1 := by decide
  have hm3 : (3 : Nat) ≤ secpN := by decide
  have hmW : secpN < 2 ^ (64 * 4) := by decide
  have hm1 : (1 : Nat) ≤ secpN := by omega
  have hNlt1 : 1 < secpN := by omega
  have hMi := montModInv_spec secpN hodd
  have hsinvc : s * sInv ≡ 1 [MOD secpN] := by
    unfold Nat.ModEq
    rw [hsinv, Nat.mod_eq_of_lt hNlt1]
  have hcop : Nat.Coprime s secpN := Nat.coprime_of_mul_modEq_one sInv hsinvc
  obtain ⟨hsmlt, hsmc⟩ := to_mont_spec 4 secpN s hS hodd hmW hsN
  have hfm : from_mont 4 secpN (montModInv secpN)
      (to_mont 4 secpN (montModInv secpN) s) = s := by
    rw [from_mont, mont_result_eq 4 secpN _ s hS hodd hmW hsmlt hsmc,
      Nat.mod_eq_of_lt hsN]
  have hgcd : Nat.gcd (from_mont 4 secpN (montModInv secpN)
      (to_mont 4 secpN (montModInv secpN) s)) secpN = 1 := by
    rw [hfm]
    exact hcop
  obtain ⟨hinv1, _, _, hinvlt⟩ := modInv_full 4 secpN
    (to_mont 4 secpN (montModInv secpN) s) hS hodd hm3 hmW hsmlt
  have hmul1 := hinv1 hgcd
  obtain ⟨_, hmmc⟩ := mulMont_spec 4 secpN (montModInv secpN)
    (to_mont 4 secpN (montModInv secpN) s)
    (modInv 4 secpN (to_mont 4 secpN (montModInv secpN) s)) hS hMi hm1 hmW
    hsmlt (lt_trans hinvlt hmW)
  obtain ⟨_, h1c⟩ := to_mont_spec 4 secpN 1 hS hodd hmW hNlt1
  rw [Nat.one_mul] at h1c
  have hkey : s * modInv 4 secpN (to_mont 4 secpN (montModInv secpN) s) ≡
      2 ^ (64 * 4) [MOD secpN] := by
    apply modEq_cancel_R 4 secpN _ _ hodd
    calc s * modInv 4 secpN (to_mont 4 secpN (montModInv secpN) s) *
          2 ^ (64 * 4)
        = s * 2 ^ (64 * 4) *
            modInv 4 secpN (to_mont 4 secpN (montModInv secpN) s) := by ring
      _ ≡ to_mont 4 secpN (montModInv secpN) s *
            modInv 4 secpN (to_mont 4 secpN (montModInv secpN) s)
            [MOD secpN] := (hsmc.symm).mul_right _
      _ ≡ mulMont 4 secpN (montModInv secpN)
            (to_mont 4 secpN (montModInv secpN) s)
            (modInv 4 secpN (to_mont 4 secpN (montModInv secpN) s)) *
            2 ^ (64 * 4) [MOD secpN] := hmmc.symm
      _ = to_mont 4 secpN (montModInv secpN) 1 * 2 ^ (64 * 4) := by rw [hmul1]
      _ ≡ 2 ^ (64 * 4) * 2 ^ (64 * 4) [MOD secpN] := h1c.mul_right _
  have hsinvm : modInv 4 secpN (to_mont 4 secpN (montModInv secpN) s) ≡
      sInv * 2 ^ (64 * 4) [MOD secpN] := by
    have h2 : s * (sInv * 2 ^ (64 * 4)) ≡
        s * modInv 4 secpN (to_mont 4 secpN (montModInv secpN) s)
          [MOD secpN] := by
      calc s * (sInv * 2 ^ (64 * 4)) = s * sInv * 2 ^ (64 * 4) := by ring
        _ ≡ 1 * 2 ^ (64 * 4) [MOD secpN] := hsinvc.mul_right _
        _ = 2 ^ (64 * 4) := Nat.one_mul _
        _ ≡ s * modInv 4 secpN (to_mont 4 secpN (montModInv secpN) s)
              [MOD secpN] := hkey.symm
    exact (Nat.ModEq.cancel_left_of_coprime hcop.symm h2.symm)
  obtain ⟨hamlt, hamc⟩ := to_mont_spec_any 4 secpN a hS hodd hmW ha
  obtain ⟨hMlt, hMc⟩ := mulMont_spec 4 secpN (montModInv secpN)
    (to_mont 4 secpN (montModInv secpN) a)
    (modInv 4 secpN (to_mont 4 secpN (montModInv secpN) s)) hS hMi hm1 hmW
    hamlt (lt_trans hinvlt hmW)
  have hMce : mulMont 4 secpN (montModInv secpN)
      (to_mont 4 secpN (montModInv secpN) a)
      (modInv 4 secpN (to_mont 4 secpN (montModInv secpN) s)) ≡
      a * sInv * 2 ^ (64 * 4) [MOD secpN] := by
    apply modEq_cancel_R 4 secpN _ _ hodd
    refine hMc.trans ?_
    calc to_mont 4 secpN (montModInv secpN) a *
          modInv 4 secpN (to_mont 4 secpN (montModInv secpN) s)
        ≡ a * 2 ^ (64 * 4) * (sInv * 2 ^ (64 * 4)) [MOD secpN] :=
          hamc.mul hsinvm
      _ = a * sInv * 2 ^ (64 * 4) * 2 ^ (64 * 4) := by ring
  unfold secp_u secp_sinv from_mont
  exact mont_result_eq 4 secpN _ (a * sInv) hS hodd hmW hMlt hMce

/-- `is_on_curve` on Montgomery coordinates decides the plain curve equation
`y² = x³ + (P-3)·x + B (mod P)` (i.e. `y² = x³ - 3x + B`). -/
theorem secp_on_curve_iff (qx qy : Nat) (hqx : qx < secpP) (hqy : qy < secpP) :
    (secp_is_on_curve (to_mont 4 secpP (montModInv secpP) qx)
        (to_mont 4 secpP (montModInv secpP) qy) = true ↔
      qy * qy % secpP = (qx * qx * qx + (secpP - 3) * qx + secpB) % secpP) := by
  have hS : (1 : Nat) ≤ 4 := by norm_num
  have hodd : secpP % 2 = 1 := by decide
  have hmW : secpP < 2 ^ (64 * 4) := by decide
  have hm1 : (1 : Nat) ≤ secpP := by decide
  have hA : secpP - 3 < secpP := by
    have : (3 : Nat) ≤ secpP := by decide
    omega
  have hB : secpB < secpP := by decide
  have hMi := montModInv_spec secpP hodd
  obtain ⟨hXlt, hXc⟩ := to_mont_spec 4 secpP qx hS hodd hmW hqx
  obtain ⟨hYlt, hYc⟩ := to_mont_spec 4 secpP qy hS hodd hmW hqy
  obtain ⟨hAlt, hAc⟩ := to_mont_spec 4 secpP (secpP - 3) hS hodd hmW hA
  obtain ⟨hBlt, hBc⟩ := to_mont_spec 4 secpP secpB hS hodd hmW hB
  obtain ⟨hyylt, hyyc⟩ := mulMont_spec 4 secpP (montModInv secpP)
    (to_mont 4 secpP (montModInv secpP) qy)
    (to_mont 4 secpP (montModInv secpP) qy) hS hMi hm1 hmW hYlt
    (lt_trans hYlt hmW)
  obtain ⟨hxxlt, hxxc⟩ := mulMont_spec 4 secpP (montModInv secpP)
    (to_mont 4 secpP (montModInv secpP) qx)
    (to_mont 4 secpP (montModInv secpP) qx) hS hMi hm1 hmW hXlt
    (lt_trans hXlt hmW)
  obtain ⟨hxxxlt, hxxxc⟩ := mulMont_spec 4 secpP (montModInv secpP)
    (mulMont 4 secpP (montModInv secpP)
      (to_mont 4 secpP (montModInv secpP) qx)
      (to_mont 4 secpP (montModInv secpP) qx))
    (to_mont 4 secpP (montModInv secpP) qx) hS hMi hm1 hmW hxxlt
    (lt_trans hXlt hmW)
  obtain ⟨haxlt, haxc⟩ := mulMont_spec 4 secpP (montModInv secpP)
    (to_mont 4 secpP (montModInv secpP) (secpP - 3))
    (to_mont 4 secpP (montModInv secpP) qx) hS hMi hm1 hmW hAlt
    (lt_trans hXlt hmW)
  have hyy2 : mulMont 4 secpP (montModInv secpP)
      (to_mont 4 secpP (montModInv secpP) qy)
      (to_mont 4 secpP (montModInv secpP) qy) ≡
      qy * qy * 2 ^ (64 * 4) [MOD secpP] := by
    apply modEq_cancel_R 4 secpP _ _ hodd
    refine hyyc.trans ?_
    calc to_mont 4 secpP (montModInv secpP) qy *
          to_mont 4 secpP (montModInv secpP) qy
        ≡ qy * 2 ^ (64 * 4) * (qy * 2 ^ (64 * 4)) [MOD secpP] := hYc.mul hYc
      _ = qy * qy * 2 ^ (64 * 4) * 2 ^ (64 * 4) := by ring
  have hxx2 : mulMont 4 secpP (montModInv secpP)
      (to_mont 4 secpP (montModInv secpP) qx)
      (to_mont 4 secpP (montModInv secpP) qx) ≡
      qx * qx * 2 ^ (64 * 4) [MOD secpP] := by
    apply modEq_cancel_R 4 secpP _ _ hodd
    refine hxxc.trans ?_
    calc to_mont 4 secpP (montModInv secpP) qx *
          to_mont 4 secpP (montModInv secpP) qx
        ≡ qx * 2 ^ (64 * 4) * (qx * 2 ^ (64 * 4)) [MOD secpP] := hXc.mul hXc
      _ = qx * qx * 2 ^ (64 * 4) * 2 ^ (64 * 4) := by ring
  have hxxx2 : mulMont 4 secpP (montModInv secpP)
      (mulMont 4 secpP (montModInv secpP)
        (to_mont 4 secpP (montModInv secpP) qx)
        (to_mont 4 secpP (montModInv secpP) qx))
      (to_mont 4 secpP (montModInv secpP) qx) ≡
      qx * qx * qx * 2 ^ (64 * 4) [MOD secpP] := by
    apply modEq_cancel_R 4 secpP _ _ hodd
    refine hxxxc.trans ?_
    calc mulMont 4 secpP (montModInv secpP)
          (to_mont 4 secpP (montModInv secpP) qx)
          (to_mont 4 secpP (montModInv secpP) qx) *
          to_mont 4 secpP (montModInv secpP) qx
        ≡ qx * qx * 2 ^ (64 * 4) * (qx * 2 ^ (64 * 4)) [MOD secpP] :=
          hxx2.mul hXc
      _ = qx * qx * qx * 2 ^ (64 * 4) * 2 ^ (64 * 4) := by ring
  have hax2 : mulMont 4 secpP (montModInv secpP)
      (to_mont 4 secpP (montModInv secpP) (secpP - 3))
      (to_mont 4 secpP (montModInv secpP) qx) ≡
      (secpP - 3) * qx * 2 ^ (64 * 4) [MOD secpP] := by
    apply modEq_cancel_R 4 secpP _ _ hodd
    refine haxc.trans ?_
    calc to_mont 4 secpP (montModInv secpP) (secpP - 3) *
          to_mont 4 secpP (montModInv secpP) qx
        ≡ (secpP - 3) * 2 ^ (64 * 4) * (qx * 2 ^ (64 * 4)) [MOD secpP] :=
          hAc.mul hXc
      _ = (secpP - 3) * qx * 2 ^ (64 * 4) * 2 ^ (64 * 4) := by ring
  have hadd1eq := modAdd_eq (64 * 4) secpP
    (mulMont 4 secpP (montModInv secpP)
      (mulMont 4 secpP (montModInv secpP)
        (to_mont 4 secpP (montModInv secpP) qx)
        (to_mont 4 secpP (montModInv secpP) qx))
      (to_mont 4 secpP (montModInv secpP) qx))
    (mulMont 4 secpP (montModInv secpP)
      (to_mont 4 secpP (montModInv secpP) (secpP - 3))
      (to_mont 4 secpP (montModInv secpP) qx)) hxxxlt haxlt hmW
  have hadd1lt := modAdd_lt (64 * 4) secpP
    (mulMont 4 secpP (montModInv secpP)
      (mulMont 4 secpP (montModInv secpP)
        (to_mont 4 secpP (montModInv secpP) qx)
        (to_mont 4 secpP (montModInv secpP) qx))
      (to_mont 4 secpP (montModInv secpP) qx))
    (mulMont 4 secpP (montModInv secpP)
      (to_mont 4 secpP (montModInv secpP) (secpP - 3))
      (to_mont 4 secpP (montModInv secpP) qx)) hxxxlt haxlt hmW
  have hadd1c : modAdd (64 * 4) secpP
      (mulMont 4 secpP (montModInv secpP)
        (mulMont 4 secpP (montModInv secpP)
          (to_mont 4 secpP (montModInv secpP) qx)
          (to_mont 4 secpP (montModInv secpP) qx))
        (to_mont 4 secpP (montModInv secpP) qx))
      (mulMont 4 secpP (montModInv secpP)
        (to_mont 4 secpP (montModInv secpP) (secpP - 3))
        (to_mont 4 secpP (montModInv secpP) qx)) ≡
      (qx * qx * qx + (secpP - 3) * qx) * 2 ^ (64 * 4) [MOD secpP] := by
    rw [hadd1eq]
    refine (Nat.mod_modEq _ _).trans ?_
    refine (hxxx2.add hax2).trans ?_
    rw [Nat.add_mul]
  have hadd2eq := modAdd_eq (64 * 4) secpP
    (modAdd (64 * 4) secpP
      (mulMont 4 secpP (montModInv secpP)
        (mulMont 4 secpP (montModInv secpP)
          (to_mont 4 secpP (montModInv secpP) qx)
          (to_mont 4 secpP (montModInv secpP) qx))
        (to_mont 4 secpP (montModInv secpP) qx))
      (mulMont 4 secpP (montModInv secpP)
        (to_mont 4 secpP (montModInv secpP) (secpP - 3))
        (to_mont 4 secpP (montModInv secpP) qx)))
    (to_mont 4 secpP (montModInv secpP) secpB) hadd1lt hBlt hmW
  have hadd2lt := modAdd_lt (64 * 4) secpP
    (modAdd (64 * 4) secpP
      (mulMont 4 secpP (montModInv secpP)
        (mulMont 4 secpP (montModInv secpP)
          (to_mont 4 secpP (montModInv secpP) qx)
          (to_mont 4 secpP (montModInv secpP) qx))
        (to_mont 4 secpP (montModInv secpP) qx))
      (mulMont 4 secpP (montModInv secpP)
        (to_mont 4 secpP (montModInv secpP) (secpP - 3))
        (to_mont 4 secpP (montModInv secpP) qx)))
    (to_mont 4 secpP (montModInv secpP) secpB) hadd1lt hBlt hmW
  have hadd2c : modAdd (64 * 4) secpP
      (modAdd (64 * 4) secpP
        (mulMont 4 secpP (montModInv secpP)
          (mulMont 4 secpP (montModInv secpP)
            (to_mont 4 secpP (montModInv secpP) qx)
            (to_mont 4 secpP (montModInv secpP) qx))
          (to_mont 4 secpP (montModInv secpP) qx))
        (mulMont 4 secpP (montModInv secpP)
          (to_mont 4 secpP (montModInv secpP) (secpP - 3))
          (to_mont 4 secpP (montModInv secpP) qx)))
      (to_mont 4 secpP (montModInv secpP) secpB) ≡
      (qx * qx * qx + (secpP - 3) * qx + secpB) * 2 ^ (64 * 4) [MOD secpP] := by
    rw [hadd2eq]
    refine (Nat.mod_modEq _ _).trans ?_
    refine (hadd1c.add hBc).trans ?_
    rw [Nat.add_mul (qx * qx * qx + (secpP - 3) * qx) secpB]
  rw [secp_is_on_curve, beq_iff_eq]
  constructor
  · intro heq
    have hstep : qy * qy * 2 ^ (64 * 4) ≡
        (qx * qx * qx + (secpP - 3) * qx + secpB) * 2 ^ (64 * 4)
          [MOD secpP] := hyy2.symm.trans (heq ▸ hadd2c)
    exact modEq_cancel_R 4 secpP _ _ hodd hstep
  · intro heq
    have hc : qy * qy ≡ qx * qx * qx + (secpP - 3) * qx + secpB
        [MOD secpP] := heq
    have hstep := hyy2.trans ((hc.mul_right (2 ^ (64 * 4))).trans hadd2c.symm)
    unfold Nat.ModEq at hstep
    rw [Nat.mod_eq_of_lt hyylt, Nat.mod_eq_of_lt hadd2lt] at hstep
    exact hstep

theorem secp_x1_lt (p : ProjPoint) (hx : p.x < secpP) (hz : p.z < secpP) :
    secp_x1 p < secpP := by
  have hS : (1 : Nat) ≤ 4 := by norm_num
  have hodd : secpP % 2 = 1 := by decide
  have hm3 : (3 : Nat) ≤ secpP := by decide
  have hmW : secpP < 2 ^ (64 * 4) := by decide
  have hinvlt : modInv 4 secpP p.z < secpP :=
    (modInv_full 4 secpP p.z hS hodd hm3 hmW hz).2.2.2
  have hzz : mulMont 4 secpP (montModInv secpP) (modInv 4 secpP p.z)
      (modInv 4 secpP p.z) < secpP :=
    mulMont_ltm 4 secpP _ _ hS hodd hmW hinvlt hinvlt
  have hw : mulMont 4 secpP (montModInv secpP) p.x
      (mulMont 4 secpP (montModInv secpP) (modInv 4 secpP p.z)
        (modInv 4 secpP p.z)) < secpP :=
    mulMont_ltm 4 secpP _ _ hS hodd hmW hx hzz
  unfold secp_x1 from_mont
  exact (mulMont_spec 4 secpP (montModInv secpP) _ 1 hS
    (montModInv_spec secpP hodd) (by omega) hmW hw
    (Nat.one_lt_two_pow_iff.2 (by omega))).1

theorem secp_x1_zero (p : ProjPoint) (hx : p.x < secpP) (hz : p.z = 0) :
    secp_x1 p = 0 := by
  have hS : (1 : Nat) ≤ 4 := by norm_num
  have hodd : secpP % 2 = 1 := by decide
  have hm3 : (3 : Nat) ≤ secpP := by decide
  have hmW : secpP < 2 ^ (64 * 4) := by decide
  have hinv0 : modInv 4 secpP 0 = 0 :=
    (modInv_full 4 secpP 0 hS hodd hm3 hmW (by omega)).2.2.1
  unfold secp_x1
  rw [hz, hinv0, mulMont_zero_right 4 secpP 0 hS hodd hmW (by omega),
    mulMont_zero_right 4 secpP p.x hS hodd hmW hx, from_mont]
  rw [mont_result_eq 4 secpP 0 0 hS hodd hmW (by omega)
    (by rw [Nat.zero_mul]), Nat.zero_mod]

/-- C5: `secp256r1::verify(h, r, s, qx, qy)` returns `true` iff `r, s` lie in
`[1, N-1]`, `qx, qy` are below the field prime, `Q = (qx, qy)` is not the
point at infinity and lies on the curve `y² = x³ - 3x + B`, and the point
`R = u₁·G + u₂·Q` (with `u₁ = z·s⁻¹ mod N`, `u₂ = r·s⁻¹ mod N`, computed with
the embedded curve arithmetic) is not at infinity and satisfies
`R.x mod N = r`; in every other case (any failed condition) it returns
`false`. -/
theorem secp256r1_verify_correct (z r s qx qy : Nat) (hz : z < 2 ^ (64 * 4)) :
    ((r = 0 ∨ secpN ≤ r ∨ s = 0 ∨ secpN ≤ s ∨ secpP ≤ qx ∨ secpP ≤ qy ∨
        (qx = 0 ∧ qy = 0) ∨
        qy * qy % secpP ≠ (qx * qx * qx + (secpP - 3) * qx + secpB) % secpP) →
      secp_verify z r s qx qy = false) ∧
    (∀ sInv, s * sInv % secpN = 1 →
      (secp_verify z r s qx qy = true ↔
        ((1 ≤ r ∧ r < secpN ∧ 1 ≤ s ∧ s < secpN) ∧
          (qx < secpP ∧ qy < secpP ∧ ¬(qx = 0 ∧ qy = 0)) ∧
          qy * qy % secpP =
            (qx * qx * qx + (secpP - 3) * qx + secpB) % secpP ∧
          (secp_Rspec z r qx qy sInv).z ≠ 0 ∧
          secp_x1 (secp_Rspec z r qx qy sInv) % secpN = r))) := by
  have hS : (1 : Nat) ≤ 4 := by norm_num
  have hoddP : secpP % 2 = 1 := by decide
  have hmWP : secpP < 2 ^ (64 * 4) := by decide
  have h1P : (1 : Nat) < secpP := by decide
  constructor
  · intro hbad
    rw [secp_verify]
    by_cases h1 : r = 0 ∨ secpN ≤ r ∨ s = 0 ∨ secpN ≤ s
    · rw [if_pos h1]
    · rw [if_neg h1]
      by_cases h2 : secpP ≤ qx ∨ secpP ≤ qy
      · rw [if_pos h2]
      · rw [if_neg h2]
        push_neg at h1 h2
        by_cases h3 : to_mont 4 secpP (montModInv secpP) qx = 0 ∧
            to_mont 4 secpP (montModInv secpP) qy = 0
        · rw [if_pos h3]
        · rw [if_neg h3]
          have hq0 : ¬ (qx = 0 ∧ qy = 0) := by
            intro hqq
            exact h3
              ⟨(to_mont_eq_zero 4 secpP qx hS hoddP hmWP h2.1).2 hqq.1,
                (to_mont_eq_zero 4 secpP qy hS hoddP hmWP h2.2).2 hqq.2⟩
          have hcurvefail : qy * qy % secpP ≠
              (qx * qx * qx + (secpP - 3) * qx + secpB) % secpP := by
            rcases hbad with h | h | h | h | h | h | h | h
            · exact absurd h h1.1
            · exfalso; omega
            · exact absurd h h1.2.2.1
            · exfalso; omega
            · exfalso; omega
            · exfalso; omega
            · exact absurd h hq0
            · exact h
          have h4 : secp_is_on_curve (to_mont 4 secpP (montModInv secpP) qx)
              (to_mont 4 secpP (montModInv secpP) qy) = false := by
            rcases hoc : secp_is_on_curve
                (to_mont 4 secpP (montModInv secpP) qx)
                (to_mont 4 secpP (montModInv secpP) qy) with _ | _
            · rfl
            · exact absurd ((secp_on_curve_iff qx qy h2.1 h2.2).1 hoc)
                hcurvefail
          rw [if_pos h4]
  · intro sInv hsinv
    rw [secp_verify]
    by_cases h1 : r = 0 ∨ secpN ≤ r ∨ s = 0 ∨ secpN ≤ s
    · rw [if_pos h1]
      refine iff_of_false (by simp) ?_
      rintro ⟨⟨hr1, hr2, hs1, hs2⟩, _⟩
      omega
    · rw [if_neg h1]
      push_neg at h1
      obtain ⟨hr0, hrN, hs0, hsN2⟩ := h1
      by_cases h2 : secpP ≤ qx ∨ secpP ≤ qy
      · rw [if_pos h2]
        refine iff_of_false (by simp) ?_
        rintro ⟨_, ⟨hqx2, hqy2, _⟩, _⟩
        omega
      · rw [if_neg h2]
        push_neg at h2
        obtain ⟨hqxP, hqyP⟩ := h2
        have hq0iff : (to_mont 4 secpP (montModInv secpP) qx = 0 ∧
            to_mont 4 secpP (montModInv secpP) qy = 0) ↔ (qx = 0 ∧ qy = 0) := by
          constructor
          · intro hqq
            exact ⟨(to_mont_eq_zero 4 secpP qx hS hoddP hmWP hqxP).1 hqq.1,
              (to_mont_eq_zero 4 secpP qy hS hoddP hmWP hqyP).1 hqq.2⟩
          · intro hqq
            exact ⟨(to_mont_eq_zero 4 secpP qx hS hoddP hmWP hqxP).2 hqq.1,
              (to_mont_eq_zero 4 secpP qy hS hoddP hmWP hqyP).2 hqq.2⟩
        by_cases h3 : to_mont 4 secpP (montModInv secpP) qx = 0 ∧
            to_mont 4 secpP (montModInv secpP) qy = 0
        · rw [if_pos h3]
          refine iff_of_false (by simp) ?_
          rintro ⟨_, ⟨_, _, hne⟩, _⟩
          exact hne (hq0iff.1 h3)
        · rw [if_neg h3]
          have hq0 : ¬ (qx = 0 ∧ qy = 0) := fun hqq => h3 (hq0iff.2 hqq)
          by_cases h4 : secp_is_on_curve
              (to_mont 4 secpP (montModInv secpP) qx)
              (to_mont 4 secpP (montModInv secpP) qy) = false
          · rw [if_pos h4]
            refine iff_of_false (by simp) ?_
            rintro ⟨_, _, hcv, _⟩
            have := (secp_on_curve_iff qx qy hqxP hqyP).2 hcv
            rw [this] at h4
            exact absurd h4 (by simp)
          · rw [if_neg h4]
            have hcurveT : secp_is_on_curve
                (to_mont 4 secpP (montModInv secpP) qx)
                (to_mont 4 secpP (montModInv secpP) qy) = true := by
              rcases hoc : secp_is_on_curve
                  (to_mont 4 secpP (montModInv secpP) qx)
                  (to_mont 4 secpP (montModInv secpP) qy) with _ | _
              · exact absurd hoc h4
              · rfl
            have hcurveEq := (secp_on_curve_iff qx qy hqxP hqyP).1 hcurveT
            have hu1 : secp_u z s = z * sInv % secpN :=
              secp_u_eq z s sInv hz hsN2 hsinv
            have hrW : r < 2 ^ (64 * 4) :=
              lt_trans hrN (by decide)
            have hu2 : secp_u r s = r * sInv % secpN :=
              secp_u_eq r s sInv hrW hsN2 hsinv
            have hReq : secp_R z r s qx qy = secp_Rspec z r qx qy sInv := by
              rw [secp_R, secp_Rspec, hu1, hu2]
            rw [hReq]
            have hGx : to_mont 4 secpP (montModInv secpP) secpGx < secpP :=
              (to_mont_spec 4 secpP secpGx hS hoddP hmWP (by decide)).1
            have hGy : to_mont 4 secpP (montModInv secpP) secpGy < secpP :=
              (to_mont_spec 4 secpP secpGy hS hoddP hmWP (by decide)).1
            have hQx : to_mont 4 secpP (montModInv secpP) qx < secpP :=
              (to_mont_spec 4 secpP qx hS hoddP hmWP hqxP).1
            have hQy : to_mont 4 secpP (montModInv secpP) qy < secpP :=
              (to_mont_spec 4 secpP qy hS hoddP hmWP hqyP).1
            have hRb : (secp_Rspec z r qx qy sInv).x < secpP ∧
                (secp_Rspec z r qx qy sInv).y < secpP ∧
                (secp_Rspec z r qx qy sInv).z < secpP := by
              rw [secp_Rspec]
              obtain ⟨hT1x, hT1y, hT1z⟩ := eccMul3_bounds 4 secpP hS hoddP
                h1P hmWP secpN (to_mont 4 secpP (montModInv secpP) secpGx)
                (to_mont 4 secpP (montModInv secpP) secpGy)
                (z * sInv % secpN) hGx hGy
              obtain ⟨hT2x, hT2y, hT2z⟩ := eccMul3_bounds 4 secpP hS hoddP
                h1P hmWP secpN (to_mont 4 secpP (montModInv secpP) qx)
                (to_mont 4 secpP (montModInv secpP) qy)
                (r * sInv % secpN) hQx hQy
              exact eccAdd3_bounds 4 secpP hS hoddP hmWP _ _ hT1x hT1y hT1z
                hT2x hT2y hT2z
            have hx1lt := secp_x1_lt (secp_Rspec z r qx qy sInv) hRb.1
              hRb.2.2
            have hP2N : secpP < 2 * secpN := by decide
            by_cases hz0 : (secp_Rspec z r qx qy sInv).z = 0
            · have hx10 := secp_x1_zero (secp_Rspec z r qx qy sInv) hRb.1 hz0
              rw [hx10]
              rw [if_neg (by decide)]
              refine iff_of_false ?_ ?_
              · intro h
                rw [beq_iff_eq] at h
                omega
              · rintro ⟨_, _, _, hzz, _⟩
                exact hzz hz0
            · constructor
              · intro hv
                refine ⟨⟨by omega, hrN, by omega, hsN2⟩,
                  ⟨hqxP, hqyP, hq0⟩, hcurveEq, hz0, ?_⟩
                by_cases hge : secpN ≤ secp_x1 (secp_Rspec z r qx qy sInv)
                · rw [if_pos hge, beq_iff_eq] at hv
                  have hmm : secp_x1 (secp_Rspec z r qx qy sInv) % secpN =
                      secp_x1 (secp_Rspec z r qx qy sInv) - secpN := by
                    rw [Nat.mod_eq_sub_mod hge, Nat.mod_eq_of_lt (by omega)]
                  omega
                · rw [if_neg hge, beq_iff_eq] at hv
                  rw [Nat.mod_eq_of_lt (by omega)]
                  exact hv
              · rintro ⟨_, _, _, _, hxr⟩
                by_cases hge : secpN ≤ secp_x1 (secp_Rspec z r qx qy sInv)
                · rw [if_pos hge, beq_iff_eq]
                  have hmm : secp_x1 (secp_Rspec z r qx qy sInv) % secpN =
                      secp_x1 (secp_Rspec z r qx qy sInv) - secpN := by
                    rw [Nat.mod_eq_sub_mod hge, Nat.mod_eq_of_lt (by omega)]
                  omega
                · rw [if_neg hge, beq_iff_eq]
                  rw [Nat.mod_eq_of_lt (by omega)] at hxr
                  exact hxr

theorem secp256r1_verify_correct_witness :
    secp_verify 1 0 1 0 0 = false :=
  (secp256r1_verify_correct 1 0 1 0 0 (by decide)).1 (Or.inl rfl)
